import Mathlib

/-!
Verification of the GraphSense incremental planar-graph engine.

The development shallowly embeds the Python sources (`graph_model.py`,
`geometry.py`, `commands.py`) into Lean:

* pure structure-level operations (`PlanarGraph.add_vertex`, `add_edge`,
  `remove_vertex`, `update_periphery`, `get_periphery_segment`,
  serialization) are generic in the coordinate type `K`, a linear ordered
  field, so that the same definitions cover exact rational instances
  (used for executable witnesses) and the real-number idealization of the
  Python floats;
* geometric routines that use square roots and trigonometry
  (`GeometryEngine.calculate_vertex_position`, the redraw passes, the
  initial triangle) are embedded at `K = ℝ`;
* Python exceptions (`ValueError`, `KeyError`) are embedded as `Except`
  results; the `try/except` blocks of `commands.py` are embedded by
  threading the intermediate graph state so that an exception raised
  after a mutation returns the mutated state, exactly as in Python;
* Python `dict`s are association lists with replace-or-append assignment
  (`dictInsert`), Python `set`s are duplicate-free lists with
  membership-guarded insertion.

Reads of `graph.vertices[id]` inside the relaxation engine, which in
Python raise `KeyError` for a missing id, are embedded as defaulted
lookups (`PlanarGraph.readV`); every theorem that exercises those reads
carries a well-formedness hypothesis under which the key is present, so
the defaulted branch is never observed.
-/

/-- `len(str(id))` for a natural number: the number of decimal digits. -/
def digitCount (n : Nat) : Nat :=
  if n = 0 then 1 else (Nat.digits 10 n).length

/-- `Vertex._calculate_diameter`: `30 + (len(str(id)) - 1) * 5`. -/
def calculateDiameter (id : Nat) : Nat :=
  30 + (digitCount id - 1) * 5

/-- A vertex of the planar graph (`class Vertex`). -/
structure Vertex (K : Type) where
  id : Nat
  x : K
  y : K
  color_index : Nat
  diameter : Nat
  deriving DecidableEq

/-- `Vertex.__init__`: stores the fields and computes the diameter. -/
def Vertex.make {K : Type} (id : Nat) (x y : K) (color_index : Nat) : Vertex K :=
  ⟨id, x, y, color_index, calculateDiameter id⟩

/-- Serialized form of a vertex (`Vertex.to_dict`).  The `diameter`
field is optional because `Vertex.from_dict` reads it with
`data.get('diameter', computed)`. -/
structure VertexDict (K : Type) where
  id : Nat
  x : K
  y : K
  color_index : Nat
  diameter : Option Nat
  deriving DecidableEq

/-- `Vertex.to_dict`. -/
def Vertex.to_dict {K : Type} (v : Vertex K) : VertexDict K :=
  ⟨v.id, v.x, v.y, v.color_index, some v.diameter⟩

/-- `Vertex.from_dict`: rebuild from the stored fields, then restore the
stored diameter when present. -/
def Vertex.from_dict {K : Type} (d : VertexDict K) : Vertex K :=
  let v := Vertex.make d.id d.x d.y d.color_index
  { v with diameter := d.diameter.getD v.diameter }

/-- An edge (`class Edge`): the constructor canonicalizes the pair so
that `v1_id ≤ v2_id`.  Python also stores a string id `"v1-v2"`; since
that string is determined by (and determines) the canonical pair, edge
equality is equality of the two fields. -/
structure Edge where
  v1_id : Nat
  v2_id : Nat
  deriving DecidableEq

/-- `Edge.__init__`: canonical ordering `min`/`max`. -/
def Edge.make (a b : Nat) : Edge :=
  ⟨min a b, max a b⟩

/-- `Edge.contains_vertex`. -/
def Edge.contains_vertex (e : Edge) (id : Nat) : Bool :=
  id == e.v1_id || id == e.v2_id

/-- Serialized form of an edge (`Edge.to_dict`). -/
structure EdgeDict where
  v1_id : Nat
  v2_id : Nat
  deriving DecidableEq

/-- `Edge.to_dict`. -/
def Edge.to_dict (e : Edge) : EdgeDict :=
  ⟨e.v1_id, e.v2_id⟩

/-- `Edge.from_dict`. -/
def Edge.from_dict (d : EdgeDict) : Edge :=
  Edge.make d.v1_id d.v2_id

/-- Errors raised by `PlanarGraph` methods: `invalidReference` is the
`ValueError("Both vertices must exist in the graph")` of `add_edge`;
`malformedSnapshot` is the `KeyError` raised by `from_dict` when an edge
of the document references an id absent from its vertex map. -/
inductive GraphError where
  | invalidReference
  | malformedSnapshot
  deriving DecidableEq

/-- Python `dict` assignment `d[k] = v` on an association list:
replace the value in place if the key is present, else append. -/
def dictInsert {β : Type} (l : List (Nat × β)) (k : Nat) (v : β) : List (Nat × β) :=
  if (l.lookup k).isSome then
    l.map (fun p => if p.1 = k then (k, v) else p)
  else
    l ++ [(k, v)]

/-- Python `del d[k]` on an association list. -/
def dictErase {β : Type} (l : List (Nat × β)) (k : Nat) : List (Nat × β) :=
  l.filter (fun p => p.1 != k)

/-- Python `set.add` on a duplicate-free list. -/
def setAdd (s : List Nat) (x : Nat) : List Nat :=
  if x ∈ s then s else s ++ [x]

/-- Python `set.discard` on a duplicate-free list. -/
def setDiscard (s : List Nat) (x : Nat) : List Nat :=
  s.filter (fun y => y != x)

/-- `self.adjacency[k].add(v)`.  In Python a missing key `k` raises
`KeyError`; the embedding leaves the list unchanged in that case, and
every use in the development is guarded by the key being present. -/
def adjAdd (adj : List (Nat × List Nat)) (k v : Nat) : List (Nat × List Nat) :=
  adj.map (fun p => if p.1 = k then (p.1, setAdd p.2 v) else p)

/-- `self.adjacency[k].discard(v)` (missing `k` cannot occur at use sites). -/
def adjDiscard (adj : List (Nat × List Nat)) (k v : Nat) : List (Nat × List Nat) :=
  adj.map (fun p => if p.1 = k then (p.1, setDiscard p.2 v) else p)

/-- The graph state (`class PlanarGraph`). -/
structure PlanarGraph (K : Type) where
  vertices : List (Nat × Vertex K)
  edges : List Edge
  adjacency : List (Nat × List Nat)
  periphery : List Nat
  next_vertex_id : Nat
  deriving DecidableEq

/-- `PlanarGraph.__init__`. -/
def PlanarGraph.init (K : Type) : PlanarGraph K :=
  ⟨[], [], [], [], 1⟩

/-- The list of vertex ids present as keys of the vertex map. -/
def PlanarGraph.vertexKeys {K : Type} (g : PlanarGraph K) : List Nat :=
  g.vertices.map (fun p => p.1)

/-- `PlanarGraph.add_vertex`: allocate the next id, store the vertex,
initialize an empty adjacency set; returns the new graph and the id. -/
def PlanarGraph.add_vertex {K : Type} (g : PlanarGraph K) (x y : K)
    (color_index : Nat) : PlanarGraph K × Nat :=
  let vertex_id := g.next_vertex_id
  let vertex := Vertex.make vertex_id x y color_index
  (⟨dictInsert g.vertices vertex_id vertex,
    g.edges,
    dictInsert g.adjacency vertex_id [],
    g.periphery,
    g.next_vertex_id + 1⟩, vertex_id)

/-- `PlanarGraph.add_edge`: raises `InvalidReference` when an endpoint
is absent; returns `false` (no mutation) for self-loops and existing
canonical edges; otherwise inserts the edge and updates both adjacency
sets and returns `true`. -/
def PlanarGraph.add_edge {K : Type} (g : PlanarGraph K) (v1_id v2_id : Nat) :
    Except GraphError (PlanarGraph K × Bool) :=
  if v1_id ∉ g.vertexKeys ∨ v2_id ∉ g.vertexKeys then
    .error .invalidReference
  else if v1_id = v2_id then
    .ok (g, false)
  else
    let edge := Edge.make v1_id v2_id
    if edge ∈ g.edges then
      .ok (g, false)
    else
      .ok (⟨g.vertices,
            g.edges ++ [edge],
            adjAdd (adjAdd g.adjacency v1_id v2_id) v2_id v1_id,
            g.periphery,
            g.next_vertex_id⟩, true)

/-- `PlanarGraph.remove_vertex`: no-op when absent; otherwise removes
incident edges, cleans the adjacency of the listed neighbors, deletes
the vertex and its adjacency entry, and erases the id from the
periphery (first occurrence, as Python `list.remove`). -/
def PlanarGraph.remove_vertex {K : Type} (g : PlanarGraph K) (vertex_id : Nat) :
    PlanarGraph K :=
  if vertex_id ∉ g.vertexKeys then g
  else
    let neighbors := (g.adjacency.lookup vertex_id).getD []
    let adj1 := neighbors.foldl (fun a n => adjDiscard a n vertex_id) g.adjacency
    ⟨dictErase g.vertices vertex_id,
     g.edges.filter (fun e => !(e.contains_vertex vertex_id)),
     dictErase adj1 vertex_id,
     g.periphery.erase vertex_id,
     g.next_vertex_id⟩

/-- `PlanarGraph.get_neighbors`: the adjacency set, empty when absent. -/
def PlanarGraph.get_neighbors {K : Type} (g : PlanarGraph K) (vertex_id : Nat) :
    List Nat :=
  (g.adjacency.lookup vertex_id).getD []

/-- A sort key triple `(v.x, v.y, v.id)` as built by `update_periphery`. -/
abbrev Pt (K : Type) := K × K × Nat

/-- The position carried by a sort triple. -/
def Pt.pos {K : Type} (p : Pt K) : K × K := (p.1, p.2.1)

/-- The vertex id carried by a sort triple. -/
def Pt.vid {K : Type} (p : Pt K) : Nat := p.2.2

/-- The cross product used by the hull scan:
`(a[0]-o[0])*(b[1]-o[1]) - (a[1]-o[1])*(b[0]-o[0])`. -/
def cross3 {K : Type} [LinearOrderedField K] (o a b : Pt K) : K :=
  (a.1 - o.1) * (b.2.1 - o.2.1) - (a.2.1 - o.2.1) * (b.1 - o.1)

/-- Python tuple comparison on `(x, y, id)` triples, as a Bool for the
merge sort. -/
def ptLe {K : Type} [LinearOrderedField K] (a b : Pt K) : Bool :=
  decide (a.1 < b.1) ||
    (decide (a.1 = b.1) &&
      (decide (a.2.1 < b.2.1) ||
        (decide (a.2.1 = b.2.1) && decide (a.2.2 ≤ b.2.2))))

/-- One pop loop of the monotone-chain scan: with the chain kept in
reversed order (most recent first), pop while the turn through the last
two elements and the new point is not a strict turn (`cross ≤ 0`). -/
def popChain {K : Type} [LinearOrderedField K] (st : List (Pt K)) (p : Pt K) :
    List (Pt K) :=
  match st with
  | b :: a :: rest =>
      if cross3 a b p ≤ 0 then popChain (a :: rest) p else b :: a :: rest
  | _ => st

/-- The half-hull scan: fold the (sorted) points, popping then pushing;
the result is the chain in reversed order. -/
def chainScan {K : Type} [LinearOrderedField K] (pts : List (Pt K)) : List (Pt K) :=
  pts.foldl (fun st p => p :: popChain st p) []

/-- The `(x, y, id)` triples of a graph's vertices, in storage order. -/
def PlanarGraph.toPts {K : Type} (g : PlanarGraph K) : List (Pt K) :=
  g.vertices.map (fun p => (p.2.x, p.2.y, p.2.id))

/-- The monotone-chain hull of a triple list: sort lexicographically,
build the lower and the upper chain, drop the repeated endpoint of
each, and concatenate. -/
def monotoneHull {K : Type} [LinearOrderedField K] (pts : List (Pt K)) :
    List (Pt K) :=
  let sorted := pts.mergeSort ptLe
  let lower := (chainScan sorted).reverse
  let upper := (chainScan sorted.reverse).reverse
  lower.dropLast ++ upper.dropLast

/-- `PlanarGraph.update_periphery`: with fewer than 3 vertices the
periphery is the key list; otherwise it is the id payload of the
monotone-chain hull of the `(x, y, id)` triples. -/
def PlanarGraph.update_periphery {K : Type} [LinearOrderedField K]
    (g : PlanarGraph K) : PlanarGraph K :=
  if g.vertices.length < 3 then
    { g with periphery := g.vertexKeys }
  else
    let vertices_list := g.toPts
    if vertices_list.length < 3 then
      { g with periphery := vertices_list.map Pt.vid }
    else
      { g with periphery := (monotoneHull vertices_list).map Pt.vid }

/-- `PlanarGraph.get_periphery_segment`: the clockwise run between two
periphery ids, wrapping past the end when the start index exceeds the
end index; empty when either id is not on the periphery. -/
def PlanarGraph.get_periphery_segment {K : Type} (g : PlanarGraph K)
    (start_id end_id : Nat) : List Nat :=
  if start_id ∉ g.periphery ∨ end_id ∉ g.periphery then []
  else
    let start_idx := g.periphery.indexOf start_id
    let end_idx := g.periphery.indexOf end_id
    if start_idx ≤ end_idx then
      (g.periphery.drop start_idx).take (end_idx + 1 - start_idx)
    else
      g.periphery.drop start_idx ++ g.periphery.take (end_idx + 1)

/-- `PlanarGraph.clear`. -/
def PlanarGraph.clear {K : Type} (_g : PlanarGraph K) : PlanarGraph K :=
  ⟨[], [], [], [], 1⟩

/-- The whole-graph snapshot document (`PlanarGraph.to_dict`). -/
structure Snapshot (K : Type) where
  vertices : List (Nat × VertexDict K)
  edges : List EdgeDict
  periphery : List Nat
  next_vertex_id : Nat
  deriving DecidableEq

/-- `PlanarGraph.to_dict`. -/
def PlanarGraph.to_dict {K : Type} (g : PlanarGraph K) : Snapshot K :=
  ⟨g.vertices.map (fun p => (p.1, p.2.to_dict)),
   g.edges.map Edge.to_dict,
   g.periphery,
   g.next_vertex_id⟩

/-- The edge-loading loop of `from_dict`: add each edge to the edge set
(Python `set.add`, so duplicates are skipped) and record both adjacency
directions; a `KeyError` (endpoint missing from the vertex map) aborts
with `malformedSnapshot`. -/
def fromDictEdges {K : Type} (g : PlanarGraph K) (l : List EdgeDict) :
    Except GraphError (PlanarGraph K) :=
  match l with
  | [] => .ok g
  | d :: rest =>
      let edge := Edge.from_dict d
      if edge.v1_id ∉ g.vertexKeys ∨ edge.v2_id ∉ g.vertexKeys then
        .error .malformedSnapshot
      else
        let edges' := if edge ∈ g.edges then g.edges else g.edges ++ [edge]
        let adj' := adjAdd (adjAdd g.adjacency edge.v1_id edge.v2_id)
          edge.v2_id edge.v1_id
        fromDictEdges ⟨g.vertices, edges', adj', g.periphery, g.next_vertex_id⟩ rest

/-- `PlanarGraph.from_dict`: clear, load the vertices (initializing the
adjacency keys), load the edges rebuilding adjacency, and take the
periphery and next-id fields of the document verbatim.  The method
replaces the whole state, so the receiver is irrelevant. -/
def PlanarGraph.from_dict {K : Type} (data : Snapshot K) :
    Except GraphError (PlanarGraph K) :=
  let g0 : PlanarGraph K := ⟨[], [], [], [], 1⟩
  let g1 := data.vertices.foldl
    (fun g p =>
      ⟨dictInsert g.vertices p.1 (Vertex.from_dict p.2),
       g.edges,
       dictInsert g.adjacency p.1 [],
       g.periphery,
       g.next_vertex_id⟩) g0
  match fromDictEdges g1 data.edges with
  | .error e => .error e
  | .ok g2 =>
      .ok ⟨g2.vertices, g2.edges, g2.adjacency, data.periphery,
           data.next_vertex_id⟩

/-! ### Geometry engine (`geometry.py`) and commands (`commands.py`), at `K = ℝ` -/

noncomputable section

/-- Defaulted read of `graph.vertices[id]` (see the module comment). -/
def PlanarGraph.readV (g : PlanarGraph ℝ) (id : Nat) : Vertex ℝ :=
  (g.vertices.lookup id).getD (Vertex.make id 0 0 1)

/-- In-place `vertex.update_position` for the vertex stored at `id`. -/
def PlanarGraph.setVertexPos (g : PlanarGraph ℝ) (id : Nat) (x y : ℝ) :
    PlanarGraph ℝ :=
  { g with vertices :=
      g.vertices.map (fun p => if p.1 = id then (p.1, { p.2 with x := x, y := y }) else p) }

/-- `np.linalg.norm` of a 2-vector. -/
def norm2 (v : ℝ × ℝ) : ℝ := Real.sqrt (v.1 ^ 2 + v.2 ^ 2)

/-- `Vertex.distance_to`. -/
def Vertex.distance_to (v w : Vertex ℝ) : ℝ :=
  Real.sqrt ((v.x - w.x) ^ 2 + (v.y - w.y) ^ 2)

/-- `GeometryEngine.min_angle = math.radians(60)`. -/
def minAngle : ℝ := Real.pi / 3

/-- `math.atan2 y x`, embedded as the principal argument of `x + y·i`
(both lie in `(-π, π]`). -/
def atan2 (y x : ℝ) : ℝ := Complex.arg ⟨x, y⟩

/-- `GeometryEngine._calculate_average_edge_length`. -/
def calculateAverageEdgeLength (g : PlanarGraph ℝ) : ℝ :=
  if g.edges = [] then 0
  else
    (g.edges.map (fun e => (g.readV e.v1_id).distance_to (g.readV e.v2_id))).sum
      / g.edges.length

/-- `GeometryEngine._calculate_graph_center`. -/
def calculateGraphCenter (g : PlanarGraph ℝ) : ℝ × ℝ :=
  if g.vertices = [] then (0, 0)
  else ((g.vertices.map (fun p => p.2.x)).sum / g.vertices.length,
        (g.vertices.map (fun p => p.2.y)).sum / g.vertices.length)

/-- `GeometryEngine._ensure_vertex_separation` (separation constant 20). -/
def ensureVertexSeparation (g : PlanarGraph ℝ) (x y : ℝ) : ℝ × ℝ :=
  g.vertices.foldl
    (fun xy p =>
      let v := p.2
      let distance := Real.sqrt ((xy.1 - v.x) ^ 2 + (xy.2 - v.y) ^ 2)
      if distance < 20 then
        let dir := (xy.1 - v.x, xy.2 - v.y)
        if 0 < norm2 dir then
          (v.x + dir.1 / norm2 dir * 20, v.y + dir.2 / norm2 dir * 20)
        else xy
      else xy)
    (x, y)

/-- The error kinds surfaced by the insertion commands. -/
inductive CmdError where
  | insufficientPeriphery
  | notOnPeriphery
  | nonAdjacentPeriphery
  | invalidSegment
  | invalidReference
  deriving DecidableEq

/-- `GeometryEngine.calculate_vertex_position`: raises
`ValueError("Invalid periphery segment")` when the segment between the
anchors has fewer than 2 vertices; otherwise places the new vertex at
the segment centroid pushed outward along the perpendicular of the
anchor chord, then applies the minimum-separation correction. -/
def calculate_vertex_position (g : PlanarGraph ℝ) (periphery_start periphery_end : Nat) :
    Except CmdError (ℝ × ℝ) :=
  let segment := g.get_periphery_segment periphery_start periphery_end
  if segment.length < 2 then .error .invalidSegment
  else
    let segment_vertices := segment.map g.readV
    let centroid_x := (segment_vertices.map (fun v => v.x)).sum / segment_vertices.length
    let centroid_y := (segment_vertices.map (fun v => v.y)).sum / segment_vertices.length
    let avg0 := calculateAverageEdgeLength g
    let avg_edge_length := if avg0 = 0 then 80 else avg0
    let start_vertex := g.readV periphery_start
    let end_vertex := g.readV periphery_end
    let seg_vec := (end_vertex.x - start_vertex.x, end_vertex.y - start_vertex.y)
    let perpendicular :=
      if 0 < norm2 seg_vec then
        (-(seg_vec.2 / norm2 seg_vec), seg_vec.1 / norm2 seg_vec)
      else ((0 : ℝ), (1 : ℝ))
    let center := calculateGraphCenter g
    let to_center := (center.1 - centroid_x, center.2 - centroid_y)
    let perp2 :=
      if 0 < perpendicular.1 * to_center.1 + perpendicular.2 * to_center.2 then
        (-perpendicular.1, -perpendicular.2)
      else perpendicular
    let distance := avg_edge_length * 1.1
    .ok (ensureVertexSeparation g (centroid_x + perp2.1 * distance)
      (centroid_y + perp2.2 * distance))

/-- `GeometryEngine.calculate_random_vertex_position`; the random draw
`random.randint(0, len(periphery) - 1)` is a parameter `start_idx`. -/
def calculate_random_vertex_position (g : PlanarGraph ℝ) (start_idx : Nat) :
    Except CmdError (Nat × Nat × ℝ × ℝ) :=
  if g.periphery.length < 2 then .error .insufficientPeriphery
  else
    let end_idx := (start_idx + 1) % g.periphery.length
    let periphery_start := g.periphery.getD start_idx 0
    let periphery_end := g.periphery.getD end_idx 0
    match calculate_vertex_position g periphery_start periphery_end with
    | .error e => .error e
    | .ok (x, y) => .ok (periphery_start, periphery_end, x, y)

/-- `GeometryEngine._adjust_for_minimum_angle`: rotate the two neighbor
directions apart by `min_angle/4` and place both neighbors at the
average of their original distances from the center vertex. -/
def adjustForMinimumAngle (g : PlanarGraph ℝ) (center_id neighbor1_id neighbor2_id : Nat) :
    PlanarGraph ℝ :=
  let center := g.readV center_id
  let n1 := g.readV neighbor1_id
  let n2 := g.readV neighbor2_id
  let v1 := (n1.x - center.x, n1.y - center.y)
  let v2 := (n2.x - center.x, n2.y - center.y)
  if 0 < norm2 v1 ∧ 0 < norm2 v2 then
    let u1 := (v1.1 / norm2 v1, v1.2 / norm2 v1)
    let u2 := (v2.1 / norm2 v2, v2.2 / norm2 v2)
    let rotation_angle := minAngle / 4
    let c1 := Real.cos (-rotation_angle)
    let s1 := Real.sin (-rotation_angle)
    let v1_rot := (u1.1 * c1 - u1.2 * s1, u1.1 * s1 + u1.2 * c1)
    let c2 := Real.cos rotation_angle
    let s2 := Real.sin rotation_angle
    let v2_rot := (u2.1 * c2 - u2.2 * s2, u2.1 * s2 + u2.2 * c2)
    let avg_dist := (norm2 v1 + norm2 v2) / 2
    let g1 := g.setVertexPos neighbor1_id (center.x + v1_rot.1 * avg_dist)
      (center.y + v1_rot.2 * avg_dist)
    g1.setVertexPos neighbor2_id (center.x + v2_rot.1 * avg_dist)
      (center.y + v2_rot.2 * avg_dist)
  else g

/-- Python tuple comparison on `(angle, neighbor_id)` pairs. -/
def pairLe (a b : ℝ × Nat) : Bool :=
  decide (a.1 < b.1) || (decide (a.1 = b.1) && decide (a.2 ≤ b.2))

/-- The body of `_rebalance_angular_spacing` for one center vertex. -/
def rebalanceAt (g : PlanarGraph ℝ) (vertex_id : Nat) : PlanarGraph ℝ :=
  let vertex := g.readV vertex_id
  let neighbors := g.get_neighbors vertex_id
  if neighbors.length < 2 then g
  else
    let angles := neighbors.map (fun nid =>
      let nb := g.readV nid
      (atan2 (nb.y - vertex.y) (nb.x - vertex.x), nid))
    let sorted := angles.mergeSort pairLe
    (List.range sorted.length).foldl
      (fun g' i =>
        let curr := sorted.getD i (0, 0)
        let next := sorted.getD ((i + 1) % sorted.length) (0, 0)
        let diff0 := next.1 - curr.1
        let angle_diff := if diff0 < 0 then diff0 + 2 * Real.pi else diff0
        if angle_diff < minAngle then
          adjustForMinimumAngle g' vertex_id curr.2 next.2
        else g')
      g

/-- `GeometryEngine._rebalance_angular_spacing`: iterate over the vertex
ids in storage order. -/
def rebalanceAngularSpacing (g : PlanarGraph ℝ) : PlanarGraph ℝ :=
  (g.vertices.map (fun p => p.1)).foldl rebalanceAt g

/-- The per-edge body of `_adjust_edge_lengths`: when the current length
deviates from the target by more than the ±20% tolerance and the edge
has nonzero length, move both endpoints symmetrically along the edge
direction so the edge gets exactly the target length, centered at its
previous midpoint. -/
def adjustOneEdge (target : ℝ) (g : PlanarGraph ℝ) (e : Edge) : PlanarGraph ℝ :=
  let v1 := g.readV e.v1_id
  let v2 := g.readV e.v2_id
  let current_length := v1.distance_to v2
  let length_ratio := current_length / target
  if |length_ratio - 1| > 0.2 then
    let center_x := (v1.x + v2.x) / 2
    let center_y := (v1.y + v2.y) / 2
    let direction := (v2.x - v1.x, v2.y - v1.y)
    if 0 < norm2 direction then
      let u := (direction.1 / norm2 direction, direction.2 / norm2 direction)
      let half_target := target / 2
      let g1 := g.setVertexPos e.v1_id (center_x - u.1 * half_target)
        (center_y - u.2 * half_target)
      g1.setVertexPos e.v2_id (center_x + u.1 * half_target)
        (center_y + u.2 * half_target)
    else g
  else g

/-- One pass of the edge-length loop over the current edge set. -/
def adjustPass (target : ℝ) (g : PlanarGraph ℝ) : PlanarGraph ℝ :=
  g.edges.foldl (adjustOneEdge target) g

/-- `GeometryEngine._adjust_edge_lengths`: compute the graph-wide
average as target, return unchanged when it is zero, else run exactly
`range(3)` passes. -/
def adjustEdgeLengths (g : PlanarGraph ℝ) : PlanarGraph ℝ :=
  let target := calculateAverageEdgeLength g
  if target = 0 then g
  else (List.range 3).foldl (fun g' _ => adjustPass target g') g

/-- `GeometryEngine._adjust_for_convexity`: push the current vertex 10
units outward along the direction from the graph center. -/
def adjustForConvexity (g : PlanarGraph ℝ) (curr_id : Nat) : PlanarGraph ℝ :=
  let curr := g.readV curr_id
  let center := calculateGraphCenter g
  let to_curr := (curr.x - center.1, curr.y - center.2)
  if 0 < norm2 to_curr then
    g.setVertexPos curr_id (curr.x + to_curr.1 / norm2 to_curr * 10)
      (curr.y + to_curr.2 / norm2 to_curr * 10)
  else g

/-- `GeometryEngine._maintain_convex_contour`. -/
def maintainConvexContour (g : PlanarGraph ℝ) : PlanarGraph ℝ :=
  if g.periphery.length < 3 then g
  else
    let n := g.periphery.length
    (List.range n).foldl
      (fun g' i =>
        let prev_id := g.periphery.getD ((i + n - 1) % n) 0
        let curr_id := g.periphery.getD i 0
        let next_id := g.periphery.getD ((i + 1) % n) 0
        let prev_vertex := g'.readV prev_id
        let curr_vertex := g'.readV curr_id
        let next_vertex := g'.readV next_id
        let cross := (curr_vertex.x - prev_vertex.x) * (next_vertex.y - curr_vertex.y)
          - (curr_vertex.y - prev_vertex.y) * (next_vertex.x - curr_vertex.x)
        if cross < 0 then adjustForConvexity g' curr_id else g')
      g

/-- `GeometryEngine._update_vertex_diameters`. -/
def updateVertexDiameters (g : PlanarGraph ℝ) : PlanarGraph ℝ :=
  { g with vertices :=
      g.vertices.map (fun p => (p.1, { p.2 with diameter := calculateDiameter p.2.id })) }

/-- `GeometryEngine.apply_redraw_logic`: periphery update, angular
rebalance, edge-length adjustment, convexity maintenance, diameter
refresh — one pass, no iteration. -/
def apply_redraw_logic (g : PlanarGraph ℝ) : PlanarGraph ℝ :=
  if g.vertices.length < 3 then g
  else
    updateVertexDiameters (maintainConvexContour (adjustEdgeLengths
      (rebalanceAngularSpacing g.update_periphery)))

/-- `PlanarGraph.create_initial_triangle`: clear, place three vertices
at radius 100 around (400, 300) at 120° spacing, connect them, and
update the periphery. -/
def create_initial_triangle (g : PlanarGraph ℝ) : Except GraphError (PlanarGraph ℝ) :=
  let g0 := g.clear
  let g1 := (List.range 3).foldl
    (fun gg i =>
      let angle := (i : ℝ) * 2 * Real.pi / 3
      (gg.add_vertex (400 + 100 * Real.cos angle) (300 + 100 * Real.sin angle) 1).1)
    g0
  do
    let p1 ← g1.add_edge 1 2
    let p2 ← p1.1.add_edge 2 3
    let p3 ← p2.1.add_edge 3 1
    return p3.1.update_periphery

/-- The outcome of an insertion command: the Python methods return a
boolean and surface the error kind through the UI message. -/
inductive CmdOutcome where
  | ok (vid : Nat)
  | err (e : CmdError)
  deriving DecidableEq

/-- `CommandProcessor._are_periphery_adjacent`: both on the periphery
and circularly consecutive first indices. -/
def arePeripheryAdjacent {K : Type} (g : PlanarGraph K) (v1_id v2_id : Nat) : Bool :=
  if v1_id ∉ g.periphery ∨ v2_id ∉ g.periphery then false
  else
    let idx1 := g.periphery.indexOf v1_id
    let idx2 := g.periphery.indexOf v2_id
    decide (((idx1 : Int) - idx2).natAbs = 1) ||
      decide (((idx1 : Int) - idx2).natAbs = g.periphery.length - 1)

/-- The edge-connection loop of the insertion commands; the second
component records whether `add_edge` raised, in which case the state at
raise time is returned (the surrounding `try/except` keeps it). -/
def addEdgesLoop (g : PlanarGraph ℝ) (vid : Nat) (seg : List Nat) :
    PlanarGraph ℝ × Bool :=
  match seg with
  | [] => (g, false)
  | s :: rest =>
      match g.add_edge vid s with
      | .error _ => (g, true)
      | .ok (g', _) => addEdgesLoop g' vid rest

/-- `CommandProcessor.add_manual_vertex`; the random color draw is a
parameter.  Failure paths return the graph state current at the point
the Python method reports the error. -/
def add_manual_vertex (g : PlanarGraph ℝ) (periphery_start periphery_end : Nat)
    (color : Nat) : PlanarGraph ℝ × CmdOutcome :=
  if periphery_start ∉ g.periphery then (g, .err .notOnPeriphery)
  else if periphery_end ∉ g.periphery then (g, .err .notOnPeriphery)
  else if ¬ arePeripheryAdjacent g periphery_start periphery_end then
    (g, .err .nonAdjacentPeriphery)
  else
    match calculate_vertex_position g periphery_start periphery_end with
    | .error e => (g, .err e)
    | .ok (x, y) =>
        let p := g.add_vertex x y color
        let segment := p.1.get_periphery_segment periphery_start periphery_end
        match addEdgesLoop p.1 p.2 segment with
        | (g2, true) => (g2, .err .invalidReference)
        | (g2, false) => (apply_redraw_logic g2, .ok p.2)

/-- `CommandProcessor.add_random_vertex`; the random index draw and the
random color draw are parameters. -/
def add_random_vertex (g : PlanarGraph ℝ) (start_idx : Nat) (color : Nat) :
    PlanarGraph ℝ × CmdOutcome :=
  if g.periphery.length < 2 then (g, .err .insufficientPeriphery)
  else
    match calculate_random_vertex_position g start_idx with
    | .error e => (g, .err e)
    | .ok (periphery_start, periphery_end, x, y) =>
        let p := g.add_vertex x y color
        let segment := p.1.get_periphery_segment periphery_start periphery_end
        match addEdgesLoop p.1 p.2 segment with
        | (g2, true) => (g2, .err .invalidReference)
        | (g2, false) => (apply_redraw_logic g2, .ok p.2)

end

/-! ### Specification-side definitions and invariants -/

/-- Modelled from the spec: the periphery segment as §4.1/§8 describe
it — "the clockwise run of periphery vertices from start to end
inclusive, wrapping around the end of the periphery sequence if
`startIndex > endIndex`", empty when either endpoint is absent.  The
run is the wrap-length prefix of the periphery rotated to start at the
start index. -/
def segSpec (P : List Nat) (s e : Nat) : List Nat :=
  if s ∈ P ∧ e ∈ P then
    let i := P.indexOf s
    let j := P.indexOf e
    ((P.rotate i).take ((((j : Int) - (i : Int)) % (P.length : Int)).toNat + 1))
  else []

/-- Well-formedness of a graph state, maintained by the normal flow:
duplicate-free periphery drawn from existing vertices, duplicate-free
canonical edges between existing vertices, and a next-id counter above
every existing id. -/
def WFgraph {K : Type} (g : PlanarGraph K) : Prop :=
  g.periphery.Nodup ∧
  (∀ id ∈ g.periphery, id ∈ g.vertexKeys) ∧
  (∀ e ∈ g.edges, e.v1_id ∈ g.vertexKeys ∧ e.v2_id ∈ g.vertexKeys ∧ e.v1_id < e.v2_id) ∧
  g.edges.Nodup ∧
  (∀ k ∈ g.vertexKeys, k < g.next_vertex_id)

/-- The next-id freshness invariant of claim C10. -/
def FreshIds {K : Type} (g : PlanarGraph K) : Prop :=
  ∀ k ∈ g.vertexKeys, k < g.next_vertex_id

/-- The adjacency/edge symmetry invariant: `b ∈ adjacency(a)` iff the
canonical edge `{a,b}` is stored. -/
def AdjacencySym {K : Type} (g : PlanarGraph K) : Prop :=
  ∀ a b : Nat, b ∈ g.get_neighbors a ↔ Edge.make a b ∈ g.edges

/-- Graphs reachable by the operations named in claim C2, with the
snapshot import taking an arbitrary document (as the code allows). -/
inductive Reach : PlanarGraph ℝ → Prop where
  | init : Reach (PlanarGraph.init ℝ)
  | addV (g : PlanarGraph ℝ) (x y : ℝ) (c : Nat) :
      Reach g → Reach (g.add_vertex x y c).1
  | addE (g g' : PlanarGraph ℝ) (b : Bool) (a1 a2 : Nat) :
      Reach g → g.add_edge a1 a2 = .ok (g', b) → Reach g'
  | removeV (g : PlanarGraph ℝ) (id : Nat) :
      Reach g → Reach (g.remove_vertex id)
  | clearOp (g : PlanarGraph ℝ) : Reach g → Reach g.clear
  | triangle (g g' : PlanarGraph ℝ) :
      Reach g → create_initial_triangle g = .ok g' → Reach g'
  | importS (s : Snapshot ℝ) (g' : PlanarGraph ℝ) :
      PlanarGraph.from_dict s = .ok g' → Reach g'

/-- Reachability as in `Reach`, but imports are restricted to snapshots
whose next-id counter strictly exceeds every vertex id they contain
(the amendment claim C2 requires). -/
inductive ReachSafe : PlanarGraph ℝ → Prop where
  | init : ReachSafe (PlanarGraph.init ℝ)
  | addV (g : PlanarGraph ℝ) (x y : ℝ) (c : Nat) :
      ReachSafe g → ReachSafe (g.add_vertex x y c).1
  | addE (g g' : PlanarGraph ℝ) (b : Bool) (a1 a2 : Nat) :
      ReachSafe g → g.add_edge a1 a2 = .ok (g', b) → ReachSafe g'
  | removeV (g : PlanarGraph ℝ) (id : Nat) :
      ReachSafe g → ReachSafe (g.remove_vertex id)
  | clearOp (g : PlanarGraph ℝ) : ReachSafe g → ReachSafe g.clear
  | triangle (g g' : PlanarGraph ℝ) :
      ReachSafe g → create_initial_triangle g = .ok g' → ReachSafe g'
  | importS (s : Snapshot ℝ) (g' : PlanarGraph ℝ) :
      (∀ k ∈ s.vertices.map (fun p => p.1), k < s.next_vertex_id) →
      PlanarGraph.from_dict s = .ok g' → ReachSafe g'

/-- The strengthened induction invariant behind claim C2: symmetry
together with the bookkeeping facts that make it stable (adjacency keys
coincide with vertex keys, and every id mentioned anywhere is below the
next-id counter). -/
def SymInv {K : Type} (g : PlanarGraph K) : Prop :=
  AdjacencySym g ∧
  g.adjacency.map (fun p => p.1) = g.vertices.map (fun p => p.1) ∧
  (∀ p ∈ g.adjacency, p.1 < g.next_vertex_id ∧ ∀ m ∈ p.2, m < g.next_vertex_id) ∧
  (∀ e ∈ g.edges, e.v1_id < g.next_vertex_id ∧ e.v2_id < g.next_vertex_id)

/-- Edge length read off the current positions (claim C9). -/
noncomputable def edgeLength (g : PlanarGraph ℝ) (e : Edge) : ℝ :=
  (g.readV e.v1_id).distance_to (g.readV e.v2_id)

/-- Edge midpoint read off the current positions (claim C9). -/
noncomputable def edgeMidpoint (g : PlanarGraph ℝ) (e : Edge) : ℝ × ℝ :=
  (((g.readV e.v1_id).x + (g.readV e.v2_id).x) / 2,
   ((g.readV e.v1_id).y + (g.readV e.v2_id).y) / 2)

/-! ### Convex-hull vocabulary for claim C1 -/

/-- Planar cross product of two vectors. -/
def crossv {K : Type} [LinearOrderedField K] (a b : K × K) : K :=
  a.1 * b.2 - a.2 * b.1

/-- Dot product of two vectors. -/
def dotv {K : Type} [LinearOrderedField K] (a b : K × K) : K :=
  a.1 * b.1 + a.2 * b.2

/-- The turn test on positions: `crossP o a b` is the cross product of
`a - o` and `b - o` (the `cross_product` of `update_periphery`). -/
def crossP {K : Type} [LinearOrderedField K] (o a b : K × K) : K :=
  (a.1 - o.1) * (b.2 - o.2) - (a.2 - o.2) * (b.1 - o.1)

/-- Lexicographic positivity of a direction vector: the cone of
directions along which the `(x, y)` sort order strictly increases. -/
def lexPos {K : Type} [LinearOrderedField K] (w : K × K) : Prop :=
  0 < w.1 ∨ (w.1 = 0 ∧ 0 < w.2)

/-- `p` lies on the boundary of the convex hull of the finite point
collection `S`: some nonzero linear functional attains its maximum over
`S` at `p` (a supporting line through `p`). -/
def OnBoundary {K : Type} [LinearOrderedField K] (S : List (K × K)) (p : K × K) : Prop :=
  ∃ u : K × K, u ≠ 0 ∧ ∀ q ∈ S, dotv u q ≤ dotv u p

/-- A point of `S` strictly inside the hull: no supporting line. -/
def StrictlyInside {K : Type} [LinearOrderedField K] (S : List (K × K)) (p : K × K) : Prop :=
  ¬ OnBoundary S p

/-- `p` is a corner (extreme point) of the hull of `S`: a member of `S`
at which some linear functional is strictly larger than at every point
of `S` with a different position. -/
def HullCorner {K : Type} [LinearOrderedField K] (S : List (K × K)) (p : K × K) : Prop :=
  p ∈ S ∧ ∃ u : K × K, ∀ q ∈ S, q ≠ p → dotv u q < dotv u p

/-- The cyclically consecutive triples of a list. -/
def cyclicTriples {α : Type} (l : List α) : List (α × α × α) :=
  l.zip ((l.rotate 1).zip (l.rotate 2))

/-- The cyclically consecutive pairs of a list. -/
def cyclicPairs {α : Type} (l : List α) : List (α × α) :=
  l.zip (l.rotate 1)

/-- A closed clockwise convex loop in screen coordinates (y axis
pointing down): every cyclically consecutive triple makes a strictly
positive turn; in particular no three listed points are collinear. -/
def ClockwiseLoop {K : Type} [LinearOrderedField K] (l : List (K × K)) : Prop :=
  ∀ t ∈ cyclicTriples l, 0 < crossP t.1 t.2.1 t.2.2

/-- A consecutive-triple predicate along a list. -/
def Triples {α : Type} (T : α → α → α → Prop) : List α → Prop
  | a :: b :: c :: t => T a b c ∧ Triples T (b :: c :: t)
  | _ => True

/-- The position of the (unique, under the id-nodup hypothesis) vertex
with build id `id`. -/
def posById {K : Type} [Zero K] (g : PlanarGraph K) (id : Nat) : K × K :=
  ((g.vertices.find? (fun p => p.2.id == id)).map (fun p => (p.2.x, p.2.y))).getD (0, 0)

/-- The position multiset of a graph's vertices. -/
def positionsOf {K : Type} (g : PlanarGraph K) : List (K × K) :=
  g.vertices.map (fun p => (p.2.x, p.2.y))

/-! ### Concrete states used by witnesses and counterexamples -/

/-- A graph whose periphery is `[1,2,3,4,5]` (claim C8's examples). -/
def perigraph5 : PlanarGraph ℚ := ⟨[], [], [], [1, 2, 3, 4, 5], 1⟩

/-- Two isolated vertices, next id 3. -/
def exG2 : PlanarGraph ℚ :=
  ⟨[(1, Vertex.make 1 0 0 1), (2, Vertex.make 2 1 0 1)], [],
   [(1, []), (2, [])], [], 3⟩

/-- Two vertices joined by an edge. -/
def exG3 : PlanarGraph ℚ :=
  ⟨[(1, Vertex.make 1 0 0 1), (2, Vertex.make 2 1 0 1)], [Edge.make 1 2],
   [(1, [2]), (2, [1])], [1, 2], 3⟩

/-- Two isolated real vertices, next id 3. -/
def exR2 : PlanarGraph ℝ :=
  ⟨[(1, Vertex.make 1 0 0 1), (2, Vertex.make 2 1 0 1)], [],
   [(1, []), (2, [])], [], 3⟩

/-- A well-formed square graph with periphery `[10, 20, 30, 40]`. -/
def exP4 : PlanarGraph ℝ :=
  ⟨[(10, Vertex.make 10 0 0 1), (20, Vertex.make 20 4 0 1),
    (30, Vertex.make 30 4 4 1), (40, Vertex.make 40 0 4 1)], [],
   [(10, []), (20, []), (30, []), (40, [])], [10, 20, 30, 40], 41⟩

/-- Two vertices at distance 5 joined by an edge. -/
def exE1 : PlanarGraph ℝ :=
  ⟨[(1, Vertex.make 1 0 0 1), (2, Vertex.make 2 3 4 1)], [Edge.make 1 2],
   [(1, [2]), (2, [1])], [], 3⟩

/-- A snapshot whose next-id counter (1) does not exceed its vertex ids
— accepted verbatim by `from_dict`. -/
def snapBad : Snapshot ℝ :=
  ⟨[(1, ⟨1, 0, 0, 1, some 30⟩), (2, ⟨2, 1, 0, 1, some 30⟩)], [⟨1, 2⟩], [], 1⟩

/-- The graph `from_dict` builds from `snapBad`. -/
def gBadImported : PlanarGraph ℝ :=
  ⟨[(1, ⟨1, 0, 0, 1, 30⟩), (2, ⟨2, 1, 0, 1, 30⟩)], [Edge.make 1 2],
   [(1, [2]), (2, [1])], [], 1⟩

/-- `gBadImported` after one `add_vertex`: the fresh id collides with
vertex 1, whose adjacency entry is reset while the edge survives. -/
def gBad : PlanarGraph ℝ := (gBadImported.add_vertex 0 0 1).1

/-- The graph produced by `create_initial_triangle` from the empty graph. -/
noncomputable def triangleG : PlanarGraph ℝ :=
  match create_initial_triangle (PlanarGraph.init ℝ) with
  | .ok g => g
  | .error _ => PlanarGraph.init ℝ

/-- Five rational vertices: a square and one interior point (claim C1's
witness input). -/
def exQHull : PlanarGraph ℚ :=
  ⟨[(1, Vertex.make 1 0 0 1), (2, Vertex.make 2 4 0 1),
    (3, Vertex.make 3 0 4 1), (4, Vertex.make 4 4 4 1),
    (5, Vertex.make 5 2 1 1)], [], [], [], 6⟩

/-- The invariants of the monotone-chain scan loop, for claim C1: `st` is
the chain stack (top first) after processing `done`; `P` is the open
half-plane cone of the processing direction (`lexPos` for the lower
chain, its negation for the upper chain).  `witness` records, for every
processed point no longer on the stack, a vertically adjacent stack
pair it was discarded against. -/
structure ScanInv {K : Type} [LinearOrderedField K] (P : K × K → Prop)
    (done st : List (Pt K)) : Prop where
  nonempty : done ≠ [] → st ≠ []
  sublist : st.reverse.Sublist done
  turns : Triples (fun c b a => 0 < cross3 a b c) st
  headEq : st.head? = done.getLast?
  lastEq : st.getLast? = done.head?
  edges : ∀ pr ∈ st.zip st.tail, ∀ q ∈ done, 0 ≤ crossP pr.2.pos pr.1.pos q.pos
  mono : st.Pairwise (fun x y => P (x.pos - y.pos))
  witness : ∀ q ∈ done, q.pos ∉ st.map Pt.pos →
    ∃ pr ∈ st.zip st.tail, P (q.pos - pr.2.pos) ∧ P (pr.1.pos - q.pos) ∧
      cross3 pr.2 q pr.1 ≤ 0
  sorted : done.Pairwise (fun x y => P (y.pos - x.pos))

/-! ### Theorems -/

theorem length_drop_sub {α : Type} (l : List α) (i : Nat) :
    (l.drop i).length = l.length - i := by simp

theorem getPeripherySegment_eq_segSpec {K : Type} (g : PlanarGraph K) (s e : Nat) :
    g.get_periphery_segment s e = segSpec g.periphery s e := by
  unfold PlanarGraph.get_periphery_segment segSpec
  by_cases hs : s ∈ g.periphery
  · by_cases he : e ∈ g.periphery
    · have hi : g.periphery.indexOf s < g.periphery.length :=
        List.indexOf_lt_length.2 hs
      have hj : g.periphery.indexOf e < g.periphery.length :=
        List.indexOf_lt_length.2 he
      simp only [hs, he, not_true_eq_false, false_or, or_false, and_self, if_true,
        if_false, ite_true, ite_false, not_false_eq_true]
      set i := g.periphery.indexOf s with hidef
      set j := g.periphery.indexOf e with hjdef
      set n := g.periphery.length with hndef
      have hrot : g.periphery.rotate i = g.periphery.drop i ++ g.periphery.take i :=
        List.rotate_eq_drop_append_take (le_of_lt hi)
      rcases le_or_lt i j with h | h
      · have hmod : (((j : Int) - (i : Int)) % (n : Int)).toNat = j - i := by
          rw [Int.emod_eq_of_lt (by omega) (by omega)]
          omega
        simp only [h, if_true, hmod, hrot]
        rw [List.take_append_of_le_length (by rw [length_drop_sub]; omega)]
        congr 1
        omega
      · have hmod : (((j : Int) - (i : Int)) % (n : Int)).toNat = n + j - i := by
          have h1 : ((j : Int) - (i : Int)) % (n : Int)
              = ((j : Int) - (i : Int) + 1 * (n : Int)) % (n : Int) := by
            rw [Int.add_mul_emod_self]
          rw [h1, Int.emod_eq_of_lt (by omega) (by omega)]
          omega
        have hle : ¬ i ≤ j := by omega
        have hlen : (g.periphery.drop i).length = n - i := by simp
        have h1 : List.take (n + j - i + 1) (g.periphery.drop i) = g.periphery.drop i :=
          List.take_of_length_le (by rw [hlen]; omega)
        have h2 : List.take (n + j - i + 1 - (g.periphery.drop i).length)
            (g.periphery.take i) = List.take (j + 1) g.periphery := by
          rw [hlen]
          have hsub : n + j - i + 1 - (n - i) = j + 1 := by omega
          rw [hsub, List.take_take]
          congr 1
          omega
        simp only [hle, if_false, hmod, hrot]
        rw [List.take_append_eq_append_take, h1, h2]
    · simp [hs, he]
  · simp [hs]

/-- C8: `getPeripherySegment` returns the empty sequence when an
endpoint is off the periphery and otherwise the inclusive clockwise run
from start to end, wrapping past the end of the list when the start
index exceeds the end index (stated as agreement with the spec-side
`segSpec` for every graph); on periphery `[1,2,3,4,5]`,
`getPeripherySegment 5 2 = [5,1,2]` and
`getPeripherySegment 2 4 = [2,3,4]`. -/
theorem C8_periphery_segment :
    (∀ (K : Type) (g : PlanarGraph K) (s e : Nat),
        g.get_periphery_segment s e = segSpec g.periphery s e) ∧
    perigraph5.get_periphery_segment 5 2 = [5, 1, 2] ∧
    perigraph5.get_periphery_segment 2 4 = [2, 3, 4] :=
  ⟨fun _ g s e => getPeripherySegment_eq_segSpec g s e, by decide, by decide⟩

/-! ### Association-list and edge helper lemmas -/

theorem lookup_isSome_iff {β : Type} (l : List (Nat × β)) (k : Nat) :
    (l.lookup k).isSome ↔ k ∈ l.map (fun p => p.1) := by
  induction l with
  | nil => simp [List.lookup]
  | cons a t ih =>
      by_cases h : k = a.1
      · subst h
        simp [List.lookup]
      · have hbeq : (k == a.1) = false := by simp [h]
        simp [List.lookup, hbeq, ih, h]

theorem dictInsert_of_not_mem {β : Type} (l : List (Nat × β)) (k : Nat) (v : β)
    (h : k ∉ l.map (fun p => p.1)) : dictInsert l k v = l ++ [(k, v)] := by
  unfold dictInsert
  rw [if_neg]
  intro hs
  exact h ((lookup_isSome_iff l k).1 hs)

theorem mem_setAdd (s : List Nat) (x y : Nat) : y ∈ setAdd s x ↔ y ∈ s ∨ y = x := by
  unfold setAdd
  by_cases h : x ∈ s
  · simp only [h, if_true]
    constructor
    · exact Or.inl
    · rintro (h' | rfl)
      · exact h'
      · exact h
  · simp [h]

theorem mem_setDiscard (s : List Nat) (x y : Nat) :
    y ∈ setDiscard s x ↔ y ∈ s ∧ y ≠ x := by
  unfold setDiscard
  simp [List.mem_filter]

theorem lookup_adjAdd (adj : List (Nat × List Nat)) (k v k' : Nat) :
    (adjAdd adj k v).lookup k'
      = if k' = k then (adj.lookup k').map (fun s => setAdd s v)
        else adj.lookup k' := by
  induction adj with
  | nil => simp [adjAdd, List.lookup]
  | cons a t ih =>
      obtain ⟨ka, sa⟩ := a
      have hexp : adjAdd ((ka, sa) :: t) k v
          = (if ka = k then (ka, setAdd sa v) else (ka, sa)) :: adjAdd t k v := by
        by_cases h : ka = k <;> simp [adjAdd, h]
      by_cases h1 : ka = k
      · subst h1
        rw [hexp, if_pos rfl]
        by_cases h2 : k' = ka
        · subst h2
          simp [List.lookup_cons]
        · have hb : (k' == ka) = false := by simp [h2]
          simp [List.lookup_cons, hb, ih, h2]
      · rw [hexp, if_neg h1]
        by_cases h2 : k' = ka
        · subst h2
          have hne : ¬ k' = k := fun hh => h1 hh
          simp [List.lookup_cons, hne]
        · have hb : (k' == ka) = false := by simp [h2]
          simp [List.lookup_cons, hb, ih]

theorem lookup_adjDiscard (adj : List (Nat × List Nat)) (k v k' : Nat) :
    (adjDiscard adj k v).lookup k'
      = if k' = k then (adj.lookup k').map (fun s => setDiscard s v)
        else adj.lookup k' := by
  induction adj with
  | nil => simp [adjDiscard, List.lookup]
  | cons a t ih =>
      obtain ⟨ka, sa⟩ := a
      have hexp : adjDiscard ((ka, sa) :: t) k v
          = (if ka = k then (ka, setDiscard sa v) else (ka, sa)) :: adjDiscard t k v := by
        by_cases h : ka = k <;> simp [adjDiscard, h]
      by_cases h1 : ka = k
      · subst h1
        rw [hexp, if_pos rfl]
        by_cases h2 : k' = ka
        · subst h2
          simp [List.lookup_cons]
        · have hb : (k' == ka) = false := by simp [h2]
          simp [List.lookup_cons, hb, ih, h2]
      · rw [hexp, if_neg h1]
        by_cases h2 : k' = ka
        · subst h2
          have hne : ¬ k' = k := fun hh => h1 hh
          simp [List.lookup_cons, hne]
        · have hb : (k' == ka) = false := by simp [h2]
          simp [List.lookup_cons, hb, ih]

theorem lookup_dictErase {β : Type} (l : List (Nat × β)) (k k' : Nat) :
    (dictErase l k).lookup k' = if k' = k then none else l.lookup k' := by
  induction l with
  | nil => unfold dictErase; simp [List.lookup]
  | cons a t ih =>
      obtain ⟨ka, sa⟩ := a
      by_cases h1 : ka = k
      · have hexp : dictErase ((ka, sa) :: t) k = dictErase t k := by
          simp [dictErase, List.filter_cons, h1]
        rw [hexp, ih]
        by_cases h2 : k' = k
        · simp [h2]
        · have hb : (k' == ka) = false := by simp [h1, h2]
          simp [List.lookup_cons, hb, h2]
      · have hexp : dictErase ((ka, sa) :: t) k = (ka, sa) :: dictErase t k := by
          simp [dictErase, List.filter_cons, h1]
        rw [hexp]
        by_cases h2 : k' = ka
        · have hne : ¬ k' = k := by rw [h2]; exact h1
          have hb : (k' == ka) = true := by simp [h2]
          simp [List.lookup_cons, hb, hne]
        · have hb : (k' == ka) = false := by simp [h2]
          simp [List.lookup_cons, hb, ih]

theorem edgeMake_comm (a b : Nat) : Edge.make a b = Edge.make b a := by
  simp [Edge.make, min_comm, max_comm]

theorem edgeMake_eq_iff (x y a b : Nat) :
    Edge.make x y = Edge.make a b ↔ (x = a ∧ y = b) ∨ (x = b ∧ y = a) := by
  simp only [Edge.make, Edge.mk.injEq]
  omega

theorem keys_dictInsert_of_not_mem {β : Type} (l : List (Nat × β)) (k : Nat) (v : β)
    (h : k ∉ l.map (fun p => p.1)) :
    (dictInsert l k v).map (fun p => p.1) = l.map (fun p => p.1) ++ [k] := by
  rw [dictInsert_of_not_mem l k v h]
  simp

/-! ### Claim C4: `add_edge` (corrected) -/

/-- C4 as frozen is false: on the empty graph, `addEdge(1, 1)` has
`a == b`, so the claim predicts the call returns `false` and leaves the
graph unchanged; the code checks vertex existence first and signals
`InvalidReference` instead. -/
theorem C4_counterexample :
    PlanarGraph.add_edge (PlanarGraph.init ℚ) 1 1
        = .error GraphError.invalidReference ∧
    ¬ PlanarGraph.add_edge (PlanarGraph.init ℚ) 1 1
        = .ok (PlanarGraph.init ℚ, false) := by
  have h0 : PlanarGraph.add_edge (PlanarGraph.init ℚ) 1 1
      = .error GraphError.invalidReference := rfl
  refine ⟨h0, fun h => ?_⟩
  rw [h0] at h
  exact Except.noConfusion h

/-- C4 (amended): `addEdge(a, b)` first requires both endpoints to be
present vertices and signals `InvalidReference` otherwise, even when
`a == b` or the canonical edge exists; with both present it returns
`false` and leaves the graph unchanged when `a == b` or the canonical
edge `{a,b}` already exists; otherwise it succeeds, appending the
canonical edge (leaving exactly one copy) and inserting each endpoint
into the other's adjacency set (which requires the adjacency map to
have entries for both endpoints, as it does in every reachable state),
and a second call in either endpoint order then returns `false` leaving
the state unchanged. -/
theorem C4_add_edge_amended (K : Type) (g : PlanarGraph K) (a b : Nat) :
    ((a ∉ g.vertexKeys ∨ b ∉ g.vertexKeys) →
        g.add_edge a b = .error .invalidReference) ∧
    (a ∈ g.vertexKeys → b ∈ g.vertexKeys → (a = b ∨ Edge.make a b ∈ g.edges) →
        g.add_edge a b = .ok (g, false)) ∧
    (a ∈ g.vertexKeys → b ∈ g.vertexKeys → a ≠ b → Edge.make a b ∉ g.edges →
        a ∈ g.adjacency.map (fun p => p.1) → b ∈ g.adjacency.map (fun p => p.1) →
        ∃ g', g.add_edge a b = .ok (g', true) ∧
          g'.edges = g.edges ++ [Edge.make a b] ∧
          g'.edges.count (Edge.make a b) = g.edges.count (Edge.make a b) + 1 ∧
          b ∈ g'.get_neighbors a ∧ a ∈ g'.get_neighbors b ∧
          g'.vertices = g.vertices ∧ g'.periphery = g.periphery ∧
          g'.next_vertex_id = g.next_vertex_id ∧
          g'.add_edge b a = .ok (g', false)) := by
  refine ⟨?_, ?_, ?_⟩
  · intro h
    unfold PlanarGraph.add_edge
    rw [if_pos h]
  · intro ha hb hor
    unfold PlanarGraph.add_edge
    rw [if_neg (by push_neg; exact ⟨ha, hb⟩)]
    rcases hor with rfl | hmem
    · rw [if_pos rfl]
    · by_cases hab : a = b
      · rw [if_pos hab]
      · rw [if_neg hab]
        simp only [hmem, if_true]
  · intro ha hb hab hmem ha' hb'
    refine ⟨⟨g.vertices, g.edges ++ [Edge.make a b],
      adjAdd (adjAdd g.adjacency a b) b a, g.periphery, g.next_vertex_id⟩,
      ?_, rfl, ?_, ?_, ?_, rfl, rfl, rfl, ?_⟩
    · unfold PlanarGraph.add_edge
      rw [if_neg (by push_neg; exact ⟨ha, hb⟩), if_neg hab]
      simp only [hmem, if_false, ite_false]
    · simp [List.count_append, List.count_eq_zero.2 hmem]
    · show b ∈ (((adjAdd (adjAdd g.adjacency a b) b a).lookup a).getD [])
      rw [lookup_adjAdd, if_neg hab, lookup_adjAdd, if_pos rfl]
      obtain ⟨s, hs⟩ := Option.isSome_iff_exists.1 ((lookup_isSome_iff g.adjacency a).2 ha')
      rw [hs]
      simp [mem_setAdd]
    · show a ∈ (((adjAdd (adjAdd g.adjacency a b) b a).lookup b).getD [])
      rw [lookup_adjAdd, if_pos rfl]
      obtain ⟨s, hs⟩ := Option.isSome_iff_exists.1 ((lookup_isSome_iff g.adjacency b).2 hb')
      rw [lookup_adjAdd, if_neg (Ne.symm hab), hs]
      simp [mem_setAdd]
    · unfold PlanarGraph.add_edge
      rw [if_neg (by push_neg; exact ⟨hb, ha⟩), if_neg (Ne.symm hab)]
      rw [edgeMake_comm b a]
      rw [if_pos (by simp)]

/-! ### Claim C3: snapshot round trip -/

theorem vertex_from_to_dict {K : Type} (v : Vertex K) :
    Vertex.from_dict v.to_dict = v := by
  cases v
  rfl

theorem edge_from_to_dict (e : Edge) (h : e.v1_id ≤ e.v2_id) :
    Edge.from_dict e.to_dict = e := by
  obtain ⟨a, b⟩ := e
  dsimp only at h
  simp only [Edge.from_dict, Edge.to_dict, Edge.make, Edge.mk.injEq]
  omega

theorem fromDict_vertices_fold {K : Type} (l : List (Nat × VertexDict K))
    (V0 : List (Nat × Vertex K)) (E0 : List Edge) (A0 : List (Nat × List Nat))
    (P0 : List Nat) (n0 : Nat)
    (hdV : ∀ kk ∈ l.map (fun p => p.1), kk ∉ V0.map (fun p => p.1))
    (hdA : ∀ kk ∈ l.map (fun p => p.1), kk ∉ A0.map (fun p => p.1))
    (hnod : (l.map (fun p => p.1)).Nodup) :
    l.foldl
      (fun g p => (⟨dictInsert g.vertices p.1 (Vertex.from_dict p.2), g.edges,
        dictInsert g.adjacency p.1 [], g.periphery, g.next_vertex_id⟩ : PlanarGraph K))
      ⟨V0, E0, A0, P0, n0⟩
    = ⟨V0 ++ l.map (fun p => (p.1, Vertex.from_dict p.2)), E0,
       A0 ++ l.map (fun p => (p.1, [])), P0, n0⟩ := by
  induction l generalizing V0 A0 with
  | nil => simp
  | cons a rest ih =>
      have hkV : a.1 ∉ V0.map (fun p => p.1) := hdV a.1 (by simp)
      have hkA : a.1 ∉ A0.map (fun p => p.1) := hdA a.1 (by simp)
      simp only [List.foldl_cons, dictInsert_of_not_mem _ _ _ hkV,
        dictInsert_of_not_mem _ _ _ hkA]
      rw [ih (V0 ++ [(a.1, Vertex.from_dict a.2)]) (A0 ++ [(a.1, [])])]
      · simp
      · intro kk hkk
        have h1 := hdV kk (by simp [hkk])
        have h2 : kk ≠ a.1 := by
          simp only [List.map_cons, List.nodup_cons] at hnod
          intro hh
          exact hnod.1 (hh ▸ hkk)
        simp [h1, h2]
      · intro kk hkk
        have h1 := hdA kk (by simp [hkk])
        have h2 : kk ≠ a.1 := by
          simp only [List.map_cons, List.nodup_cons] at hnod
          intro hh
          exact hnod.1 (hh ▸ hkk)
        simp [h1, h2]
      · simp only [List.map_cons, List.nodup_cons] at hnod
        exact hnod.2

theorem fromDictEdges_append {K : Type} (V : List (Nat × Vertex K))
    (E0 : List Edge) (A : List (Nat × List Nat)) (P0 : List Nat) (n0 : Nat)
    (l : List Edge)
    (hcanon : ∀ e ∈ l, e.v1_id ≤ e.v2_id)
    (hmemV : ∀ e ∈ l, e.v1_id ∈ V.map (fun p => p.1) ∧ e.v2_id ∈ V.map (fun p => p.1))
    (hnodup : (E0 ++ l).Nodup) :
    ∃ A', fromDictEdges (⟨V, E0, A, P0, n0⟩ : PlanarGraph K) (l.map Edge.to_dict)
      = .ok ⟨V, E0 ++ l, A', P0, n0⟩ := by
  induction l generalizing E0 A with
  | nil => exact ⟨A, by simp [fromDictEdges]⟩
  | cons e rest ih =>
      have hrt : Edge.from_dict e.to_dict = e := edge_from_to_dict e (hcanon e (by simp))
      have hv1 : e.v1_id ∈ V.map (fun p => p.1) := (hmemV e (by simp)).1
      have hv2 : e.v2_id ∈ V.map (fun p => p.1) := (hmemV e (by simp)).2
      have hnotE0 : e ∉ E0 := by
        intro hmem
        have hd := (List.nodup_append.1 hnodup).2.2
        exact hd hmem (by simp)
      obtain ⟨A', hA'⟩ := ih (E0 ++ [e])
        (adjAdd (adjAdd A e.v1_id e.v2_id) e.v2_id e.v1_id)
        (fun e' he' => hcanon e' (by simp [he']))
        (fun e' he' => hmemV e' (by simp [he']))
        (by simpa using hnodup)
      refine ⟨A', ?_⟩
      unfold fromDictEdges
      rw [List.map_cons]
      simp only [hrt]
      rw [if_neg (by push_neg; exact ⟨by simpa [PlanarGraph.vertexKeys] using hv1,
        by simpa [PlanarGraph.vertexKeys] using hv2⟩)]
      simp only [hnotE0, if_false, ite_false]
      simpa using hA'

/-- C3: importing the snapshot exported from `g` succeeds and
reproduces the vertex map (ids, positions, colors, diameters), the edge
set, the periphery list, and the next-id counter exactly.  The
hypotheses record invariants every Python graph satisfies by
construction: dictionary keys are unique, `Edge` objects are canonical
and deduplicated, and edges reference existing vertices (otherwise
`from_dict` raises `KeyError`). -/
theorem C3_snapshot_roundtrip (K : Type) (g : PlanarGraph K)
    (hkeys : (g.vertices.map (fun p => p.1)).Nodup)
    (hcanon : ∀ e ∈ g.edges, e.v1_id ≤ e.v2_id)
    (hednod : g.edges.Nodup)
    (href : ∀ e ∈ g.edges, e.v1_id ∈ g.vertexKeys ∧ e.v2_id ∈ g.vertexKeys) :
    ∃ g', PlanarGraph.from_dict g.to_dict = .ok g' ∧
      g'.vertices = g.vertices ∧ g'.edges = g.edges ∧
      g'.periphery = g.periphery ∧ g'.next_vertex_id = g.next_vertex_id := by
  have hcompose : (g.vertices.map (fun p => (p.1, p.2.to_dict))).map
      (fun p => (p.1, Vertex.from_dict p.2)) = g.vertices := by
    rw [List.map_map]
    have hfun : ((fun p : Nat × VertexDict K => (p.1, Vertex.from_dict p.2)) ∘
        (fun p : Nat × Vertex K => (p.1, p.2.to_dict))) = id := by
      funext p
      simp [vertex_from_to_dict]
    rw [hfun, List.map_id]
  have hkeys' : (g.vertices.map (fun p => (p.1, p.2.to_dict))).map (fun p => p.1)
      = g.vertices.map (fun p => p.1) := by
    rw [List.map_map]
    rfl
  have hphase1 := fromDict_vertices_fold (g.vertices.map (fun p => (p.1, p.2.to_dict)))
    [] [] [] [] 1 (by simp) (by simp) (by rw [hkeys']; exact hkeys)
  rw [hcompose] at hphase1
  obtain ⟨A', hphase2⟩ := fromDictEdges_append g.vertices []
    ((g.vertices.map (fun p => (p.1, p.2.to_dict))).map (fun p => (p.1, ([] : List Nat))))
    [] 1 g.edges hcanon
    (fun e he => href e he) (by simpa using hednod)
  refine ⟨⟨g.vertices, g.edges, A', g.periphery, g.next_vertex_id⟩, ?_, rfl, rfl, rfl, rfl⟩
  unfold PlanarGraph.from_dict PlanarGraph.to_dict
  simp only
  rw [hphase1]
  simp only [List.nil_append] at hphase2 ⊢
  rw [hphase2]

/-- Witness: the round trip at a concrete two-vertex graph with one
edge. -/
theorem C3_snapshot_roundtrip_witness :
    ∃ g', PlanarGraph.from_dict exG3.to_dict = .ok g' ∧
      g'.vertices = exG3.vertices ∧ g'.edges = exG3.edges ∧
      g'.periphery = exG3.periphery ∧ g'.next_vertex_id = exG3.next_vertex_id :=
  C3_snapshot_roundtrip ℚ exG3 (by decide) (by decide) (by decide) (by decide)

/-! ### Claim C10: next-id freshness -/

theorem update_periphery_vertices {K : Type} [LinearOrderedField K] (g : PlanarGraph K) :
    g.update_periphery.vertices = g.vertices ∧
    g.update_periphery.edges = g.edges ∧
    g.update_periphery.adjacency = g.adjacency ∧
    g.update_periphery.next_vertex_id = g.next_vertex_id := by
  unfold PlanarGraph.update_periphery
  by_cases h1 : g.vertices.length < 3
  · simp [h1]
  · by_cases h2 : g.toPts.length < 3
    · simp [h1, h2]
    · simp [h1, h2]

theorem remove_vertex_next {K : Type} (g : PlanarGraph K) (idv : Nat) :
    (g.remove_vertex idv).next_vertex_id = g.next_vertex_id := by
  unfold PlanarGraph.remove_vertex
  by_cases hc : idv ∉ g.vertexKeys
  · rw [if_pos hc]
  · rw [if_neg hc]

theorem add_edge_ok_inv {K : Type} (g g' : PlanarGraph K) (a b : Nat) (bb : Bool)
    (h : g.add_edge a b = .ok (g', bb)) :
    (a ∈ g.vertexKeys ∧ b ∈ g.vertexKeys) ∧
    ((bb = false ∧ g' = g ∧ (a = b ∨ Edge.make a b ∈ g.edges)) ∨
     (bb = true ∧ a ≠ b ∧ Edge.make a b ∉ g.edges ∧
       g' = ⟨g.vertices, g.edges ++ [Edge.make a b],
             adjAdd (adjAdd g.adjacency a b) b a, g.periphery, g.next_vertex_id⟩)) := by
  unfold PlanarGraph.add_edge at h
  by_cases h1 : a ∉ g.vertexKeys ∨ b ∉ g.vertexKeys
  · rw [if_pos h1] at h
    exact absurd h (by simp)
  · rw [if_neg h1] at h
    push_neg at h1
    refine ⟨⟨h1.1, h1.2⟩, ?_⟩
    by_cases h2 : a = b
    · rw [if_pos h2] at h
      simp only [Except.ok.injEq, Prod.mk.injEq] at h
      obtain ⟨h4, h5⟩ := h
      exact Or.inl ⟨h5.symm, h4.symm, Or.inl h2⟩
    · rw [if_neg h2] at h
      simp only at h
      by_cases h3 : Edge.make a b ∈ g.edges
      · rw [if_pos h3] at h
        simp only [Except.ok.injEq, Prod.mk.injEq] at h
        obtain ⟨h4, h5⟩ := h
        exact Or.inl ⟨h5.symm, h4.symm, Or.inr h3⟩
      · rw [if_neg h3] at h
        simp only [Except.ok.injEq, Prod.mk.injEq] at h
        obtain ⟨h4, h5⟩ := h
        exact Or.inr ⟨h5.symm, h2, h3, h4.symm⟩

theorem add_edge_ok_fields {K : Type} (g g' : PlanarGraph K) (a b : Nat) (bb : Bool)
    (h : g.add_edge a b = .ok (g', bb)) :
    g'.vertices = g.vertices ∧ g'.periphery = g.periphery ∧
    g'.next_vertex_id = g.next_vertex_id := by
  rcases (add_edge_ok_inv g g' a b bb h).2 with ⟨_, rfl, _⟩ | ⟨_, _, _, rfl⟩
  · exact ⟨rfl, rfl, rfl⟩
  · exact ⟨rfl, rfl, rfl⟩

theorem keys_dictErase_subset {β : Type} (l : List (Nat × β)) (k kk : Nat)
    (h : kk ∈ (dictErase l k).map (fun p => p.1)) : kk ∈ l.map (fun p => p.1) := by
  unfold dictErase at h
  simp only [List.mem_map] at h ⊢
  obtain ⟨p, hp, rfl⟩ := h
  exact ⟨p, (List.mem_filter.1 hp).1, rfl⟩

/-- C10: whenever the next-id counter strictly dominates every stored
vertex id, `addVertex` returns an id that is not yet present and the
invariant is preserved; `addEdge`, `removeVertex`, `clear`, and
`createInitialTriangle` also preserve it, and `removeVertex` never
changes the counter. -/
theorem C10_next_id_invariant (g : PlanarGraph ℝ) (x y : ℝ) (c : Nat) (idv : Nat) :
    (FreshIds g →
      (g.add_vertex x y c).2 ∉ g.vertexKeys ∧ FreshIds (g.add_vertex x y c).1) ∧
    (∀ g' b a1 a2, FreshIds g → g.add_edge a1 a2 = .ok (g', b) → FreshIds g') ∧
    (FreshIds g → FreshIds (g.remove_vertex idv)) ∧
    (g.remove_vertex idv).next_vertex_id = g.next_vertex_id ∧
    FreshIds g.clear ∧
    (∀ g', create_initial_triangle g = .ok g' → FreshIds g') := by
  refine ⟨?_, ?_, ?_, ?_, ?_, ?_⟩
  · intro hF
    have hnot : g.next_vertex_id ∉ g.vertexKeys := by
      intro hmem
      exact absurd (hF _ hmem) (lt_irrefl _)
    refine ⟨hnot, ?_⟩
    intro k hk
    have : (g.add_vertex x y c).1.vertexKeys = g.vertexKeys ++ [g.next_vertex_id] := by
      show (dictInsert g.vertices g.next_vertex_id _).map _ = _
      exact keys_dictInsert_of_not_mem _ _ _ hnot
    rw [this] at hk
    show k < g.next_vertex_id + 1
    rcases List.mem_append.1 hk with h | h
    · exact Nat.lt_succ_of_lt (hF _ h)
    · simp only [List.mem_singleton] at h
      omega
  · intro g' b a1 a2 hF h
    obtain ⟨hv, _, hn⟩ := add_edge_ok_fields g g' a1 a2 b h
    intro k hk
    rw [hn]
    exact hF k (by simpa [PlanarGraph.vertexKeys, hv] using hk)
  · intro hF k hk
    rw [remove_vertex_next]
    unfold PlanarGraph.remove_vertex at hk
    by_cases hc : idv ∉ g.vertexKeys
    · rw [if_pos hc] at hk
      exact hF k hk
    · rw [if_neg hc] at hk
      simp only at hk
      exact hF k (keys_dictErase_subset _ _ _ hk)
  · exact remove_vertex_next g idv
  · intro k hk
    simp [PlanarGraph.clear, PlanarGraph.vertexKeys] at hk
  · intro g' h
    have hcr : create_initial_triangle g = .ok triangleG := rfl
    rw [hcr] at h
    obtain rfl := Except.ok.inj h
    intro k hk
    have hkeys : triangleG.vertexKeys = [1, 2, 3] := rfl
    have hnext : triangleG.next_vertex_id = 4 := rfl
    rw [hkeys] at hk
    rw [hnext]
    simp only [List.mem_cons, List.mem_singleton, List.not_mem_nil, or_false] at hk
    rcases hk with rfl | rfl | rfl <;> omega

/-- Witness for C10 at concrete states. -/
theorem C10_next_id_invariant_witness :
    ((exR2.add_vertex 0 0 1).2 ∉ exR2.vertexKeys ∧
      FreshIds (exR2.add_vertex 0 0 1).1) ∧
    FreshIds (⟨exR2.vertices, [Edge.make 1 2],
      adjAdd (adjAdd exR2.adjacency 1 2) 2 1, exR2.periphery,
      exR2.next_vertex_id⟩ : PlanarGraph ℝ) ∧
    FreshIds (exR2.remove_vertex 1) ∧
    (exR2.remove_vertex 1).next_vertex_id = exR2.next_vertex_id ∧
    FreshIds exR2.clear ∧
    FreshIds triangleG := by
  have hF : FreshIds exR2 := by
    unfold FreshIds
    decide
  have h := C10_next_id_invariant exR2 0 0 1 1
  exact ⟨h.1 hF, h.2.1 _ true 1 2 hF rfl, h.2.2.1 hF, h.2.2.2.1, h.2.2.2.2.1,
    h.2.2.2.2.2 triangleG rfl⟩

/-! ### Claim C2: adjacency symmetry -/

theorem lookup_append {β : Type} (l1 l2 : List (Nat × β)) (k : Nat) :
    (l1 ++ l2).lookup k
      = match l1.lookup k with
        | some v => some v
        | none => l2.lookup k := by
  induction l1 with
  | nil => simp [List.lookup]
  | cons a t ih =>
      by_cases h : k = a.1
      · have hb : (k == a.1) = true := by simp [h]
        obtain ⟨ka, va⟩ := a
        simp [List.lookup_cons, hb]
      · have hb : (k == a.1) = false := by simp [h]
        obtain ⟨ka, va⟩ := a
        simp only [List.cons_append, List.lookup_cons, hb] at ih ⊢
        exact ih

theorem keys_adjAdd (adj : List (Nat × List Nat)) (k v : Nat) :
    (adjAdd adj k v).map (fun p => p.1) = adj.map (fun p => p.1) := by
  unfold adjAdd
  rw [List.map_map]
  apply List.map_congr_left
  intro p _
  by_cases h : p.1 = k
  · simp [h]
  · simp [h]

theorem keys_adjDiscard (adj : List (Nat × List Nat)) (k v : Nat) :
    (adjDiscard adj k v).map (fun p => p.1) = adj.map (fun p => p.1) := by
  unfold adjDiscard
  rw [List.map_map]
  apply List.map_congr_left
  intro p _
  by_cases h : p.1 = k
  · simp [h]
  · simp [h]

theorem values_adjAdd_pred (adj : List (Nat × List Nat)) (k v : Nat)
    (P : Nat → Prop) (h : ∀ p ∈ adj, ∀ m ∈ p.2, P m) (hv : P v) :
    ∀ p ∈ adjAdd adj k v, ∀ m ∈ p.2, P m := by
  intro p hp m hm
  unfold adjAdd at hp
  obtain ⟨q, hq, hqe⟩ := List.mem_map.1 hp
  by_cases hk : q.1 = k
  · rw [if_pos hk] at hqe
    subst hqe
    simp only at hm
    rcases (mem_setAdd q.2 v m).1 hm with h1 | rfl
    · exact h q hq m h1
    · exact hv
  · rw [if_neg hk] at hqe
    subst hqe
    exact h q hq m hm

theorem keys_dictInsert {β : Type} (l : List (Nat × β)) (k : Nat) (v : β) :
    (dictInsert l k v).map (fun p => p.1)
      = if (l.lookup k).isSome then l.map (fun p => p.1)
        else l.map (fun p => p.1) ++ [k] := by
  unfold dictInsert
  by_cases h : (l.lookup k).isSome
  · rw [if_pos h, if_pos h, List.map_map]
    apply List.map_congr_left
    intro p _
    by_cases hk : p.1 = k
    · simp [hk]
    · simp [hk]
  · rw [if_neg h, if_neg h]
    simp

theorem lookup_foldDiscard (ns : List Nat) (adj : List (Nat × List Nat))
    (idv x : Nat) :
    ((ns.foldl (fun a n => adjDiscard a n idv) adj).lookup x)
      = if x ∈ ns then (adj.lookup x).map (fun s => setDiscard s idv)
        else adj.lookup x := by
  induction ns generalizing adj with
  | nil => simp
  | cons n rest ih =>
      simp only [List.foldl_cons]
      rw [ih (adjDiscard adj n idv)]
      by_cases h1 : x ∈ rest
      · rw [if_pos h1, if_pos (by simp [h1]), lookup_adjDiscard]
        by_cases h2 : x = n
        · rw [if_pos h2]
          cases adj.lookup x with
          | none => rfl
          | some s =>
              simp only [Option.map_some']
              congr 1
              unfold setDiscard
              rw [List.filter_filter]
              apply List.filter_congr
              intro a _
              by_cases ha : a = idv <;> simp [ha]
        · rw [if_neg h2]
      · rw [if_neg h1, lookup_adjDiscard]
        by_cases h2 : x = n
        · rw [if_pos h2, if_pos (by simp [h2])]
        · rw [if_neg h2, if_neg (by simp [h1, h2])]

theorem keys_foldDiscard (ns : List Nat) (adj : List (Nat × List Nat)) (idv : Nat) :
    ((ns.foldl (fun a n => adjDiscard a n idv) adj).map (fun p => p.1))
      = adj.map (fun p => p.1) := by
  induction ns generalizing adj with
  | nil => rfl
  | cons n rest ih =>
      simp only [List.foldl_cons]
      rw [ih, keys_adjDiscard]

theorem keys_dictErase {β : Type} (l : List (Nat × β)) (k : Nat) :
    (dictErase l k).map (fun p => p.1)
      = (l.map (fun p => p.1)).filter (fun x => x != k) := by
  induction l with
  | nil => rfl
  | cons a t ih =>
      by_cases h : a.1 = k
      · have hf : (a.1 != k) = false := by simp [h]
        simp only [dictErase, List.filter_cons, hf, List.map_cons, if_false,
          Bool.false_eq_true]
        unfold dictErase at ih
        exact ih
      · have hf : (a.1 != k) = true := by simp [h]
        simp only [dictErase, List.filter_cons, hf, List.map_cons, if_true]
        unfold dictErase at ih
        rw [ih]

/-- The adjacency update shared by `add_edge` and the `from_dict` edge
loop: after `adjacency[a].add(b); adjacency[b].add(a)`, the neighbor
sets mirror any edge list `E'` that extends the old one by exactly the
canonical edge `{a, b}`. -/
theorem sym_after_adjAdd_pair {K : Type} (g : PlanarGraph K) (a b : Nat)
    (ha : a ∈ g.adjacency.map (fun p => p.1))
    (hb : b ∈ g.adjacency.map (fun p => p.1))
    (hS : AdjacencySym g) (E' : List Edge)
    (hE' : ∀ x y : Nat, (Edge.make x y ∈ E'
      ↔ Edge.make x y ∈ g.edges ∨ Edge.make x y = Edge.make a b)) :
    ∀ x y : Nat,
      y ∈ (((adjAdd (adjAdd g.adjacency a b) b a).lookup x).getD [])
        ↔ Edge.make x y ∈ E' := by
  intro x y
  obtain ⟨sa, hsa⟩ := Option.isSome_iff_exists.1 ((lookup_isSome_iff _ _).2 ha)
  obtain ⟨sb, hsb⟩ := Option.isSome_iff_exists.1 ((lookup_isSome_iff _ _).2 hb)
  rw [lookup_adjAdd, lookup_adjAdd]
  by_cases hxb : x = b
  · subst hxb
    rw [if_pos rfl]
    by_cases hxa : x = a
    · subst hxa
      rw [if_pos rfl, hsa]
      simp only [Option.map_some', Option.getD_some]
      rw [mem_setAdd, mem_setAdd]
      have hsym := hS x y
      rw [PlanarGraph.get_neighbors, hsa] at hsym
      simp only [Option.getD_some] at hsym
      rw [hE' x y]
      constructor
      · rintro ((h1 | rfl) | rfl)
        · exact Or.inl (hsym.1 h1)
        · exact Or.inr (by rw [edgeMake_eq_iff]; right; exact ⟨rfl, rfl⟩)
        · exact Or.inr (by rw [edgeMake_eq_iff]; left; exact ⟨rfl, rfl⟩)
      · rintro (h1 | h2)
        · exact Or.inl (Or.inl (hsym.2 h1))
        · rcases (edgeMake_eq_iff x y x x).1 (by rw [h2]) with ⟨_, h3⟩ | ⟨_, h3⟩
          · exact Or.inr h3
          · exact Or.inr h3
    · rw [if_neg hxa, hsb]
      simp only [Option.map_some', Option.getD_some]
      rw [mem_setAdd]
      have hsym := hS x y
      rw [PlanarGraph.get_neighbors, hsb] at hsym
      simp only [Option.getD_some] at hsym
      rw [hE' x y]
      constructor
      · rintro (h1 | rfl)
        · exact Or.inl (hsym.1 h1)
        · exact Or.inr (by rw [edgeMake_eq_iff]; right; exact ⟨rfl, rfl⟩)
      · rintro (h1 | h2)
        · exact Or.inl (hsym.2 h1)
        · rcases (edgeMake_eq_iff _ _ _ _).1 h2 with ⟨h3, h4⟩ | ⟨h3, h4⟩
          · exact absurd h3 hxa
          · exact Or.inr h4
  · rw [if_neg hxb]
    by_cases hxa : x = a
    · subst hxa
      rw [if_pos rfl, hsa]
      simp only [Option.map_some', Option.getD_some]
      rw [mem_setAdd]
      have hsym := hS x y
      rw [PlanarGraph.get_neighbors, hsa] at hsym
      simp only [Option.getD_some] at hsym
      rw [hE' x y]
      constructor
      · rintro (h1 | rfl)
        · exact Or.inl (hsym.1 h1)
        · exact Or.inr (by rw [edgeMake_eq_iff]; left; exact ⟨rfl, rfl⟩)
      · rintro (h1 | h2)
        · exact Or.inl (hsym.2 h1)
        · rcases (edgeMake_eq_iff _ _ _ _).1 h2 with ⟨h3, h4⟩ | ⟨h3, h4⟩
          · exact Or.inr h4
          · exact absurd h3 hxb
    · rw [if_neg hxa]
      have hsym := hS x y
      rw [PlanarGraph.get_neighbors] at hsym
      rw [hE' x y]
      constructor
      · intro h1
        exact Or.inl (hsym.1 h1)
      · rintro (h1 | h2)
        · exact hsym.2 h1
        · rcases (edgeMake_eq_iff _ _ _ _).1 h2 with ⟨h3, h4⟩ | ⟨h3, h4⟩
          · exact absurd h3 hxa
          · exact absurd h3 hxb

theorem lookup_mem {β : Type} (l : List (Nat × β)) (k : Nat) (v : β)
    (h : l.lookup k = some v) : (k, v) ∈ l := by
  induction l with
  | nil => simp [List.lookup] at h
  | cons a t ih =>
      obtain ⟨ka, va⟩ := a
      by_cases hk : k = ka
      · subst hk
        have hb : (k == k) = true := by simp
        rw [List.lookup_cons] at h
        simp only [hb] at h
        obtain rfl := Option.some.inj h
        exact List.mem_cons_self _ _
      · have hb : (k == ka) = false := by simp [hk]
        rw [List.lookup_cons] at h
        simp only [hb] at h
        exact List.mem_cons_of_mem _ (ih h)

theorem mem_dictInsert_cases {β : Type} (l : List (Nat × β)) (k : Nat) (v : β)
    (p : Nat × β) (h : p ∈ dictInsert l k v) : p = (k, v) ∨ p ∈ l := by
  unfold dictInsert at h
  by_cases hs : (l.lookup k).isSome
  · rw [if_pos hs] at h
    obtain ⟨q, hq, hqe⟩ := List.mem_map.1 h
    by_cases hk : q.1 = k
    · rw [if_pos hk] at hqe
      exact Or.inl hqe.symm
    · rw [if_neg hk] at hqe
      exact Or.inr (hqe ▸ hq)
  · rw [if_neg hs] at h
    rcases List.mem_append.1 h with h1 | h1
    · exact Or.inr h1
    · simp only [List.mem_singleton] at h1
      exact Or.inl h1

theorem sym_of_empty {K : Type} (g : PlanarGraph K)
    (hv : ∀ p ∈ g.adjacency, p.2 = ([] : List Nat)) (he : g.edges = []) :
    AdjacencySym g := by
  intro a b
  rw [he]
  simp only [List.not_mem_nil, iff_false]
  intro hmem
  unfold PlanarGraph.get_neighbors at hmem
  cases hla : g.adjacency.lookup a with
  | none => rw [hla] at hmem; simp at hmem
  | some s =>
      rw [hla] at hmem
      simp only [Option.getD_some] at hmem
      have hz : s = ([] : List Nat) := hv (a, s) (lookup_mem _ _ _ hla)
      rw [hz] at hmem
      simp at hmem

theorem values_adjDiscard_pred (adj : List (Nat × List Nat)) (k v : Nat)
    (P : Nat → Prop) (h : ∀ p ∈ adj, ∀ m ∈ p.2, P m) :
    ∀ p ∈ adjDiscard adj k v, ∀ m ∈ p.2, P m := by
  intro p hp m hm
  unfold adjDiscard at hp
  obtain ⟨q, hq, hqe⟩ := List.mem_map.1 hp
  by_cases hk : q.1 = k
  · rw [if_pos hk] at hqe
    subst hqe
    simp only at hm
    exact h q hq m ((mem_setDiscard q.2 v m).1 hm).1
  · rw [if_neg hk] at hqe
    subst hqe
    exact h q hq m hm

theorem values_foldDiscard_pred (ns : List Nat) (adj : List (Nat × List Nat))
    (idv : Nat) (P : Nat → Prop) (h : ∀ p ∈ adj, ∀ m ∈ p.2, P m) :
    ∀ p ∈ ns.foldl (fun a n => adjDiscard a n idv) adj, ∀ m ∈ p.2, P m := by
  induction ns generalizing adj with
  | nil => exact h
  | cons n rest ih =>
      simp only [List.foldl_cons]
      exact ih _ (values_adjDiscard_pred adj n idv P h)

theorem mem_dictErase {β : Type} (l : List (Nat × β)) (k : Nat) (p : Nat × β)
    (h : p ∈ dictErase l k) : p ∈ l := by
  unfold dictErase at h
  exact (List.mem_filter.1 h).1

theorem contains_make (x y idv : Nat) :
    (Edge.make x y).contains_vertex idv = true ↔ idv = x ∨ idv = y := by
  simp only [Edge.contains_vertex, Edge.make, Bool.or_eq_true, beq_iff_eq]
  omega

theorem symInv_congr {K : Type} (g g' : PlanarGraph K)
    (hv : g'.vertices = g.vertices) (he : g'.edges = g.edges)
    (ha : g'.adjacency = g.adjacency) (hn : g'.next_vertex_id = g.next_vertex_id)
    (h : SymInv g) : SymInv g' := by
  obtain ⟨hS, hK, hB, hE⟩ := h
  refine ⟨?_, ?_, ?_, ?_⟩
  · intro a b
    unfold PlanarGraph.get_neighbors
    rw [ha, he]
    exact hS a b
  · rw [ha, hv, hK]
  · intro p hp
    rw [hn]
    exact hB p (ha ▸ hp)
  · intro e hee
    rw [hn]
    exact hE e (he ▸ hee)

theorem symInv_init (K : Type) : SymInv (PlanarGraph.init K) := by
  refine ⟨?_, rfl, ?_, ?_⟩
  · intro a b
    simp [PlanarGraph.get_neighbors, PlanarGraph.init, List.lookup]
  · intro p hp
    simp [PlanarGraph.init] at hp
  · intro e hee
    simp [PlanarGraph.init] at hee

theorem symInv_clear {K : Type} (g : PlanarGraph K) : SymInv g.clear := by
  refine ⟨?_, rfl, ?_, ?_⟩
  · intro a b
    simp [PlanarGraph.get_neighbors, PlanarGraph.clear, List.lookup]
  · intro p hp
    simp [PlanarGraph.clear] at hp
  · intro e hee
    simp [PlanarGraph.clear] at hee

theorem adjKeys_bound {K : Type} (g : PlanarGraph K)
    (hB : ∀ p ∈ g.adjacency, p.1 < g.next_vertex_id ∧
      ∀ m ∈ p.2, m < g.next_vertex_id) :
    ∀ k ∈ g.adjacency.map (fun p => p.1), k < g.next_vertex_id := by
  intro k hk
  obtain ⟨p, hp, rfl⟩ := List.mem_map.1 hk
  exact (hB p hp).1

theorem symInv_addV {K : Type} (g : PlanarGraph K) (x y : K) (c : Nat)
    (h : SymInv g) : SymInv (g.add_vertex x y c).1 := by
  obtain ⟨hS, hK, hB, hE⟩ := h
  have hAnot : g.next_vertex_id ∉ g.adjacency.map (fun p => p.1) := by
    intro hmem
    exact absurd (adjKeys_bound g hB _ hmem) (lt_irrefl _)
  have hVnot : g.next_vertex_id ∉ g.vertices.map (fun p => p.1) := hK ▸ hAnot
  have hv : dictInsert g.vertices g.next_vertex_id
      (Vertex.make g.next_vertex_id x y c)
      = g.vertices ++ [(g.next_vertex_id, Vertex.make g.next_vertex_id x y c)] :=
    dictInsert_of_not_mem _ _ _ hVnot
  have hadj : dictInsert g.adjacency g.next_vertex_id []
      = g.adjacency ++ [(g.next_vertex_id, [])] :=
    dictInsert_of_not_mem _ _ _ hAnot
  refine ⟨?_, ?_, ?_, ?_⟩
  · intro a b
    show b ∈ ((dictInsert g.adjacency g.next_vertex_id []).lookup a).getD [] ↔ _
    rw [hadj, lookup_append]
    cases hla : g.adjacency.lookup a with
    | some s =>
        have := hS a b
        unfold PlanarGraph.get_neighbors at this
        rw [hla] at this
        exact this
    | none =>
        have hnb := hS a b
        unfold PlanarGraph.get_neighbors at hnb
        rw [hla] at hnb
        simp only [Option.getD_none, List.not_mem_nil, false_iff] at hnb
        simp only []
        constructor
        · intro hmem
          by_cases hav : a = g.next_vertex_id
          · have hb : (a == g.next_vertex_id) = true := by simp [hav]
            rw [List.lookup_cons] at hmem
            simp only [hb, Option.getD_some] at hmem
            simp at hmem
          · have hb : (a == g.next_vertex_id) = false := by simp [hav]
            rw [List.lookup_cons] at hmem
            simp only [hb, List.lookup_nil, Option.getD_none] at hmem
            simp at hmem
        · intro hmem
          exact absurd hmem hnb
  · show (dictInsert g.adjacency g.next_vertex_id []).map _
      = (dictInsert g.vertices g.next_vertex_id _).map _
    rw [hadj, hv]
    simp only [List.map_append, List.map_cons, List.map_nil]
    rw [hK]
  · intro p hp
    show p.1 < g.next_vertex_id + 1 ∧ ∀ m ∈ p.2, m < g.next_vertex_id + 1
    have hp' : p ∈ dictInsert g.adjacency g.next_vertex_id [] := hp
    rw [hadj] at hp'
    rcases List.mem_append.1 hp' with h1 | h1
    · obtain ⟨hp1, hp2⟩ := hB p h1
      exact ⟨Nat.lt_succ_of_lt hp1, fun m hm => Nat.lt_succ_of_lt (hp2 m hm)⟩
    · simp only [List.mem_singleton] at h1
      subst h1
      exact ⟨Nat.lt_succ_self _, fun m hm => by simp at hm⟩
  · intro e hee
    obtain ⟨he1, he2⟩ := hE e hee
    exact ⟨Nat.lt_succ_of_lt he1, Nat.lt_succ_of_lt he2⟩

theorem symInv_addE {K : Type} (g g' : PlanarGraph K) (a b : Nat) (bb : Bool)
    (h : g.add_edge a b = .ok (g', bb)) (hI : SymInv g) : SymInv g' := by
  obtain ⟨hS, hK, hB, hE⟩ := hI
  obtain ⟨⟨ha, hb⟩, hc⟩ := add_edge_ok_inv g g' a b bb h
  rcases hc with ⟨_, rfl, _⟩ | ⟨_, hab, hmem, rfl⟩
  · exact ⟨hS, hK, hB, hE⟩
  · have ha' : a ∈ g.adjacency.map (fun p => p.1) := by rw [hK]; exact ha
    have hb' : b ∈ g.adjacency.map (fun p => p.1) := by rw [hK]; exact hb
    have haBound : a < g.next_vertex_id := adjKeys_bound g hB a ha'
    have hbBound : b < g.next_vertex_id := adjKeys_bound g hB b hb'
    refine ⟨?_, ?_, ?_, ?_⟩
    · intro x yy
      exact sym_after_adjAdd_pair g a b ha' hb' hS (g.edges ++ [Edge.make a b])
        (fun x' y' => by simp [List.mem_append]) x yy
    · show (adjAdd (adjAdd g.adjacency a b) b a).map _ = _
      rw [keys_adjAdd, keys_adjAdd, hK]
    · intro p hp
      constructor
      · have : p.1 ∈ (adjAdd (adjAdd g.adjacency a b) b a).map (fun q => q.1) :=
          List.mem_map.2 ⟨p, hp, rfl⟩
        rw [keys_adjAdd, keys_adjAdd] at this
        exact adjKeys_bound g hB _ this
      · exact values_adjAdd_pred _ b a _
          (values_adjAdd_pred _ a b _ (fun q hq => (hB q hq).2) hbBound)
          haBound p hp
    · intro e hee
      rcases List.mem_append.1 hee with h1 | h1
      · exact hE e h1
      · simp only [List.mem_singleton] at h1
        subst h1
        constructor
        · show min a b < g.next_vertex_id
          exact lt_of_le_of_lt (min_le_left a b) haBound
        · show max a b < g.next_vertex_id
          exact max_lt haBound hbBound

theorem symInv_removeV {K : Type} (g : PlanarGraph K) (idv : Nat)
    (hI : SymInv g) : SymInv (g.remove_vertex idv) := by
  obtain ⟨hS, hK, hB, hE⟩ := hI
  unfold PlanarGraph.remove_vertex
  by_cases hc : idv ∉ g.vertexKeys
  · rw [if_pos hc]
    exact ⟨hS, hK, hB, hE⟩
  · rw [if_neg hc]
    simp only []
    refine ⟨?_, ?_, ?_, ?_⟩
    · intro x y
      show y ∈ ((dictErase (((g.adjacency.lookup idv).getD []).foldl
          (fun a n => adjDiscard a n idv) g.adjacency) idv).lookup x).getD []
        ↔ Edge.make x y ∈ g.edges.filter (fun e => !(e.contains_vertex idv))
      have hmemfilter : Edge.make x y ∈ g.edges.filter (fun e => !(e.contains_vertex idv))
          ↔ Edge.make x y ∈ g.edges ∧ ¬(idv = x ∨ idv = y) := by
        rw [List.mem_filter]
        constructor
        · rintro ⟨h1, h2⟩
          refine ⟨h1, fun hor => ?_⟩
          rw [Bool.not_eq_true'] at h2
          rw [(contains_make x y idv).2 hor] at h2
          exact Bool.noConfusion h2
        · rintro ⟨h1, h2⟩
          refine ⟨h1, ?_⟩
          rw [Bool.not_eq_true']
          cases hcv : (Edge.make x y).contains_vertex idv
          · rfl
          · exact absurd ((contains_make x y idv).1 hcv) h2
      rw [lookup_dictErase, hmemfilter]
      by_cases hx : x = idv
      · rw [if_pos hx]
        simp only [Option.getD_none, List.not_mem_nil, false_iff]
        rintro ⟨-, hno⟩
        exact hno (Or.inl hx.symm)
      · rw [if_neg hx, lookup_foldDiscard]
        by_cases hxns : x ∈ (g.adjacency.lookup idv).getD []
        · rw [if_pos hxns]
          cases hlx : g.adjacency.lookup x with
          | none =>
              have hnbx := hS x y
              unfold PlanarGraph.get_neighbors at hnbx
              rw [hlx] at hnbx
              simp only [Option.getD_none, List.not_mem_nil, false_iff] at hnbx
              simp only [Option.map_none', Option.getD_none, List.not_mem_nil,
                false_iff]
              rintro ⟨hmm, -⟩
              exact hnbx hmm
          | some s =>
              simp only [Option.map_some', Option.getD_some]
              rw [mem_setDiscard]
              have hnbx := hS x y
              unfold PlanarGraph.get_neighbors at hnbx
              rw [hlx] at hnbx
              simp only [Option.getD_some] at hnbx
              rw [hnbx]
              constructor
              · rintro ⟨he', hy⟩
                refine ⟨he', ?_⟩
                rintro (h1 | h1)
                · exact hx h1.symm
                · exact hy h1.symm
              · rintro ⟨he', hno⟩
                exact ⟨he', fun hy => hno (Or.inr hy.symm)⟩
        · rw [if_neg hxns]
          have hnbx := hS x y
          unfold PlanarGraph.get_neighbors at hnbx
          have hidvny : idv ∉ (g.adjacency.lookup x).getD [] := by
            intro hmem
            have h1 : Edge.make x idv ∈ g.edges := (hS x idv).1 hmem
            have h2 : x ∈ g.get_neighbors idv :=
              (hS idv x).2 (by rw [edgeMake_comm]; exact h1)
            exact hxns h2
          constructor
          · intro hmem
            refine ⟨hnbx.1 hmem, ?_⟩
            rintro (h1 | h1)
            · exact hx h1.symm
            · exact hidvny (h1 ▸ hmem)
          · rintro ⟨he', -⟩
            exact hnbx.2 he'
    · show (dictErase (((g.adjacency.lookup idv).getD []).foldl
          (fun a n => adjDiscard a n idv) g.adjacency) idv).map _
        = (dictErase g.vertices idv).map _
      rw [keys_dictErase, keys_dictErase, keys_foldDiscard, hK]
    · intro p hp
      show p.1 < g.next_vertex_id ∧ ∀ m ∈ p.2, m < g.next_vertex_id
      have hp1 : p ∈ ((g.adjacency.lookup idv).getD []).foldl
          (fun a n => adjDiscard a n idv) g.adjacency := mem_dictErase _ _ _ hp
      constructor
      · have hm : p.1 ∈ (((g.adjacency.lookup idv).getD []).foldl
            (fun a n => adjDiscard a n idv) g.adjacency).map (fun q => q.1) :=
          List.mem_map.2 ⟨p, hp1, rfl⟩
        rw [keys_foldDiscard] at hm
        exact adjKeys_bound g hB _ hm
      · exact values_foldDiscard_pred _ g.adjacency idv _
          (fun q hq => (hB q hq).2) p hp1
    · intro e hee
      exact hE e (List.mem_filter.1 hee).1

theorem symInv_triangle_fold (l : List Nat) (g : PlanarGraph ℝ) (h : SymInv g) :
    SymInv (l.foldl (fun gg i =>
      let angle := (i : ℝ) * 2 * Real.pi / 3
      (gg.add_vertex (400 + 100 * Real.cos angle) (300 + 100 * Real.sin angle) 1).1) g) := by
  induction l generalizing g with
  | nil => exact h
  | cons i rest ih =>
      simp only [List.foldl_cons]
      exact ih _ (symInv_addV g _ _ 1 h)

theorem except_bind_ok {ε α β : Type} (m : Except ε α) (f : α → Except ε β) (b : β)
    (h : (m >>= f) = .ok b) : ∃ a, m = .ok a ∧ f a = .ok b := by
  cases m with
  | error e => simp [Bind.bind, Except.bind] at h
  | ok a => exact ⟨a, rfl, by simpa [Bind.bind, Except.bind] using h⟩

theorem symInv_triangle (g g' : PlanarGraph ℝ)
    (h : create_initial_triangle g = .ok g') : SymInv g' := by
  unfold create_initial_triangle at h
  simp only at h
  obtain ⟨p1, h1, h⟩ := except_bind_ok _ _ _ h
  obtain ⟨p2, h2, h⟩ := except_bind_ok _ _ _ h
  obtain ⟨p3, h3, h⟩ := except_bind_ok _ _ _ h
  have hg' : p3.1.update_periphery = g' := by
    simpa [pure, Except.pure] using h
  obtain ⟨q1, b1⟩ := p1
  obtain ⟨q2, b2⟩ := p2
  obtain ⟨q3, b3⟩ := p3
  have hInv0 : SymInv (PlanarGraph.clear g) := symInv_clear g
  have hInv1 := symInv_triangle_fold (List.range 3) (PlanarGraph.clear g) hInv0
  have hInv2 := symInv_addE _ _ _ _ _ h1 hInv1
  have hInv3 := symInv_addE _ _ _ _ _ h2 hInv2
  have hInv4 := symInv_addE _ _ _ _ _ h3 hInv3
  rw [← hg']
  obtain ⟨hv, he, ha, hn⟩ := update_periphery_vertices q3
  exact symInv_congr _ _ hv he ha hn hInv4

theorem fromDict_phase1_props {K : Type} (l : List (Nat × VertexDict K))
    (g0 r : PlanarGraph K)
    (h1 : g0.adjacency.map (fun p => p.1) = g0.vertices.map (fun p => p.1))
    (h2 : ∀ p ∈ g0.adjacency, p.2 = ([] : List Nat))
    (hr : r = l.foldl
      (fun g p => (⟨dictInsert g.vertices p.1 (Vertex.from_dict p.2), g.edges,
        dictInsert g.adjacency p.1 [], g.periphery, g.next_vertex_id⟩ : PlanarGraph K))
      g0) :
    r.adjacency.map (fun p => p.1) = r.vertices.map (fun p => p.1) ∧
    (∀ p ∈ r.adjacency, p.2 = ([] : List Nat)) ∧
    r.edges = g0.edges ∧
    (∀ k ∈ r.vertices.map (fun p => p.1),
      k ∈ g0.vertices.map (fun p => p.1) ∨ k ∈ l.map (fun p => p.1)) ∧
    r.periphery = g0.periphery ∧ r.next_vertex_id = g0.next_vertex_id := by
  subst hr
  induction l generalizing g0 with
  | nil => exact ⟨h1, h2, rfl, fun k hk => Or.inl hk, rfl, rfl⟩
  | cons a rest ih =>
      simp only [List.foldl_cons]
      have hsome : ((g0.adjacency.lookup a.1).isSome)
          = ((g0.vertices.lookup a.1).isSome) := by
        by_cases hmem : a.1 ∈ g0.vertices.map (fun p => p.1)
        · rw [(lookup_isSome_iff _ _).2 (h1 ▸ hmem),
            (lookup_isSome_iff _ _).2 hmem]
        · have hmem' : a.1 ∉ g0.adjacency.map (fun p => p.1) := h1 ▸ hmem
          rw [Bool.eq_iff_iff]
          simp only [lookup_isSome_iff]
          exact ⟨fun hh => absurd hh hmem', fun hh => absurd hh hmem⟩
      have h1' : (dictInsert g0.adjacency a.1 []).map (fun p => p.1)
          = (dictInsert g0.vertices a.1 (Vertex.from_dict a.2)).map (fun p => p.1) := by
        rw [keys_dictInsert, keys_dictInsert, hsome]
        by_cases hvs : (g0.vertices.lookup a.1).isSome
        · rw [if_pos hvs, if_pos hvs, h1]
        · rw [if_neg hvs, if_neg hvs, h1]
      have h2' : ∀ p ∈ dictInsert g0.adjacency a.1 [], p.2 = ([] : List Nat) := by
        intro p hp
        rcases mem_dictInsert_cases _ _ _ _ hp with rfl | hp'
        · rfl
        · exact h2 p hp'
      obtain ⟨i1, i2, i3, i4, i5, i6⟩ := ih ⟨dictInsert g0.vertices a.1
        (Vertex.from_dict a.2), g0.edges, dictInsert g0.adjacency a.1 [],
        g0.periphery, g0.next_vertex_id⟩ h1' h2'
      refine ⟨i1, i2, i3, ?_, i5, i6⟩
      intro k hk
      rcases i4 k hk with hin | hin
      · rw [keys_dictInsert] at hin
        by_cases hvs : (g0.vertices.lookup a.1).isSome
        · rw [if_pos hvs] at hin
          exact Or.inl hin
        · rw [if_neg hvs] at hin
          rcases List.mem_append.1 hin with hin' | hin'
          · exact Or.inl hin'
          · simp only [List.mem_singleton] at hin'
            exact Or.inr (by simp [hin'])
      · exact Or.inr (by simp [hin])

theorem edgeMake_make (x y : Nat) :
    Edge.make (Edge.make x y).v1_id (Edge.make x y).v2_id = Edge.make x y := by
  simp only [Edge.make, Edge.mk.injEq]
  omega

theorem fromDictEdges_Q {K : Type} (l : List EdgeDict) (g g2 : PlanarGraph K)
    (h : fromDictEdges g l = .ok g2)
    (hS : AdjacencySym g)
    (hK : g.adjacency.map (fun p => p.1) = g.vertices.map (fun p => p.1))
    (hV : ∀ p ∈ g.adjacency, ∀ m ∈ p.2, m ∈ g.vertexKeys)
    (hEk : ∀ e ∈ g.edges, e.v1_id ∈ g.vertexKeys ∧ e.v2_id ∈ g.vertexKeys) :
    AdjacencySym g2 ∧
    g2.adjacency.map (fun p => p.1) = g2.vertices.map (fun p => p.1) ∧
    (∀ p ∈ g2.adjacency, ∀ m ∈ p.2, m ∈ g2.vertexKeys) ∧
    (∀ e ∈ g2.edges, e.v1_id ∈ g2.vertexKeys ∧ e.v2_id ∈ g2.vertexKeys) ∧
    g2.vertices = g.vertices ∧ g2.periphery = g.periphery ∧
    g2.next_vertex_id = g.next_vertex_id := by
  induction l generalizing g with
  | nil =>
      unfold fromDictEdges at h
      obtain rfl := Except.ok.inj h
      exact ⟨hS, hK, hV, hEk, rfl, rfl, rfl⟩
  | cons d rest ih =>
      unfold fromDictEdges at h
      by_cases hchk : (Edge.from_dict d).v1_id ∉ g.vertexKeys ∨
          (Edge.from_dict d).v2_id ∉ g.vertexKeys
      · rw [if_pos hchk] at h
        exact absurd h (by simp)
      · rw [if_neg hchk] at h
        push_neg at hchk
        simp only at h
        have ha' : (Edge.from_dict d).v1_id ∈ g.adjacency.map (fun p => p.1) := by
          rw [hK]; exact hchk.1
        have hb' : (Edge.from_dict d).v2_id ∈ g.adjacency.map (fun p => p.1) := by
          rw [hK]; exact hchk.2
        have hE' : ∀ x y : Nat,
            (Edge.make x y ∈ (if Edge.from_dict d ∈ g.edges then g.edges
              else g.edges ++ [Edge.from_dict d])
            ↔ Edge.make x y ∈ g.edges ∨
              Edge.make x y = Edge.make (Edge.from_dict d).v1_id
                (Edge.from_dict d).v2_id) := by
          intro x y
          rw [show Edge.make (Edge.from_dict d).v1_id (Edge.from_dict d).v2_id
            = Edge.from_dict d from edgeMake_make d.v1_id d.v2_id]
          by_cases hin : Edge.from_dict d ∈ g.edges
          · rw [if_pos hin]
            constructor
            · exact Or.inl
            · rintro (hh | hh)
              · exact hh
              · rw [hh]; exact hin
          · rw [if_neg hin]
            simp [List.mem_append]
        have hSstep := sym_after_adjAdd_pair g (Edge.from_dict d).v1_id
          (Edge.from_dict d).v2_id ha' hb' hS _ hE'
        refine ih ⟨g.vertices,
          (if Edge.from_dict d ∈ g.edges then g.edges else g.edges ++ [Edge.from_dict d]),
          adjAdd (adjAdd g.adjacency (Edge.from_dict d).v1_id (Edge.from_dict d).v2_id)
            (Edge.from_dict d).v2_id (Edge.from_dict d).v1_id,
          g.periphery, g.next_vertex_id⟩ h ?_ ?_ ?_ ?_
        · intro x y
          exact hSstep x y
        · show (adjAdd (adjAdd g.adjacency _ _) _ _).map _ = g.vertices.map _
          rw [keys_adjAdd, keys_adjAdd, hK]
        · intro p hp m hm
          exact values_adjAdd_pred _ _ _ (fun mm => mm ∈ g.vertexKeys)
            (values_adjAdd_pred _ _ _ _ hV hchk.2) hchk.1 p hp m hm
        · intro e hee
          show e.v1_id ∈ g.vertexKeys ∧ e.v2_id ∈ g.vertexKeys
          by_cases hin : Edge.from_dict d ∈ g.edges
          · rw [if_pos hin] at hee
            exact hEk e hee
          · rw [if_neg hin] at hee
            rcases List.mem_append.1 hee with h1 | h1
            · exact hEk e h1
            · simp only [List.mem_singleton] at h1
              subst h1
              exact hchk

theorem symInv_fromDict (s : Snapshot ℝ) (g' : PlanarGraph ℝ)
    (hguard : ∀ k ∈ s.vertices.map (fun p => p.1), k < s.next_vertex_id)
    (h : PlanarGraph.from_dict s = .ok g') : SymInv g' := by
  unfold PlanarGraph.from_dict at h
  simp only at h
  obtain ⟨hK1, hVempty, hE1, hsub1, hperi1, hnext1⟩ :=
    fromDict_phase1_props s.vertices ⟨[], [], [], [], 1⟩
      (s.vertices.foldl
        (fun g p => (⟨dictInsert g.vertices p.1 (Vertex.from_dict p.2), g.edges,
          dictInsert g.adjacency p.1 [], g.periphery, g.next_vertex_id⟩ :
            PlanarGraph ℝ))
        ⟨[], [], [], [], 1⟩)
      rfl (by intro p hp; simp at hp) rfl
  have hS1 : AdjacencySym _ := sym_of_empty _ hVempty hE1
  have hV1 : ∀ p ∈ (s.vertices.foldl
      (fun g p => (⟨dictInsert g.vertices p.1 (Vertex.from_dict p.2), g.edges,
        dictInsert g.adjacency p.1 [], g.periphery, g.next_vertex_id⟩ :
          PlanarGraph ℝ))
      ⟨[], [], [], [], 1⟩).adjacency, ∀ m ∈ p.2,
      m ∈ (s.vertices.foldl
      (fun g p => (⟨dictInsert g.vertices p.1 (Vertex.from_dict p.2), g.edges,
        dictInsert g.adjacency p.1 [], g.periphery, g.next_vertex_id⟩ :
          PlanarGraph ℝ))
      ⟨[], [], [], [], 1⟩).vertexKeys := by
    intro p hp m hm
    rw [hVempty p hp] at hm
    simp at hm
  cases hfe : fromDictEdges
      (s.vertices.foldl
        (fun g p => (⟨dictInsert g.vertices p.1 (Vertex.from_dict p.2), g.edges,
          dictInsert g.adjacency p.1 [], g.periphery, g.next_vertex_id⟩ :
            PlanarGraph ℝ))
        ⟨[], [], [], [], 1⟩) s.edges with
  | error e =>
      rw [hfe] at h
      exact absurd h (by simp)
  | ok g2 =>
      rw [hfe] at h
      simp only [Except.ok.injEq] at h
      obtain rfl := h
      obtain ⟨hS2, hK2, hV2, hEk2, hv2, hp2, hn2⟩ :=
        fromDictEdges_Q s.edges _ g2 hfe hS1 hK1 hV1
          (by intro e hee; rw [hE1] at hee; simp at hee)
      have hbound : ∀ k ∈ g2.vertices.map (fun p => p.1), k < s.next_vertex_id := by
        intro k hk
        rw [hv2] at hk
        rcases hsub1 k hk with h1 | h1
        · simp at h1
        · exact hguard k h1
      refine ⟨?_, ?_, ?_, ?_⟩
      · intro a b
        exact hS2 a b
      · exact hK2
      · intro p hp
        constructor
        · have : p.1 ∈ g2.adjacency.map (fun q => q.1) := List.mem_map.2 ⟨p, hp, rfl⟩
          rw [hK2] at this
          exact hbound _ this
        · intro m hm
          exact hbound _ (hV2 p hp m hm)
      · intro e hee
        obtain ⟨he1, he2⟩ := hEk2 e hee
        exact ⟨hbound _ he1, hbound _ he2⟩

theorem symInv_reachSafe (g : PlanarGraph ℝ) (h : ReachSafe g) : SymInv g := by
  induction h with
  | init => exact symInv_init ℝ
  | addV g x y c _ ih => exact symInv_addV g x y c ih
  | addE g g' b a1 a2 _ he ih => exact symInv_addE g g' a1 a2 b he ih
  | removeV g id _ ih => exact symInv_removeV g id ih
  | clearOp g _ => exact symInv_clear g
  | triangle g g' _ he _ => exact symInv_triangle g g' he
  | importS s g' hg he => exact symInv_fromDict s g' hg he

/-- C2 as frozen is false: importing a snapshot whose next-id counter
(1) does not exceed its vertex ids and then calling `addVertex` reaches
a graph in which the edge `{1,2}` is stored while vertex 2 is no longer
in the adjacency set of vertex 1 (the fresh id collides with vertex 1,
whose adjacency entry is reset). -/
theorem C2_counterexample :
    Reach gBad ∧ Edge.make 1 2 ∈ gBad.edges ∧ (2 : Nat) ∉ gBad.get_neighbors 1 := by
  refine ⟨?_, by decide, by decide⟩
  have h1 : PlanarGraph.from_dict snapBad = .ok gBadImported := rfl
  exact Reach.addV gBadImported 0 0 1 (Reach.importS snapBad gBadImported h1)

/-- C2 (amended): for every graph reachable by `addVertex`, `addEdge`,
`removeVertex`, `clear`, `createInitialTriangle`, and imports of
snapshots whose next-id counter strictly exceeds every vertex id they
contain, and for all ids `a`, `b`: `b ∈ adjacency(a)` iff
`a ∈ adjacency(b)` iff the canonical edge `{a,b}` is stored. -/
theorem C2_adjacency_symmetry (g : PlanarGraph ℝ) (h : ReachSafe g) (a b : Nat) :
    (b ∈ g.get_neighbors a ↔ a ∈ g.get_neighbors b) ∧
    (b ∈ g.get_neighbors a ↔ Edge.make a b ∈ g.edges) := by
  have hS := (symInv_reachSafe g h).1
  have h1 := hS a b
  have h2 := hS b a
  rw [edgeMake_comm b a] at h2
  exact ⟨h1.trans h2.symm, h1⟩

/-- Witness: the amended C2 at the initial triangle. -/
theorem C2_adjacency_symmetry_witness :
    ((2 : Nat) ∈ triangleG.get_neighbors 1 ↔ (1 : Nat) ∈ triangleG.get_neighbors 2) ∧
    ((2 : Nat) ∈ triangleG.get_neighbors 1 ↔ Edge.make 1 2 ∈ triangleG.edges) :=
  C2_adjacency_symmetry triangleG
    (ReachSafe.triangle (PlanarGraph.init ℝ) triangleG ReachSafe.init rfl) 1 2

theorem C4_add_edge_amended_witness :
    PlanarGraph.add_edge exG2 3 1 = .error .invalidReference ∧
    PlanarGraph.add_edge exG3 2 1 = .ok (exG3, false) ∧
    ∃ g', PlanarGraph.add_edge exG2 1 2 = .ok (g', true) ∧
      g'.edges = exG2.edges ++ [Edge.make 1 2] := by
  obtain ⟨g', h1, h2, -⟩ := (C4_add_edge_amended ℚ exG2 1 2).2.2
    (by decide) (by decide) (by decide) (by decide) (by decide) (by decide)
  exact ⟨(C4_add_edge_amended ℚ exG2 3 1).1 (Or.inl (by decide)),
    (C4_add_edge_amended ℚ exG3 2 1).2.1 (by decide) (by decide)
      (Or.inr (by decide)),
    g', h1, h2⟩

/-! ### Claim C6: manual-insertion anchor errors -/

theorem calculate_vertex_position_error_kind (g : PlanarGraph ℝ) (a b : Nat)
    (e : CmdError) (h : calculate_vertex_position g a b = .error e) :
    e = CmdError.invalidSegment := by
  unfold calculate_vertex_position at h
  simp only at h
  by_cases h1 : (g.get_periphery_segment a b).length < 2
  · rw [if_pos h1] at h
    injection h with h'
    exact h'.symm
  · rw [if_neg h1] at h
    exact Except.noConfusion h

theorem arePeripheryAdjacent_iff {K : Type} (g : PlanarGraph K) (a b : Nat)
    (ha : a ∈ g.periphery) (hb : b ∈ g.periphery) :
    arePeripheryAdjacent g a b = true ↔
      (((g.periphery.indexOf a : Int) - (g.periphery.indexOf b : Int)).natAbs = 1 ∨
       ((g.periphery.indexOf a : Int) - (g.periphery.indexOf b : Int)).natAbs
         = g.periphery.length - 1) := by
  unfold arePeripheryAdjacent
  rw [if_neg (by push_neg; exact ⟨ha, hb⟩)]
  simp

theorem add_manual_vertex_outcome (g : PlanarGraph ℝ) (s e c : Nat)
    (h1 : s ∈ g.periphery) (h2 : e ∈ g.periphery)
    (h3 : arePeripheryAdjacent g s e = true) :
    (add_manual_vertex g s e c).2 = .err .invalidSegment ∨
    (add_manual_vertex g s e c).2 = .err .invalidReference ∨
    (add_manual_vertex g s e c).2 = .ok g.next_vertex_id := by
  unfold add_manual_vertex
  rw [if_neg (by simp [h1]), if_neg (by simp [h2]), if_neg (by simp [h3])]
  cases hcv : calculate_vertex_position g s e with
  | error e' =>
      have he' := calculate_vertex_position_error_kind g s e e' hcv
      subst he'
      exact Or.inl rfl
  | ok xy =>
      obtain ⟨x, y⟩ := xy
      simp only
      rcases hl : addEdgesLoop (g.add_vertex x y c).1 (g.add_vertex x y c).2
          ((g.add_vertex x y c).1.get_periphery_segment s e) with ⟨g2, bb⟩
      cases bb
      · exact Or.inr (Or.inr rfl)
      · exact Or.inr (Or.inl rfl)

/-- C6: `addManualVertex` reports `NotOnPeriphery` when either anchor is
absent from the periphery, and reports `NonAdjacentPeriphery` exactly
when both anchors are on the periphery but their indices are not
circularly adjacent (`|idx1 − idx2|` equal to 1 or to the periphery
length minus 1); on the square periphery `[10, 20, 30, 40]`, the pair
`(10, 30)` fails with `NonAdjacentPeriphery` and the pair `(10, 20)`
succeeds, returning the fresh vertex id 41. -/
theorem C6_manual_anchor_errors (g : PlanarGraph ℝ) (s e c : Nat) :
    ((s ∉ g.periphery ∨ e ∉ g.periphery) →
      (add_manual_vertex g s e c).2 = .err .notOnPeriphery) ∧
    ((add_manual_vertex g s e c).2 = .err .nonAdjacentPeriphery ↔
      s ∈ g.periphery ∧ e ∈ g.periphery ∧
      ¬(((g.periphery.indexOf s : Int) - (g.periphery.indexOf e : Int)).natAbs = 1 ∨
        ((g.periphery.indexOf s : Int) - (g.periphery.indexOf e : Int)).natAbs
          = g.periphery.length - 1)) ∧
    (add_manual_vertex exP4 10 30 1).2 = .err .nonAdjacentPeriphery ∧
    (add_manual_vertex exP4 10 20 1).2 = .ok 41 := by
  have hpart1 : (s ∉ g.periphery ∨ e ∉ g.periphery) →
      (add_manual_vertex g s e c).2 = .err .notOnPeriphery := by
    intro h
    unfold add_manual_vertex
    rcases h with h | h
    · rw [if_pos h]
    · by_cases h1 : s ∉ g.periphery
      · rw [if_pos h1]
      · rw [if_neg h1, if_pos h]
  refine ⟨hpart1, ⟨?_, ?_⟩, rfl, rfl⟩
  · intro h
    by_cases h1 : s ∈ g.periphery
    swap
    · rw [hpart1 (Or.inl h1)] at h
      simp at h
    by_cases h2 : e ∈ g.periphery
    swap
    · rw [hpart1 (Or.inr h2)] at h
      simp at h
    by_cases h3 : arePeripheryAdjacent g s e = true
    · rcases add_manual_vertex_outcome g s e c h1 h2 h3 with ho | ho | ho <;>
        · rw [ho] at h
          simp at h
    · exact ⟨h1, h2, fun hc => h3 ((arePeripheryAdjacent_iff g s e h1 h2).2 hc)⟩
  · rintro ⟨h1, h2, h3⟩
    have hnadj : ¬ arePeripheryAdjacent g s e = true :=
      fun hh => h3 ((arePeripheryAdjacent_iff g s e h1 h2).1 hh)
    unfold add_manual_vertex
    rw [if_neg (by simp [h1]), if_neg (by simp [h2]), if_pos hnadj]

theorem C6_manual_anchor_errors_witness :
    (add_manual_vertex exP4 50 20 1).2 = .err .notOnPeriphery ∧
    (add_manual_vertex exP4 20 40 1).2 = .err .nonAdjacentPeriphery :=
  ⟨(C6_manual_anchor_errors exP4 50 20 1).1 (Or.inl (by decide)),
   (C6_manual_anchor_errors exP4 20 40 1).2.1.mpr
     ⟨by decide, by decide, by decide⟩⟩

/-! ### Claim C5: failed insertions leave the graph unchanged -/

theorem mem_keys_dictInsert {β : Type} (l : List (Nat × β)) (k k' : Nat) (v : β)
    (h : k' ∈ l.map (fun p => p.1)) :
    k' ∈ (dictInsert l k v).map (fun p => p.1) := by
  rw [keys_dictInsert]
  by_cases hs : (l.lookup k).isSome
  · rw [if_pos hs]
    exact h
  · rw [if_neg hs]
    exact List.mem_append_left _ h

theorem self_mem_keys_dictInsert {β : Type} (l : List (Nat × β)) (k : Nat) (v : β) :
    k ∈ (dictInsert l k v).map (fun p => p.1) := by
  rw [keys_dictInsert]
  by_cases hs : (l.lookup k).isSome
  · rw [if_pos hs]
    exact (lookup_isSome_iff l k).1 hs
  · rw [if_neg hs]
    exact List.mem_append_right _ (by simp)

theorem segment_subset_periphery {K : Type} (g : PlanarGraph K) (s e : Nat) :
    ∀ x ∈ g.get_periphery_segment s e, x ∈ g.periphery := by
  intro x hx
  unfold PlanarGraph.get_periphery_segment at hx
  by_cases h1 : s ∉ g.periphery ∨ e ∉ g.periphery
  · rw [if_pos h1] at hx
    simp at hx
  · rw [if_neg h1] at hx
    simp only at hx
    by_cases h2 : g.periphery.indexOf s ≤ g.periphery.indexOf e
    · rw [if_pos h2] at hx
      exact List.mem_of_mem_drop (List.mem_of_mem_take hx)
    · rw [if_neg h2] at hx
      rcases List.mem_append.1 hx with h | h
      · exact List.mem_of_mem_drop h
      · exact List.mem_of_mem_take h

theorem add_edge_not_error {K : Type} (g : PlanarGraph K) (a b : Nat)
    (ha : a ∈ g.vertexKeys) (hb : b ∈ g.vertexKeys) :
    ∃ g' bb, g.add_edge a b = .ok (g', bb) := by
  unfold PlanarGraph.add_edge
  rw [if_neg (by push_neg; exact ⟨ha, hb⟩)]
  by_cases h2 : a = b
  · rw [if_pos h2]
    exact ⟨g, false, rfl⟩
  · rw [if_neg h2]
    simp only
    by_cases h3 : Edge.make a b ∈ g.edges
    · rw [if_pos h3]
      exact ⟨g, false, rfl⟩
    · rw [if_neg h3]
      exact ⟨_, true, rfl⟩

theorem addEdgesLoop_no_raise (seg : List Nat) (g : PlanarGraph ℝ) (vid : Nat)
    (hv : vid ∈ g.vertexKeys) (hs : ∀ s ∈ seg, s ∈ g.vertexKeys) :
    (addEdgesLoop g vid seg).2 = false := by
  induction seg generalizing g with
  | nil => rfl
  | cons a rest ih =>
      obtain ⟨g', bb, hok⟩ := add_edge_not_error g vid a hv (hs a (by simp))
      unfold addEdgesLoop
      rw [hok]
      have hfields := add_edge_ok_fields g g' vid a bb hok
      have hv' : vid ∈ g'.vertexKeys := by
        unfold PlanarGraph.vertexKeys
        rw [hfields.1]
        exact hv
      have hs' : ∀ t ∈ rest, t ∈ g'.vertexKeys := by
        intro t htm
        unfold PlanarGraph.vertexKeys
        rw [hfields.1]
        exact hs t (by simp [htm])
      exact ih g' hv' hs'

theorem add_vertex_fresh_mem {K : Type} (g : PlanarGraph K) (x y : K) (c : Nat) :
    (g.add_vertex x y c).2 ∈ (g.add_vertex x y c).1.vertexKeys :=
  self_mem_keys_dictInsert g.vertices g.next_vertex_id _

theorem add_vertex_mem_keys {K : Type} (g : PlanarGraph K) (x y : K) (c k : Nat)
    (h : k ∈ g.vertexKeys) : k ∈ (g.add_vertex x y c).1.vertexKeys :=
  mem_keys_dictInsert g.vertices g.next_vertex_id k _ h

theorem add_manual_vertex_err_state (g : PlanarGraph ℝ) (s e c : Nat)
    (hper : ∀ id ∈ g.periphery, id ∈ g.vertexKeys) :
    (∃ vid, (add_manual_vertex g s e c).2 = .ok vid) ∨
    (add_manual_vertex g s e c).1 = g := by
  unfold add_manual_vertex
  by_cases h1 : s ∉ g.periphery
  · rw [if_pos h1]
    exact Or.inr rfl
  · rw [if_neg h1]
    by_cases h2 : e ∉ g.periphery
    · rw [if_pos h2]
      exact Or.inr rfl
    · rw [if_neg h2]
      by_cases h3 : ¬ arePeripheryAdjacent g s e = true
      · rw [if_pos h3]
        exact Or.inr rfl
      · rw [if_neg h3]
        cases hcv : calculate_vertex_position g s e with
        | error e' => exact Or.inr rfl
        | ok xy =>
            obtain ⟨x, y⟩ := xy
            simp only
            rcases hl : addEdgesLoop (g.add_vertex x y c).1 (g.add_vertex x y c).2
                ((g.add_vertex x y c).1.get_periphery_segment s e) with ⟨g2, bb⟩
            have hb := addEdgesLoop_no_raise
              ((g.add_vertex x y c).1.get_periphery_segment s e)
              (g.add_vertex x y c).1 (g.add_vertex x y c).2
              (add_vertex_fresh_mem g x y c)
              (fun t ht => add_vertex_mem_keys g x y c t
                (hper t (segment_subset_periphery (g.add_vertex x y c).1 s e t ht)))
            rw [hl] at hb
            subst hb
            exact Or.inl ⟨(g.add_vertex x y c).2, rfl⟩

theorem add_random_vertex_err_state (g : PlanarGraph ℝ) (idx c : Nat)
    (hper : ∀ id ∈ g.periphery, id ∈ g.vertexKeys) :
    (∃ vid, (add_random_vertex g idx c).2 = .ok vid) ∨
    (add_random_vertex g idx c).1 = g := by
  unfold add_random_vertex
  by_cases h1 : g.periphery.length < 2
  · rw [if_pos h1]
    exact Or.inr rfl
  · rw [if_neg h1]
    cases hcv : calculate_random_vertex_position g idx with
    | error e' => exact Or.inr rfl
    | ok t =>
        obtain ⟨ps, pe, x, y⟩ := t
        simp only
        rcases hl : addEdgesLoop (g.add_vertex x y c).1 (g.add_vertex x y c).2
            ((g.add_vertex x y c).1.get_periphery_segment ps pe) with ⟨g2, bb⟩
        have hb := addEdgesLoop_no_raise
          ((g.add_vertex x y c).1.get_periphery_segment ps pe)
          (g.add_vertex x y c).1 (g.add_vertex x y c).2
          (add_vertex_fresh_mem g x y c)
          (fun t ht => add_vertex_mem_keys g x y c t
            (hper t (segment_subset_periphery (g.add_vertex x y c).1 ps pe t ht)))
        rw [hl] at hb
        subst hb
        exact Or.inl ⟨(g.add_vertex x y c).2, rfl⟩

/-- C5: in any state whose periphery ids are existing vertices (as in
every state the application reaches), an insertion command that reports
an error — any of its error kinds — returns with the whole graph state
(vertices, edges, adjacency, periphery, next id) exactly as it was
before the call: the error guards all fire before the first mutation,
and the post-mutation edge loop cannot raise because the new vertex and
the periphery segment members all exist. -/
theorem C5_failed_insert_unchanged (g : PlanarGraph ℝ) (s e c idx : Nat)
    (hper : ∀ id ∈ g.periphery, id ∈ g.vertexKeys) :
    (∀ err, (add_manual_vertex g s e c).2 = .err err →
      (add_manual_vertex g s e c).1 = g) ∧
    (∀ err, (add_random_vertex g idx c).2 = .err err →
      (add_random_vertex g idx c).1 = g) := by
  constructor
  · intro err h
    rcases add_manual_vertex_err_state g s e c hper with ⟨vid, hok⟩ | hst
    · rw [hok] at h
      exact CmdOutcome.noConfusion h
    · exact hst
  · intro err h
    rcases add_random_vertex_err_state g idx c hper with ⟨vid, hok⟩ | hst
    · rw [hok] at h
      exact CmdOutcome.noConfusion h
    · exact hst

theorem C5_failed_insert_unchanged_witness :
    (add_manual_vertex exP4 10 30 1).1 = exP4 ∧
    (add_random_vertex exE1 0 1).1 = exE1 :=
  ⟨(C5_failed_insert_unchanged exP4 10 30 1 0 (by decide)).1
      CmdError.nonAdjacentPeriphery rfl,
   (C5_failed_insert_unchanged exE1 0 0 1 0 (by decide)).2
      CmdError.insufficientPeriphery rfl⟩

/-! ### Claim C9: edge-length adjustment -/

theorem lookup_map_setPos (l : List (Nat × Vertex ℝ)) (id k : Nat) (x y : ℝ) :
    (l.map (fun p => if p.1 = id then (p.1, { p.2 with x := x, y := y }) else p)).lookup k
      = if k = id then (l.lookup k).map (fun v => { v with x := x, y := y })
        else l.lookup k := by
  induction l with
  | nil => by_cases h : k = id <;> simp [h]
  | cons a t ih =>
      obtain ⟨ka, va⟩ := a
      simp only [List.map_cons]
      by_cases h1 : ka = id
      · subst h1
        by_cases h2 : k = ka
        · subst h2
          simp [List.lookup_cons]
        · have hb : (k == ka) = false := by simp [h2]
          simp [List.lookup_cons, hb, ih, h2]
      · by_cases h2 : k = ka
        · subst h2
          simp [List.lookup_cons, h1]
        · have hb : (k == ka) = false := by simp [h2]
          simp [List.lookup_cons, hb, ih, h1]

theorem readV_setVertexPos_self (g : PlanarGraph ℝ) (id : Nat) (x y : ℝ)
    (h : (g.vertices.lookup id).isSome) :
    (g.setVertexPos id x y).readV id = { g.readV id with x := x, y := y } := by
  obtain ⟨v, hv⟩ := Option.isSome_iff_exists.1 h
  unfold PlanarGraph.readV PlanarGraph.setVertexPos
  simp only
  rw [lookup_map_setPos, if_pos rfl, hv]
  rfl

theorem readV_setVertexPos_other (g : PlanarGraph ℝ) (id k : Nat) (x y : ℝ)
    (h : k ≠ id) :
    (g.setVertexPos id x y).readV k = g.readV k := by
  unfold PlanarGraph.readV PlanarGraph.setVertexPos
  simp only
  rw [lookup_map_setPos, if_neg h]

theorem lookup_setVertexPos_other (g : PlanarGraph ℝ) (id k : Nat) (x y : ℝ)
    (h : k ≠ id) :
    (g.setVertexPos id x y).vertices.lookup k = g.vertices.lookup k := by
  unfold PlanarGraph.setVertexPos
  simp only
  rw [lookup_map_setPos, if_neg h]

theorem symmetric_move_length (cx cy d1 d2 N t : ℝ) (hN : N ≠ 0)
    (hnn : N ^ 2 = d1 ^ 2 + d2 ^ 2) (ht : 0 ≤ t) :
    Real.sqrt ((cx - d1 / N * (t / 2) - (cx + d1 / N * (t / 2))) ^ 2 +
      (cy - d2 / N * (t / 2) - (cy + d2 / N * (t / 2))) ^ 2) = t := by
  have h1 : (cx - d1 / N * (t / 2) - (cx + d1 / N * (t / 2))) ^ 2 +
      (cy - d2 / N * (t / 2) - (cy + d2 / N * (t / 2))) ^ 2 = t ^ 2 := by
    field_simp
    linear_combination (-4) * t ^ 2 * hnn
  rw [h1, Real.sqrt_sq ht]

/-- C9: inside one `applyRedraw` call the edge-length step uses the
graph-wide average edge length as target and runs exactly 3 passes over
the edge set (none when the average is zero); within a pass, an edge of
nonzero length deviating from the target by more than 20% gets both
endpoints moved symmetrically along its direction so that immediately
afterwards its length is exactly the target and its midpoint is the
midpoint it had just before the move; an edge within the 20% tolerance
is left untouched by the pass. -/
theorem C9_edge_length_adjustment (g : PlanarGraph ℝ) (e : Edge) (t : ℝ) :
    (3 ≤ g.vertices.length →
      apply_redraw_logic g = updateVertexDiameters (maintainConvexContour
        (adjustEdgeLengths (rebalanceAngularSpacing g.update_periphery)))) ∧
    (calculateAverageEdgeLength g ≠ 0 →
      adjustEdgeLengths g =
        adjustPass (calculateAverageEdgeLength g)
          (adjustPass (calculateAverageEdgeLength g)
            (adjustPass (calculateAverageEdgeLength g) g))) ∧
    (calculateAverageEdgeLength g = 0 → adjustEdgeLengths g = g) ∧
    (adjustPass t g = g.edges.foldl (adjustOneEdge t) g) ∧
    (0 < t → (g.vertices.lookup e.v1_id).isSome = true →
      (g.vertices.lookup e.v2_id).isSome = true →
      e.v1_id ≠ e.v2_id → |edgeLength g e / t - 1| > 0.2 → 0 < edgeLength g e →
      edgeLength (adjustOneEdge t g e) e = t ∧
      edgeMidpoint (adjustOneEdge t g e) e = edgeMidpoint g e) ∧
    (¬ |edgeLength g e / t - 1| > 0.2 → adjustOneEdge t g e = g) := by
  refine ⟨?_, ?_, ?_, rfl, ?_, ?_⟩
  · intro h3
    unfold apply_redraw_logic
    rw [if_neg (by omega)]
  · intro h0
    unfold adjustEdgeLengths
    simp only
    rw [if_neg h0]
    rfl
  · intro h0
    unfold adjustEdgeLengths
    simp only
    rw [if_pos h0]
  · intro ht h1s h2s hne hdev hpos
    unfold edgeLength at hdev hpos
    have hLn : (g.readV e.v1_id).distance_to (g.readV e.v2_id)
        = norm2 ((g.readV e.v2_id).x - (g.readV e.v1_id).x,
                 (g.readV e.v2_id).y - (g.readV e.v1_id).y) := by
      unfold Vertex.distance_to norm2
      congr 1
      ring
    have hguard2 : 0 < norm2 ((g.readV e.v2_id).x - (g.readV e.v1_id).x,
        (g.readV e.v2_id).y - (g.readV e.v1_id).y) := hLn ▸ hpos
    have hne0 : norm2 ((g.readV e.v2_id).x - (g.readV e.v1_id).x,
        (g.readV e.v2_id).y - (g.readV e.v1_id).y) ≠ 0 := ne_of_gt hguard2
    have hnn : norm2 ((g.readV e.v2_id).x - (g.readV e.v1_id).x,
          (g.readV e.v2_id).y - (g.readV e.v1_id).y) ^ 2
        = ((g.readV e.v2_id).x - (g.readV e.v1_id).x) ^ 2
          + ((g.readV e.v2_id).y - (g.readV e.v1_id).y) ^ 2 := by
      unfold norm2
      exact Real.sq_sqrt (by positivity)
    unfold adjustOneEdge edgeLength edgeMidpoint
    simp only
    rw [if_pos hdev, if_pos hguard2]
    rw [readV_setVertexPos_other _ _ _ _ _ hne,
        readV_setVertexPos_self _ _ _ _ h1s,
        readV_setVertexPos_self _ _ _ _
          (by rw [lookup_setVertexPos_other _ _ _ _ _ (Ne.symm hne)]; exact h2s)]
    constructor
    · unfold Vertex.distance_to
      simp only
      exact symmetric_move_length _ _ _ _ _ _ hne0 hnn ht.le
    · simp only [Prod.mk.injEq]
      constructor <;> ring
  · intro hdev
    unfold edgeLength at hdev
    unfold adjustOneEdge
    simp only
    rw [if_neg hdev]

theorem C9_edge_length_adjustment_witness :
    edgeLength (adjustOneEdge 10 exE1 (Edge.make 1 2)) (Edge.make 1 2) = 10 ∧
    edgeMidpoint (adjustOneEdge 10 exE1 (Edge.make 1 2)) (Edge.make 1 2)
      = edgeMidpoint exE1 (Edge.make 1 2) := by
  have h5 : edgeLength exE1 (Edge.make 1 2) = 5 := by
    show Real.sqrt (((0:ℝ) - 3) ^ 2 + ((0:ℝ) - 4) ^ 2) = 5
    rw [show ((0:ℝ) - 3) ^ 2 + ((0:ℝ) - 4) ^ 2 = 5 ^ 2 by norm_num]
    exact Real.sqrt_sq (by norm_num)
  exact (C9_edge_length_adjustment exE1 (Edge.make 1 2) 10).2.2.2.2.1
    (by norm_num) rfl rfl (by decide)
    (by rw [h5, abs_of_nonpos (by norm_num)]; norm_num)
    (by rw [h5]; norm_num)

/-! ### Claim C7: random insertion on a valid periphery -/

theorem foldl_counts {α : Type} (f : PlanarGraph ℝ → α → PlanarGraph ℝ)
    (l : List α) (g : PlanarGraph ℝ)
    (hf : ∀ g' a, (f g' a).vertices.length = g'.vertices.length ∧
      (f g' a).edges = g'.edges) :
    (l.foldl f g).vertices.length = g.vertices.length ∧
    (l.foldl f g).edges = g.edges := by
  induction l generalizing g with
  | nil => exact ⟨rfl, rfl⟩
  | cons a rest ih =>
      have h1 := hf g a
      have h2 := ih (f g a)
      exact ⟨h2.1.trans h1.1, h2.2.trans h1.2⟩

theorem setVertexPos_counts (g : PlanarGraph ℝ) (id : Nat) (x y : ℝ) :
    (g.setVertexPos id x y).vertices.length = g.vertices.length ∧
    (g.setVertexPos id x y).edges = g.edges :=
  ⟨List.length_map _ _, rfl⟩

theorem adjustForMinimumAngle_counts (g : PlanarGraph ℝ) (a b c : Nat) :
    (adjustForMinimumAngle g a b c).vertices.length = g.vertices.length ∧
    (adjustForMinimumAngle g a b c).edges = g.edges := by
  unfold adjustForMinimumAngle
  simp only
  by_cases h : 0 < norm2 ((g.readV b).x - (g.readV a).x, (g.readV b).y - (g.readV a).y)
      ∧ 0 < norm2 ((g.readV c).x - (g.readV a).x, (g.readV c).y - (g.readV a).y)
  · rw [if_pos h]
    refine ⟨?_, ?_⟩
    · rw [(setVertexPos_counts _ _ _ _).1, (setVertexPos_counts _ _ _ _).1]
    · rw [(setVertexPos_counts _ _ _ _).2, (setVertexPos_counts _ _ _ _).2]
  · rw [if_neg h]
    exact ⟨rfl, rfl⟩

theorem rebalanceAt_counts (g : PlanarGraph ℝ) (vid : Nat) :
    (rebalanceAt g vid).vertices.length = g.vertices.length ∧
    (rebalanceAt g vid).edges = g.edges := by
  unfold rebalanceAt
  simp only
  by_cases h : (g.get_neighbors vid).length < 2
  · rw [if_pos h]
    exact ⟨rfl, rfl⟩
  · rw [if_neg h]
    apply foldl_counts
    intro g' i
    split <;> split <;>
      first
      | exact adjustForMinimumAngle_counts _ _ _ _
      | exact ⟨rfl, rfl⟩

theorem rebalanceAngularSpacing_counts (g : PlanarGraph ℝ) :
    (rebalanceAngularSpacing g).vertices.length = g.vertices.length ∧
    (rebalanceAngularSpacing g).edges = g.edges := by
  unfold rebalanceAngularSpacing
  exact foldl_counts _ _ _ (fun g' a => rebalanceAt_counts g' a)

theorem adjustOneEdge_counts (t : ℝ) (g : PlanarGraph ℝ) (e : Edge) :
    (adjustOneEdge t g e).vertices.length = g.vertices.length ∧
    (adjustOneEdge t g e).edges = g.edges := by
  unfold adjustOneEdge
  simp only
  by_cases h1 : |(g.readV e.v1_id).distance_to (g.readV e.v2_id) / t - 1| > 0.2
  · rw [if_pos h1]
    by_cases h2 : 0 < norm2 ((g.readV e.v2_id).x - (g.readV e.v1_id).x,
        (g.readV e.v2_id).y - (g.readV e.v1_id).y)
    · rw [if_pos h2]
      refine ⟨?_, ?_⟩
      · rw [(setVertexPos_counts _ _ _ _).1, (setVertexPos_counts _ _ _ _).1]
      · rw [(setVertexPos_counts _ _ _ _).2, (setVertexPos_counts _ _ _ _).2]
    · rw [if_neg h2]
      exact ⟨rfl, rfl⟩
  · rw [if_neg h1]
    exact ⟨rfl, rfl⟩

theorem adjustPass_counts (t : ℝ) (g : PlanarGraph ℝ) :
    (adjustPass t g).vertices.length = g.vertices.length ∧
    (adjustPass t g).edges = g.edges := by
  unfold adjustPass
  exact foldl_counts _ _ _ (fun g' e => adjustOneEdge_counts t g' e)

theorem adjustEdgeLengths_counts (g : PlanarGraph ℝ) :
    (adjustEdgeLengths g).vertices.length = g.vertices.length ∧
    (adjustEdgeLengths g).edges = g.edges := by
  unfold adjustEdgeLengths
  simp only
  by_cases h : calculateAverageEdgeLength g = 0
  · rw [if_pos h]
    exact ⟨rfl, rfl⟩
  · rw [if_neg h]
    exact foldl_counts _ _ _ (fun g' _ => adjustPass_counts _ g')

theorem adjustForConvexity_counts (g : PlanarGraph ℝ) (cid : Nat) :
    (adjustForConvexity g cid).vertices.length = g.vertices.length ∧
    (adjustForConvexity g cid).edges = g.edges := by
  unfold adjustForConvexity
  simp only
  by_cases h : 0 < norm2 ((g.readV cid).x - (calculateGraphCenter g).1,
      (g.readV cid).y - (calculateGraphCenter g).2)
  · rw [if_pos h]
    exact setVertexPos_counts _ _ _ _
  · rw [if_neg h]
    exact ⟨rfl, rfl⟩

theorem maintainConvexContour_counts (g : PlanarGraph ℝ) :
    (maintainConvexContour g).vertices.length = g.vertices.length ∧
    (maintainConvexContour g).edges = g.edges := by
  unfold maintainConvexContour
  simp only
  by_cases h : g.periphery.length < 3
  · rw [if_pos h]
    exact ⟨rfl, rfl⟩
  · rw [if_neg h]
    apply foldl_counts
    intro g' i
    split
    · exact adjustForConvexity_counts _ _
    · exact ⟨rfl, rfl⟩

theorem updateVertexDiameters_counts (g : PlanarGraph ℝ) :
    (updateVertexDiameters g).vertices.length = g.vertices.length ∧
    (updateVertexDiameters g).edges = g.edges :=
  ⟨List.length_map _ _, rfl⟩

theorem apply_redraw_counts (g : PlanarGraph ℝ) :
    (apply_redraw_logic g).vertices.length = g.vertices.length ∧
    (apply_redraw_logic g).edges = g.edges := by
  unfold apply_redraw_logic
  by_cases h : g.vertices.length < 3
  · rw [if_pos h]
    exact ⟨rfl, rfl⟩
  · rw [if_neg h]
    have h1 := update_periphery_vertices g
    have h2 := rebalanceAngularSpacing_counts g.update_periphery
    have h3 := adjustEdgeLengths_counts (rebalanceAngularSpacing g.update_periphery)
    have h4 := maintainConvexContour_counts
      (adjustEdgeLengths (rebalanceAngularSpacing g.update_periphery))
    have h5 := updateVertexDiameters_counts
      (maintainConvexContour (adjustEdgeLengths (rebalanceAngularSpacing g.update_periphery)))
    constructor
    · rw [h5.1, h4.1, h3.1, h2.1, h1.1]
    · rw [h5.2, h4.2, h3.2, h2.2, h1.2.1]

theorem seg_pair {K : Type} (g : PlanarGraph K) (idx : Nat)
    (hnd : g.periphery.Nodup) (hn : 2 ≤ g.periphery.length)
    (hidx : idx < g.periphery.length) :
    g.get_periphery_segment (g.periphery.getD idx 0)
        (g.periphery.getD ((idx + 1) % g.periphery.length) 0)
      = [g.periphery.getD idx 0,
         g.periphery.getD ((idx + 1) % g.periphery.length) 0] := by
  have hidx2 : (idx + 1) % g.periphery.length < g.periphery.length :=
    Nat.mod_lt _ (by omega)
  have hps : g.periphery.getD idx 0 = g.periphery[idx] :=
    List.getD_eq_getElem _ _ hidx
  have hpe : g.periphery.getD ((idx + 1) % g.periphery.length) 0
      = g.periphery[(idx + 1) % g.periphery.length] :=
    List.getD_eq_getElem _ _ hidx2
  unfold PlanarGraph.get_periphery_segment
  rw [if_neg (by
    push_neg
    rw [hps, hpe]
    exact ⟨List.getElem_mem hidx, List.getElem_mem hidx2⟩)]
  simp only
  rw [hps, hpe, List.indexOf_getElem hnd idx hidx,
    List.indexOf_getElem hnd ((idx + 1) % g.periphery.length) hidx2]
  rcases Nat.lt_or_ge (idx + 1) g.periphery.length with hlt | hge
  · have hmod : (idx + 1) % g.periphery.length = idx + 1 := Nat.mod_eq_of_lt hlt
    simp only [hmod]
    rw [if_pos (by omega)]
    rw [List.drop_eq_getElem_cons hidx,
      List.drop_eq_getElem_cons (show idx + 1 < g.periphery.length by omega)]
    rw [show idx + 1 + 1 - idx = 2 by omega]
    rfl
  · have heq : idx + 1 = g.periphery.length := by omega
    have hmod : (idx + 1) % g.periphery.length = 0 := by
      rw [heq, Nat.mod_self]
    simp only [hmod]
    rw [if_neg (by omega)]
    rw [List.drop_eq_getElem_cons hidx]
    have hd : List.drop (idx + 1) g.periphery = [] := by
      rw [heq]
      exact List.drop_length _
    rw [hd, List.take_succ, List.take_zero]
    simp [List.getElem?_eq_getElem (show 0 < g.periphery.length by omega)]

theorem addEdgesLoop_count (seg : List Nat) (g : PlanarGraph ℝ) (vid : Nat)
    (hv : vid ∈ g.vertexKeys)
    (hs : ∀ s ∈ seg, s ∈ g.vertexKeys)
    (hneq : ∀ s ∈ seg, s ≠ vid)
    (hnew : ∀ s ∈ seg, Edge.make vid s ∉ g.edges)
    (hnd : seg.Nodup) :
    (addEdgesLoop g vid seg).1.edges.length = g.edges.length + seg.length ∧
    (addEdgesLoop g vid seg).2 = false ∧
    (addEdgesLoop g vid seg).1.vertices = g.vertices ∧
    (addEdgesLoop g vid seg).1.periphery = g.periphery ∧
    (addEdgesLoop g vid seg).1.next_vertex_id = g.next_vertex_id := by
  induction seg generalizing g with
  | nil => exact ⟨rfl, rfl, rfl, rfl, rfl⟩
  | cons a rest ih =>
      have hsucc : g.add_edge vid a
          = .ok (⟨g.vertices, g.edges ++ [Edge.make vid a],
              adjAdd (adjAdd g.adjacency vid a) a vid, g.periphery,
              g.next_vertex_id⟩, true) := by
        unfold PlanarGraph.add_edge
        rw [if_neg (by push_neg; exact ⟨hv, hs a (by simp)⟩),
          if_neg (Ne.symm (hneq a (by simp)))]
        simp only
        rw [if_neg (hnew a (by simp))]
      unfold addEdgesLoop
      rw [hsucc]
      obtain ⟨i1, i2, i3, i4, i5⟩ := ih
        (⟨g.vertices, g.edges ++ [Edge.make vid a],
          adjAdd (adjAdd g.adjacency vid a) a vid, g.periphery,
          g.next_vertex_id⟩ : PlanarGraph ℝ)
        hv (fun s hsm => hs s (by simp [hsm])) (fun s hsm => hneq s (by simp [hsm]))
        (fun s hsm hmem => by
          rcases List.mem_append.1 hmem with hm | hm
          · exact hnew s (by simp [hsm]) hm
          · simp only [List.mem_singleton] at hm
            rcases (edgeMake_eq_iff _ _ _ _).1 hm with ⟨h1, h2⟩ | ⟨h1, h2⟩
            · exact (List.nodup_cons.1 hnd).1 (h2 ▸ hsm)
            · exact hneq a (by simp) h1.symm)
        (List.nodup_cons.1 hnd).2
      refine ⟨?_, i2, i3, i4, i5⟩
      rw [i1]
      simp [List.length_append]
      omega

/-- C7: on a graph satisfying the maintained well-formedness invariant
whose periphery has at least 2 vertices, `addRandomVertex` succeeds for
every possible draw of the random periphery index, returns the fresh
vertex id, increases the vertex count by exactly 1, and increases the
edge count by exactly the length of the periphery segment between the
chosen adjacent pair. -/
theorem C7_random_vertex_growth (g : PlanarGraph ℝ) (idx c : Nat)
    (hwf : WFgraph g) (hn : 2 ≤ g.periphery.length)
    (hidx : idx < g.periphery.length) :
    (add_random_vertex g idx c).2 = .ok g.next_vertex_id ∧
    (add_random_vertex g idx c).1.vertices.length = g.vertices.length + 1 ∧
    (add_random_vertex g idx c).1.edges.length
      = g.edges.length
        + (g.get_periphery_segment (g.periphery.getD idx 0)
            (g.periphery.getD ((idx + 1) % g.periphery.length) 0)).length := by
  obtain ⟨hnd, hper, hedges, hednd, hfresh⟩ := hwf
  have hidx2 : (idx + 1) % g.periphery.length < g.periphery.length :=
    Nat.mod_lt _ (by omega)
  have hseg := seg_pair g idx hnd hn hidx
  have hpsmem : g.periphery.getD idx 0 ∈ g.periphery := by
    rw [List.getD_eq_getElem _ _ hidx]
    exact List.getElem_mem hidx
  have hpemem : g.periphery.getD ((idx + 1) % g.periphery.length) 0 ∈ g.periphery := by
    rw [List.getD_eq_getElem _ _ hidx2]
    exact List.getElem_mem hidx2
  have hne' : g.periphery.getD idx 0
      ≠ g.periphery.getD ((idx + 1) % g.periphery.length) 0 := by
    rw [List.getD_eq_getElem _ _ hidx, List.getD_eq_getElem _ _ hidx2]
    intro he
    have hidxeq := hnd.getElem_inj_iff.1 he
    rcases Nat.lt_or_ge (idx + 1) g.periphery.length with h | h
    · rw [Nat.mod_eq_of_lt h] at hidxeq
      omega
    · have h2 : idx + 1 = g.periphery.length := by omega
      rw [h2, Nat.mod_self] at hidxeq
      omega
  obtain ⟨x, y, hxy⟩ : ∃ x y, calculate_vertex_position g (g.periphery.getD idx 0)
      (g.periphery.getD ((idx + 1) % g.periphery.length) 0) = .ok (x, y) := by
    unfold calculate_vertex_position
    simp only
    rw [if_neg (by rw [hseg]; simp)]
    exact ⟨_, _, rfl⟩
  have hcrvp : calculate_random_vertex_position g idx
      = .ok (g.periphery.getD idx 0,
          g.periphery.getD ((idx + 1) % g.periphery.length) 0, x, y) := by
    unfold calculate_random_vertex_position
    rw [if_neg (by omega)]
    simp only
    rw [hxy]
  have hfreshnot : g.next_vertex_id ∉ g.vertexKeys :=
    fun hmem => lt_irrefl _ (hfresh _ hmem)
  have hsegeq : (g.add_vertex x y c).1.get_periphery_segment
      (g.periphery.getD idx 0)
      (g.periphery.getD ((idx + 1) % g.periphery.length) 0)
      = [g.periphery.getD idx 0,
         g.periphery.getD ((idx + 1) % g.periphery.length) 0] := hseg
  have hsmem : ∀ s ∈ [g.periphery.getD idx 0,
      g.periphery.getD ((idx + 1) % g.periphery.length) 0],
      s ∈ (g.add_vertex x y c).1.vertexKeys := by
    intro s hs
    rcases List.mem_cons.1 hs with rfl | hs2
    · exact add_vertex_mem_keys g x y c _ (hper _ hpsmem)
    · simp only [List.mem_singleton] at hs2
      subst hs2
      exact add_vertex_mem_keys g x y c _ (hper _ hpemem)
  have hneq : ∀ s ∈ [g.periphery.getD idx 0,
      g.periphery.getD ((idx + 1) % g.periphery.length) 0],
      s ≠ (g.add_vertex x y c).2 := by
    intro s hs
    have hsg : s ∈ g.vertexKeys := by
      rcases List.mem_cons.1 hs with rfl | hs2
      · exact hper _ hpsmem
      · simp only [List.mem_singleton] at hs2
        subst hs2
        exact hper _ hpemem
    have hlt := hfresh s hsg
    intro he
    rw [he] at hlt
    exact lt_irrefl _ hlt
  have hnew : ∀ s ∈ [g.periphery.getD idx 0,
      g.periphery.getD ((idx + 1) % g.periphery.length) 0],
      Edge.make (g.add_vertex x y c).2 s ∉ (g.add_vertex x y c).1.edges := by
    intro s _ hmem
    have hmem' : Edge.make g.next_vertex_id s ∈ g.edges := hmem
    have h2 := (hedges _ hmem').2.1
    have h3 := hfresh _ h2
    have h4 : g.next_vertex_id ≤ (Edge.make g.next_vertex_id s).v2_id :=
      le_max_left _ _
    omega
  have hndseg : ([g.periphery.getD idx 0,
      g.periphery.getD ((idx + 1) % g.periphery.length) 0] : List Nat).Nodup := by
    rw [List.nodup_cons]
    exact ⟨fun hmem => hne' (List.mem_singleton.1 hmem), List.nodup_singleton _⟩
  unfold add_random_vertex
  rw [if_neg (by omega), hcrvp]
  simp only
  rw [hsegeq]
  rcases hl : addEdgesLoop (g.add_vertex x y c).1 (g.add_vertex x y c).2
      [g.periphery.getD idx 0, g.periphery.getD ((idx + 1) % g.periphery.length) 0]
    with ⟨g2, bb⟩
  obtain ⟨c1, c2, c3, c4, c5⟩ := addEdgesLoop_count _ _ _
    (add_vertex_fresh_mem g x y c) hsmem hneq hnew hndseg
  rw [hl] at c1 c2 c3
  simp only at c1 c2 c3
  subst c2
  simp only
  refine ⟨rfl, ?_, ?_⟩
  · rw [(apply_redraw_counts g2).1, c3]
    show (dictInsert g.vertices g.next_vertex_id
        (Vertex.make g.next_vertex_id x y c)).length = g.vertices.length + 1
    rw [dictInsert_of_not_mem _ _ _ hfreshnot]
    simp
  · rw [(apply_redraw_counts g2).2, c1, hseg]
    rfl

theorem C7_random_vertex_growth_witness :
    (add_random_vertex exP4 0 1).2 = .ok 41 ∧
    (add_random_vertex exP4 0 1).1.vertices.length = 5 ∧
    (add_random_vertex exP4 0 1).1.edges.length = 2 := by
  obtain ⟨h1, h2, h3⟩ := C7_random_vertex_growth exP4 0 1
    (by unfold WFgraph; decide) (by decide) (by decide)
  refine ⟨h1, ?_, ?_⟩
  · rw [h2]
    decide
  · rw [h3]
    decide

/-! ### Claim C1: plane algebra for the hull proof -/

theorem crossv_neg_neg {K : Type} [LinearOrderedField K] (a b : K × K) :
    crossv (-a) (-b) = crossv a b := by
  unfold crossv
  simp only [Prod.fst_neg, Prod.snd_neg]
  ring

theorem lexPos_neg {K : Type} [LinearOrderedField K] (w : K × K) (h : lexPos w) :
    ¬ lexPos (-w) := by
  unfold lexPos at *
  rcases h with h | ⟨h1, h2⟩ <;> intro hc <;> rcases hc with hc | ⟨hc1, hc2⟩ <;>
    simp only [Prod.fst_neg, Prod.snd_neg] at * <;> linarith

theorem lexPos_add {K : Type} [LinearOrderedField K] (w w' : K × K)
    (h : lexPos w) (h' : lexPos w') : lexPos (w + w') := by
  unfold lexPos at *
  rcases h with h | ⟨h1, h2⟩
  · left
    simp only [Prod.fst_add]
    rcases h' with h' | ⟨h1', h2'⟩ <;> linarith
  · rcases h' with h' | ⟨h1', h2'⟩
    · left
      simp only [Prod.fst_add]
      linarith
    · right
      constructor
      · simp only [Prod.fst_add]
        linarith
      · simp only [Prod.snd_add]
        linarith

theorem lexPos_smul {K : Type} [LinearOrderedField K] (w : K × K) (t : K)
    (h : lexPos w) (ht : 0 < t) : lexPos (t * w.1, t * w.2) := by
  unfold lexPos at *
  rcases h with h | ⟨h1, h2⟩
  · left
    exact mul_pos ht h
  · right
    exact ⟨by rw [h1, mul_zero], mul_pos ht h2⟩

theorem lexPos_par {K : Type} [LinearOrderedField K] (d e : K × K)
    (hd : lexPos d) (he : lexPos e) (hc : crossv d e = 0) :
    ∃ t, 0 < t ∧ e = (t * d.1, t * d.2) := by
  unfold lexPos at hd he
  unfold crossv at hc
  rcases hd with hd1 | ⟨hd1, hd2⟩
  · have he1 : 0 < e.1 := by
      rcases he with he1 | ⟨he1, he2⟩
      · exact he1
      · exfalso
        rw [he1] at hc
        have : d.1 * e.2 = 0 := by linarith
        rcases mul_eq_zero.1 this with h | h
        · linarith
        · linarith
    refine ⟨e.1 / d.1, div_pos he1 hd1, Prod.ext ?_ ?_⟩
    · show e.1 = e.1 / d.1 * d.1
      field_simp
    · show e.2 = e.1 / d.1 * d.2
      field_simp
      linear_combination hc
  · have he1 : e.1 = 0 := by
      rw [hd1] at hc
      have : d.2 * e.1 = 0 := by linarith
      rcases mul_eq_zero.1 this with h | h
      · linarith
      · exact h
    have he2 : 0 < e.2 := by
      rcases he with he' | ⟨_, he2⟩
      · linarith
      · exact he2
    refine ⟨e.2 / d.2, div_pos he2 hd2, Prod.ext ?_ ?_⟩
    · show e.1 = e.2 / d.2 * d.1
      rw [he1, hd1, mul_zero]
    · show e.2 = e.2 / d.2 * d.2
      field_simp

theorem angular_trans {K : Type} [LinearOrderedField K] (P : K × K → Prop)
    (hPneg : ∀ w, P w → ¬ P (-w))
    (hPadd : ∀ w w', P w → P w' → P (w + w'))
    (hPsmul : ∀ w t, P w → 0 < t → P (t * w.1, t * w.2))
    (a b c : K × K) (ha : P a) (hb : P b) (hc : P c)
    (h1 : crossv a b ≤ 0) (h2 : crossv b c ≤ 0) : crossv a c ≤ 0 := by
  by_contra hcon
  push_neg at hcon
  have hid1 : crossv a c * b.1 = crossv a b * c.1 + crossv b c * a.1 := by
    unfold crossv
    ring
  have hid2 : crossv a c * b.2 = crossv a b * c.2 + crossv b c * a.2 := by
    unfold crossv
    ring
  have hPb : P (crossv a c * b.1, crossv a c * b.2) := hPsmul b (crossv a c) hb hcon
  by_cases h1z : crossv a b = 0
  · by_cases h2z : crossv b c = 0
    · rw [h1z, h2z] at hid1 hid2
      simp only [zero_mul, add_zero, zero_add] at hid1 hid2
      have hb1 : b.1 = 0 := by
        rcases mul_eq_zero.1 hid1 with h | h
        · exact absurd h (ne_of_gt hcon)
        · exact h
      have hb2 : b.2 = 0 := by
        rcases mul_eq_zero.1 hid2 with h | h
        · exact absurd h (ne_of_gt hcon)
        · exact h
      have hbeq : b = (0 : K × K) := Prod.ext hb1 hb2
      rw [hbeq] at hb
      exact hPneg 0 hb (by rw [neg_zero]; exact hb)
    · have ht' : 0 < -(crossv b c) := by
        rcases h2.lt_or_eq with h | h
        · linarith
        · exact absurd h h2z
      have hPv : P (-(crossv b c) * a.1, -(crossv b c) * a.2) :=
        hPsmul a _ ha ht'
      refine hPneg _ hPv ?_
      have heq : (-((-(crossv b c) * a.1, -(crossv b c) * a.2)) : K × K)
          = (crossv a c * b.1, crossv a c * b.2) := by
        rw [h1z] at hid1 hid2
        refine Prod.ext ?_ ?_
        · show -(-(crossv b c) * a.1) = crossv a c * b.1
          rw [hid1]
          ring
        · show -(-(crossv b c) * a.2) = crossv a c * b.2
          rw [hid2]
          ring
      rw [heq]
      exact hPb
  · by_cases h2z : crossv b c = 0
    · have hs : 0 < -(crossv a b) := by
        rcases h1.lt_or_eq with h | h
        · linarith
        · exact absurd h h1z
      have hPv : P (-(crossv a b) * c.1, -(crossv a b) * c.2) :=
        hPsmul c _ hc hs
      refine hPneg _ hPv ?_
      have heq : (-((-(crossv a b) * c.1, -(crossv a b) * c.2)) : K × K)
          = (crossv a c * b.1, crossv a c * b.2) := by
        rw [h2z] at hid1 hid2
        refine Prod.ext ?_ ?_
        · show -(-(crossv a b) * c.1) = crossv a c * b.1
          rw [hid1]
          ring
        · show -(-(crossv a b) * c.2) = crossv a c * b.2
          rw [hid2]
          ring
      rw [heq]
      exact hPb
    · have hs : 0 < -(crossv a b) := by
        rcases h1.lt_or_eq with h | h
        · linarith
        · exact absurd h h1z
      have ht' : 0 < -(crossv b c) := by
        rcases h2.lt_or_eq with h | h
        · linarith
        · exact absurd h h2z
      have hPv : P ((-(crossv a b) * c.1, -(crossv a b) * c.2)
          + (-(crossv b c) * a.1, -(crossv b c) * a.2)) :=
        hPadd _ _ (hPsmul c _ hc hs) (hPsmul a _ ha ht')
      refine hPneg _ hPv ?_
      have heq : (-((-(crossv a b) * c.1, -(crossv a b) * c.2)
            + (-(crossv b c) * a.1, -(crossv b c) * a.2)) : K × K)
          = (crossv a c * b.1, crossv a c * b.2) := by
        refine Prod.ext ?_ ?_
        · show -(-(crossv a b) * c.1 + -(crossv b c) * a.1) = crossv a c * b.1
          rw [hid1]
          ring
        · show -(-(crossv a b) * c.2 + -(crossv b c) * a.2) = crossv a c * b.2
          rw [hid2]
          ring
      rw [heq]
      exact hPb

theorem no_down_support {K : Type} [LinearOrderedField K] (d1 d2 u : K × K)
    (h1 : lexPos d1) (h2 : lexPos d2) (hc : crossv d1 d2 ≤ 0)
    (hu1 : 0 < dotv u d1) (hu2 : dotv u d2 < 0) : 0 < u.2 := by
  rcases h1 with hx1 | ⟨hx1, hy1⟩
  · rcases h2 with hx2 | ⟨hx2, hy2⟩
    · by_contra hle
      push_neg at hle
      have key : d2.1 * dotv u d1 - d1.1 * dotv u d2 = u.2 * (-(crossv d1 d2)) := by
        unfold dotv crossv
        ring
      have hl : 0 < d2.1 * dotv u d1 - d1.1 * dotv u d2 := by
        have ha := mul_pos hx2 hu1
        have hb : 0 < d1.1 * (-(dotv u d2)) := mul_pos hx1 (by linarith)
        nlinarith
      rw [key] at hl
      have hr : u.2 * (-(crossv d1 d2)) ≤ 0 :=
        mul_nonpos_of_nonpos_of_nonneg hle (by linarith)
      linarith
    · exfalso
      have : crossv d1 d2 = d1.1 * d2.2 := by
        unfold crossv
        rw [hx2]
        ring
      nlinarith
  · have : dotv u d1 = u.2 * d1.2 := by
      unfold dotv
      rw [hx1]
      ring
    nlinarith

theorem edge_rotate {K : Type} [LinearOrderedField K] (P : K × K → Prop)
    (hPneg : ∀ w, P w → ¬ P (-w))
    (hPadd : ∀ w w', P w → P w' → P (w + w'))
    (hPsmul : ∀ w t, P w → 0 < t → P (t * w.1, t * w.2))
    (hPpar : ∀ d e, P d → P e → crossv d e = 0 → ∃ t, 0 < t ∧ e = (t * d.1, t * d.2))
    (s t p q : K × K)
    (hst : P (t - s)) (htp : P (p - t))
    (hstop : 0 < crossv (t - s) (p - s))
    (hq : 0 ≤ crossv (t - s) (q - s))
    (hqt : P (t - q) ∨ q = t) :
    0 ≤ crossv (p - t) (q - t) := by
  rcases hqt with hqt | rfl
  swap
  · unfold crossv
    simp
  by_contra hcon
  push_neg at hcon
  have hcon' : crossv (t - q) (p - t) < 0 := by
    have hx : crossv (p - t) (q - t) = crossv (t - q) (p - t) := by
      unfold crossv
      simp only [Prod.fst_sub, Prod.snd_sub]
      ring
    rw [hx] at hcon
    exact hcon
  have hDW : 0 < crossv (t - s) (p - t) := by
    have hx : crossv (t - s) (p - s) = crossv (t - s) (p - t) := by
      unfold crossv
      simp only [Prod.fst_sub, Prod.snd_sub]
      ring
    exact hx ▸ hstop
  have hAD : 0 ≤ crossv (t - q) (t - s) := by
    have hx : crossv (t - s) (q - s) = crossv (t - q) (t - s) := by
      unfold crossv
      simp only [Prod.fst_sub, Prod.snd_sub]
      ring
    exact hx ▸ hq
  have hWD : crossv (p - t) (t - s) ≤ 0 := by
    have hx : crossv (p - t) (t - s) = -crossv (t - s) (p - t) := by
      unfold crossv
      ring
    rw [hx]
    linarith
  have hADle : crossv (t - q) (t - s) ≤ 0 :=
    angular_trans P hPneg hPadd hPsmul (t - q) (p - t) (t - s) hqt htp hst
      (le_of_lt hcon') hWD
  have hADz : crossv (t - q) (t - s) = 0 := le_antisymm hADle hAD
  obtain ⟨τ, hτ, heq⟩ := hPpar (t - q) (t - s) hqt hst hADz
  have hfin : crossv (t - s) (p - t) = τ * crossv (t - q) (p - t) := by
    rw [heq]
    unfold crossv
    simp only
    ring
  nlinarith

/-! ### Claim C1: list utilities for the scan -/

theorem triples_getElem {α : Type} (T : α → α → α → Prop) :
    ∀ l : List α, Triples T l → ∀ i, ∀ h : i + 2 < l.length,
      T (l.get ⟨i, by omega⟩) (l.get ⟨i + 1, by omega⟩) (l.get ⟨i + 2, h⟩)
  | [], _, i, h => absurd h (by simp)
  | [a], _, i, h => absurd h (by simp)
  | [a, b], _, i, h => absurd h (by simp)
  | a :: b :: c :: t, ht, 0, h => ht.1
  | a :: b :: c :: t, ht, (i+1), h =>
      triples_getElem T (b :: c :: t) ht.2 i (by simp at h ⊢; omega)

theorem pairs_getElem {α : Type} : ∀ (l : List α) (pr : α × α),
    pr ∈ l.zip l.tail → ∃ i, ∃ h : i + 1 < l.length,
      pr = (l.get ⟨i, by omega⟩, l.get ⟨i + 1, h⟩)
  | [], pr, h => absurd h (by simp)
  | [a], pr, h => absurd h (by simp)
  | a :: b :: t, pr, h => by
      simp only [List.tail_cons, List.zip_cons_cons] at h
      rcases List.mem_cons.1 h with rfl | h2
      · exact ⟨0, by simp, rfl⟩
      · obtain ⟨i, hi, he⟩ := pairs_getElem (b :: t) pr h2
        exact ⟨i + 1, by simp at hi ⊢; omega, he⟩

theorem pairs_getElem_mem {α : Type} : ∀ (l : List α) (i : Nat),
    ∀ h : i + 1 < l.length,
    ((l.get ⟨i, by omega⟩, l.get ⟨i + 1, h⟩) : α × α) ∈ l.zip l.tail
  | [], i, h => absurd h (by simp)
  | [a], i, h => absurd h (by simp)
  | a :: b :: t, 0, h => by
      simp only [List.tail_cons, List.zip_cons_cons]
      exact List.mem_cons_self _ _
  | a :: b :: t, (i+1), h => by
      have hmem := pairs_getElem_mem (b :: t) i (by simp at h ⊢; omega)
      simp only [List.tail_cons, List.zip_cons_cons]
      exact List.mem_cons_of_mem _ hmem

theorem triples_tail {α : Type} (T : α → α → α → Prop) (a : α) (l : List α)
    (h : Triples T (a :: l)) : Triples T l := by
  match l with
  | [] => trivial
  | [b] => trivial
  | b :: c :: t => exact h.2

theorem triples_suffix {α : Type} (T : α → α → α → Prop) (l s : List α)
    (hs : s.IsSuffix l) (h : Triples T l) : Triples T s := by
  obtain ⟨pre, rfl⟩ := hs
  induction pre with
  | nil => exact h
  | cons x pre ih => exact ih (triples_tail T x _ h)

theorem pairs_suffix {α : Type} (s l : List α) (hs : s.IsSuffix l) (pr : α × α)
    (h : pr ∈ s.zip s.tail) : pr ∈ l.zip l.tail := by
  obtain ⟨pre, rfl⟩ := hs
  induction pre with
  | nil => exact h
  | cons x pre ih =>
      have hmem := ih
      cases hps : pre ++ s with
      | nil =>
          rw [hps] at hmem
          obtain ⟨i, hi, -⟩ := pairs_getElem _ _ hmem
          simp at hi
      | cons y t2 =>
          show pr ∈ (x :: pre ++ s).zip (x :: pre ++ s).tail
          rw [show x :: pre ++ s = x :: (pre ++ s) from rfl, hps]
          simp only [List.tail_cons, List.zip_cons_cons]
          rw [hps] at hmem
          exact List.mem_cons_of_mem _ hmem

theorem popChain_suffix {K : Type} [LinearOrderedField K] :
    ∀ (st : List (Pt K)) (p : Pt K), (popChain st p).IsSuffix st
  | [], _ => List.suffix_refl _
  | [x], _ => List.suffix_refl _
  | b :: a :: rest, p => by
      show (if cross3 a b p ≤ 0 then popChain (a :: rest) p
        else b :: a :: rest).IsSuffix (b :: a :: rest)
      by_cases h : cross3 a b p ≤ 0
      · rw [if_pos h]
        exact (popChain_suffix (a :: rest) p).trans (List.suffix_cons b (a :: rest))
      · rw [if_neg h]

theorem popChain_ne_nil {K : Type} [LinearOrderedField K] :
    ∀ (st : List (Pt K)) (p : Pt K), st ≠ [] → popChain st p ≠ []
  | [], _, h => absurd rfl h
  | [x], _, _ => by
      show ([x] : List (Pt K)) ≠ []
      simp
  | b :: a :: rest, p, _ => by
      show (if cross3 a b p ≤ 0 then popChain (a :: rest) p
        else b :: a :: rest) ≠ []
      by_cases h : cross3 a b p ≤ 0
      · rw [if_pos h]
        exact popChain_ne_nil (a :: rest) p (by simp)
      · rw [if_neg h]
        simp

theorem popChain_cases {K : Type} [LinearOrderedField K] :
    ∀ (st : List (Pt K)) (p : Pt K),
      popChain st p = [] ∨ (∃ x, popChain st p = [x]) ∨
      ∃ b a r2, popChain st p = b :: a :: r2 ∧ 0 < cross3 a b p
  | [], _ => Or.inl rfl
  | [x], _ => Or.inr (Or.inl ⟨x, rfl⟩)
  | b :: a :: rest, p => by
      show (if cross3 a b p ≤ 0 then popChain (a :: rest) p
          else b :: a :: rest) = [] ∨
        (∃ x, (if cross3 a b p ≤ 0 then popChain (a :: rest) p
          else b :: a :: rest) = [x]) ∨
        ∃ bb aa r2, (if cross3 a b p ≤ 0 then popChain (a :: rest) p
          else b :: a :: rest) = bb :: aa :: r2 ∧ 0 < cross3 aa bb p
      by_cases h : cross3 a b p ≤ 0
      · rw [if_pos h]
        exact popChain_cases (a :: rest) p
      · rw [if_neg h]
        exact Or.inr (Or.inr ⟨b, a, rest, rfl, by linarith⟩)

theorem getLast?_append_ne {α : Type} (l1 l2 : List α) (h : l2 ≠ []) :
    (l1 ++ l2).getLast? = l2.getLast? := by
  rw [List.getLast?_append]
  cases hl : l2.getLast? with
  | none => exact absurd (List.getLast?_eq_none_iff.1 hl) h
  | some a => rfl

theorem suffix_getLast? {α : Type} (s l : List α) (hs : s.IsSuffix l)
    (h : s ≠ []) : s.getLast? = l.getLast? := by
  obtain ⟨pre, rfl⟩ := hs
  rw [getLast?_append_ne pre s h]

theorem cross3_eq_crossv {K : Type} [LinearOrderedField K] (o x y : Pt K) :
    cross3 o x y = crossv (x.pos - o.pos) (y.pos - o.pos) := by
  unfold cross3 crossv Pt.pos
  simp only [Prod.fst_sub, Prod.snd_sub]

theorem cross3_base_last {K : Type} [LinearOrderedField K] (x y p : Pt K) :
    cross3 x y p = crossv (x.pos - p.pos) (y.pos - p.pos) := by
  unfold cross3 crossv Pt.pos
  simp only [Prod.fst_sub, Prod.snd_sub]
  ring

theorem angular_trans_neg {K : Type} [LinearOrderedField K] (P : K × K → Prop)
    (hPneg : ∀ w, P w → ¬ P (-w))
    (hPadd : ∀ w w', P w → P w' → P (w + w'))
    (hPsmul : ∀ w t, P w → 0 < t → P (t * w.1, t * w.2))
    (a b c : K × K) (ha : P (-a)) (hb : P (-b)) (hc : P (-c))
    (h1 : crossv a b ≤ 0) (h2 : crossv b c ≤ 0) : crossv a c ≤ 0 := by
  rw [← crossv_neg_neg a c]
  exact angular_trans P hPneg hPadd hPsmul (-a) (-b) (-c) ha hb hc
    (by rw [crossv_neg_neg]; exact h1) (by rw [crossv_neg_neg]; exact h2)

theorem pop_loop {K : Type} [LinearOrderedField K] (P : K × K → Prop)
    (hPneg : ∀ w, P w → ¬ P (-w))
    (hPadd : ∀ w w', P w → P w' → P (w + w'))
    (hPsmul : ∀ w t, P w → 0 < t → P (t * w.1, t * w.2))
    (done : List (Pt K)) (p : Pt K)
    (hdp : ∀ q ∈ done, P (p.pos - q.pos)) :
    ∀ st : List (Pt K),
    st.Pairwise (fun x y => P (x.pos - y.pos)) →
    Triples (fun c b a => 0 < cross3 a b c) st →
    (∀ x ∈ st, P (p.pos - x.pos)) →
    (∀ q ∈ done, q.pos ∉ st.map Pt.pos →
      (∃ pr ∈ st.zip st.tail, P (q.pos - pr.2.pos) ∧ P (pr.1.pos - q.pos) ∧
        cross3 pr.2 q pr.1 ≤ 0) ∨
      (∃ t0 ∈ st.head?, P (q.pos - t0.pos) ∧ cross3 t0 q p ≤ 0)) →
    (∀ q ∈ done, q.pos ∉ (popChain st p).map Pt.pos →
      (∃ pr ∈ (popChain st p).zip (popChain st p).tail,
        P (q.pos - pr.2.pos) ∧ P (pr.1.pos - q.pos) ∧ cross3 pr.2 q pr.1 ≤ 0) ∨
      (∃ t0 ∈ (popChain st p).head?, P (q.pos - t0.pos) ∧ cross3 t0 q p ≤ 0))
  | [], _, _, _, hw => hw
  | [x], _, _, _, hw => hw
  | b :: a :: rest, hmono, hturns, hp, hw => by
      by_cases h : cross3 a b p ≤ 0
      · have hrw : popChain (b :: a :: rest) p = popChain (a :: rest) p := by
          show (if cross3 a b p ≤ 0 then popChain (a :: rest) p
            else b :: a :: rest) = popChain (a :: rest) p
          rw [if_pos h]
        rw [hrw]
        have hba : P (b.pos - a.pos) := (List.pairwise_cons.1 hmono).1 a (by simp)
        have hpa : P (p.pos - a.pos) := hp a (by simp)
        have hpb : P (p.pos - b.pos) := hp b (by simp)
        refine pop_loop P hPneg hPadd hPsmul done p hdp (a :: rest)
          (List.Pairwise.of_cons hmono) (triples_tail _ _ _ hturns)
          (fun x hx => hp x (List.mem_cons_of_mem b hx)) ?_
        intro q hq hnot
        by_cases hqb : q.pos = b.pos
        · right
          refine ⟨a, by simp, ?_, ?_⟩
          · rw [hqb]
            exact hba
          · rw [cross3_eq_crossv, hqb, ← cross3_eq_crossv]
            exact h
        · have hnot2 : q.pos ∉ (b :: a :: rest).map Pt.pos := by
            intro hmem
            rcases List.mem_cons.1 hmem with hc | hc
            · exact hqb hc
            · exact hnot hc
          rcases hw q hq hnot2 with ⟨pr, hpr, w1, w2, w3⟩ | ⟨t0, ht0, w1, w2⟩
          · have hsplit : pr = (b, a) ∨ pr ∈ (a :: rest).zip (a :: rest).tail := by
              simpa [List.zip_cons_cons] using hpr
            rcases hsplit with rfl | hpr2
            · right
              refine ⟨a, by simp, w1, ?_⟩
              rw [cross3_eq_crossv] at w3 ⊢
              rw [cross3_eq_crossv] at h
              exact angular_trans P hPneg hPadd hPsmul _ _ _ w1 hba hpa w3 h
            · left
              exact ⟨pr, hpr2, w1, w2, w3⟩
          · have ht0b : b = t0 := by simpa using ht0
            subst ht0b
            right
            refine ⟨a, by simp, ?_, ?_⟩
            · have hsum := hPadd _ _ w1 hba
              rwa [sub_add_sub_cancel] at hsum
            · rw [cross3_base_last] at w2 ⊢
              rw [cross3_base_last] at h
              refine angular_trans_neg P hPneg hPadd hPsmul _ _ _ ?_ ?_ ?_ h w2
              · rw [neg_sub]
                exact hpa
              · rw [neg_sub]
                exact hpb
              · rw [neg_sub]
                exact hdp q hq
      · have hrw : popChain (b :: a :: rest) p = b :: a :: rest := by
          show (if cross3 a b p ≤ 0 then popChain (a :: rest) p
            else b :: a :: rest) = b :: a :: rest
          rw [if_neg h]
        rw [hrw]
        exact hw

theorem crossv_self {K : Type} [LinearOrderedField K] (w : K × K) :
    crossv w w = 0 := by
  unfold crossv
  ring

theorem crossP_eq_crossv {K : Type} [LinearOrderedField K] (o a b : K × K) :
    crossP o a b = crossv (a - o) (b - o) := by
  unfold crossP crossv
  simp only [Prod.fst_sub, Prod.snd_sub]

theorem crossP_swap {K : Type} [LinearOrderedField K] (o a b : K × K) :
    crossP o a b = -crossP o b a := by
  unfold crossP
  ring

theorem edges_absorb_p {K : Type} [LinearOrderedField K] (P : K × K → Prop)
    (hPneg : ∀ w, P w → ¬ P (-w))
    (hPadd : ∀ w w', P w → P w' → P (w + w'))
    (hPsmul : ∀ w t, P w → 0 < t → P (t * w.1, t * w.2))
    (hPpar : ∀ d e, P d → P e → crossv d e = 0 → ∃ t, 0 < t ∧ e = (t * d.1, t * d.2))
    (p : Pt K) :
    ∀ st : List (Pt K),
    st.Pairwise (fun x y => P (x.pos - y.pos)) →
    Triples (fun c b a => 0 < cross3 a b c) st →
    (∀ x ∈ st, P (p.pos - x.pos)) →
    (∀ b2 a2 r2, st = b2 :: a2 :: r2 → 0 ≤ crossP a2.pos b2.pos p.pos) →
    ∀ pr ∈ st.zip st.tail, 0 ≤ crossP pr.2.pos pr.1.pos p.pos
  | [], _, _, _, _, pr, hpr => absurd hpr (by simp)
  | [x], _, _, _, _, pr, hpr => absurd hpr (by simp)
  | b :: a :: rest, hmono, hturns, hp, htop, pr, hpr => by
      have hsplit : pr = (b, a) ∨ pr ∈ (a :: rest).zip (a :: rest).tail := by
        simpa [List.zip_cons_cons] using hpr
      rcases hsplit with rfl | hpr2
      · exact htop b a rest rfl
      · refine edges_absorb_p P hPneg hPadd hPsmul hPpar p (a :: rest)
          (List.Pairwise.of_cons hmono) (triples_tail _ _ _ hturns)
          (fun x hx => hp x (List.mem_cons_of_mem b hx)) ?_ pr hpr2
      -- remaining: the top-pair fact for the shorter stack
        intro b2 a2 r2 hst
        injection hst with ha hrest
        subst ha
        subst hrest
        -- st = b :: a :: c :: r2 with a = a, actually (a :: rest) = a :: a2 :: r2
        -- so a = a, rest = a2 :: r2
        have hturnb : 0 < cross3 a2 a b := by
          have := hturns.1
          exact this
        have hprev : 0 ≤ crossP a.pos b.pos p.pos := htop b a (a2 :: r2) rfl
        -- u1 := b - a, d := a - a2, w := p - a
        have hu1 : P (b.pos - a.pos) := (List.pairwise_cons.1 hmono).1 a (by simp)
        have hd : P (a.pos - a2.pos) :=
          (List.pairwise_cons.1 (List.Pairwise.of_cons hmono)).1 a2 (by simp)
        have hw : P (p.pos - a.pos) := hp a (by simp)
        have hturn' : 0 < crossv (a.pos - a2.pos) (b.pos - a.pos) := by
          have hx : cross3 a2 a b = crossv (a.pos - a2.pos) (b.pos - a.pos) := by
            unfold cross3 crossv Pt.pos
            simp only [Prod.fst_sub, Prod.snd_sub]
            ring
          rw [hx] at hturnb
          exact hturnb
        have hprev' : 0 ≤ crossv (b.pos - a.pos) (p.pos - a.pos) := by
          rw [crossP_eq_crossv] at hprev
          exact hprev
        have htarget : 0 ≤ crossv (a.pos - a2.pos) (p.pos - a.pos) := by
          by_contra hcon
          push_neg at hcon
          have h1 : crossv (b.pos - a.pos) (a.pos - a2.pos) ≤ 0 := by
            have hx : crossv (b.pos - a.pos) (a.pos - a2.pos)
                = -crossv (a.pos - a2.pos) (b.pos - a.pos) := by
              unfold crossv
              ring
            rw [hx]
            linarith
          have h2 : crossv (b.pos - a.pos) (p.pos - a.pos) ≤ 0 :=
            angular_trans P hPneg hPadd hPsmul _ _ _ hu1 hd hw h1 (le_of_lt hcon)
          have h3 : crossv (b.pos - a.pos) (p.pos - a.pos) = 0 :=
            le_antisymm h2 hprev'
          obtain ⟨τ, hτ, heq⟩ := hPpar _ _ hu1 hw h3
          have hfin : crossv (a.pos - a2.pos) (p.pos - a.pos)
              = τ * crossv (a.pos - a2.pos) (b.pos - a.pos) := by
            rw [heq]
            unfold crossv
            simp only
            ring
          nlinarith
        rw [crossP_eq_crossv]
        have hx : crossv (a.pos - a2.pos) (p.pos - a2.pos)
            = crossv (a.pos - a2.pos) (p.pos - a.pos) := by
          unfold crossv
          simp only [Prod.fst_sub, Prod.snd_sub]
          ring
        rw [hx]
        exact htarget

theorem crossv_zero_right {K : Type} [LinearOrderedField K] (w : K × K) :
    crossv w (0 : K × K) = 0 := by
  unfold crossv
  simp

theorem cross3_posP {K : Type} [LinearOrderedField K] (o a b : Pt K) :
    cross3 o a b = crossP o.pos a.pos b.pos := rfl

theorem scan_step {K : Type} [LinearOrderedField K] (P : K × K → Prop)
    (hPneg : ∀ w, P w → ¬ P (-w))
    (hPadd : ∀ w w', P w → P w' → P (w + w'))
    (hPsmul : ∀ w t, P w → 0 < t → P (t * w.1, t * w.2))
    (hPpar : ∀ d e, P d → P e → crossv d e = 0 → ∃ t, 0 < t ∧ e = (t * d.1, t * d.2))
    (done : List (Pt K)) (st : List (Pt K)) (p : Pt K)
    (inv : ScanInv P done st)
    (hp : ∀ x ∈ done, P (p.pos - x.pos)) :
    ScanInv P (done ++ [p]) (p :: popChain st p) := by
  by_cases hst : st = []
  · have hdone : done = [] := by
      by_contra hne
      exact absurd hst (inv.nonempty hne)
    subst hdone
    subst hst
    have hpc : popChain ([] : List (Pt K)) p = [] := by simp [popChain]
    rw [hpc]
    refine ⟨fun _ => by simp, by simp, trivial, rfl, rfl, ?_, ?_, ?_, ?_⟩
    · intro pr hpr
      simp at hpr
    · simp
    · intro q hq hnot
      simp at hq
      subst hq
      exact absurd (by simp) hnot
    · simp
  · have hmemdone : ∀ x ∈ st, x ∈ done := by
      intro x hx
      exact inv.sublist.subset (by simpa using hx)
    have hpst : ∀ x ∈ st, P (p.pos - x.pos) := fun x hx => hp x (hmemdone x hx)
    have hsuf := popChain_suffix st p
    have hne2 : popChain st p ≠ [] := popChain_ne_nil st p hst
    have hmono2 : (popChain st p).Pairwise (fun x y => P (x.pos - y.pos)) :=
      inv.mono.sublist hsuf.sublist
    have hturns2 : Triples (fun c b a => 0 < cross3 a b c) (popChain st p) :=
      triples_suffix _ _ _ hsuf inv.turns
    have hpst2 : ∀ x ∈ popChain st p, P (p.pos - x.pos) :=
      fun x hx => hpst x (hsuf.subset hx)
    obtain ⟨h0, t0, hst2⟩ := List.exists_cons_of_ne_nil hne2
    have hdone_ne : done ≠ [] := by
      intro hd
      have hsub := inv.sublist
      rw [hd] at hsub
      have h0' := List.sublist_nil.1 hsub
      exact hst (by simpa using congrArg List.reverse h0')
    have hstop' : ∀ aa r2, t0 = aa :: r2 → 0 < cross3 aa h0 p := by
      intro aa r2 ht0
      rcases popChain_cases st p with hnil | ⟨x, hx⟩ | ⟨bb, aa2, r22, heq, hstop⟩
      · exact absurd (hnil.symm.trans hst2) (by simp)
      · have hxx := hx.symm.trans hst2
        rw [ht0] at hxx
        simp at hxx
      · have hcomb := heq.symm.trans hst2
        rw [ht0] at hcomb
        injection hcomb with h1 h2
        injection h2 with h2 h3
        subst h1
        subst h2
        exact hstop
    have hLW := pop_loop P hPneg hPadd hPsmul done p hp st inv.mono inv.turns hpst
      (fun q hq hnot => Or.inl (inv.witness q hq hnot))
    -- the new edge (h0 → p) contains every processed point
    have hrotate : ∀ q : Pt K, q ∈ done → P (h0.pos - q.pos) ∨ q.pos = h0.pos →
        0 ≤ crossP h0.pos p.pos q.pos := by
      intro q hq hqc
      rcases hqc with hqc | hqc
      swap
      · rw [crossP_eq_crossv, hqc, sub_self]
        rw [crossv_zero_right]
      cases ht0shape : t0 with
      | nil =>
        -- stack popped to the bottom: h0 is the first processed point, so
        -- every other done point lies P-after it, contradicting P (h0 - q)
        exfalso
        have hlast : (popChain st p).getLast? = st.getLast? :=
          suffix_getLast? _ _ hsuf hne2
        rw [hst2, ht0shape] at hlast
        have hh0 : done.head? = some h0 := by
          rw [← inv.lastEq, ← hlast]
          rfl
        obtain ⟨d0, dt, hdone⟩ := List.exists_cons_of_ne_nil hdone_ne
        rw [hdone] at hh0
        simp at hh0
        rw [hdone] at hq
        rcases List.mem_cons.1 hq with hq0 | hq0
        · rw [hq0, hh0, sub_self] at hqc
          have hneg := hPneg 0 hqc
          rw [neg_zero] at hneg
          exact hneg hqc
        · have hsorted := inv.sorted
          rw [hdone] at hsorted
          have hqafter : P (q.pos - h0.pos) := by
            rw [← hh0]
            exact (List.pairwise_cons.1 hsorted).1 q hq0
          have hneg := hPneg _ hqafter
          rw [neg_sub] at hneg
          exact hneg hqc
      | cons aa r2 =>
        have hstop2 := hstop' aa r2 ht0shape
        rw [ht0shape] at hst2
        have hpairsuf : ((h0, aa) : Pt K × Pt K) ∈ st.zip st.tail := by
          apply pairs_suffix _ _ hsuf
          rw [hst2]
          simp [List.zip_cons_cons]
        have hq_left : 0 ≤ crossv (h0.pos - aa.pos) (q.pos - aa.pos) := by
          have hx := inv.edges (h0, aa) hpairsuf q hq
          rw [crossP_eq_crossv] at hx
          exact hx
        have hh0aa : P (h0.pos - aa.pos) := by
          have hx := (List.pairwise_cons.1 (hst2 ▸ hmono2)).1 aa (by simp)
          exact hx
        have hres := edge_rotate P hPneg hPadd hPsmul hPpar aa.pos h0.pos p.pos q.pos
          hh0aa (hpst2 h0 (by rw [hst2]; simp))
          (by rw [cross3_eq_crossv] at hstop2; exact hstop2)
          hq_left (Or.inl hqc)
        rw [crossP_eq_crossv]
        exact hres
    have hnew : ∀ q ∈ done, 0 ≤ crossP h0.pos p.pos q.pos := by
      intro q hq
      by_cases hqtop : q.pos = h0.pos
      · exact hrotate q hq (Or.inr hqtop)
      by_cases hqmem : q.pos ∈ (popChain st p).map Pt.pos
      · rw [hst2] at hqmem
        rcases List.mem_cons.1 hqmem with hc | hc
        · exact absurd hc hqtop
        · obtain ⟨y, hy, hypos⟩ := List.mem_map.1 hc
          have hh0y : P (h0.pos - y.pos) :=
            (List.pairwise_cons.1 (hst2 ▸ hmono2)).1 y hy
          have hup : P (h0.pos - q.pos) := by
            rw [← hypos]
            exact hh0y
          exact hrotate q hq (Or.inl hup)
      · rcases hLW q hq hqmem with ⟨pr, hpr, w1, w2, w3⟩ | ⟨tt, htt, w1, w2⟩
        · have hpr1mem : pr.1 ∈ popChain st p := by
            have hz := List.of_mem_zip (by exact hpr)
            exact hz.1
          have hup : P (h0.pos - q.pos) := by
            rw [hst2] at hpr1mem
            rcases List.mem_cons.1 hpr1mem with hc | hc
            · rw [← hc]
              exact w2
            · have hx := (List.pairwise_cons.1 (hst2 ▸ hmono2)).1 pr.1 hc
              have hsum := hPadd _ _ hx w2
              rwa [sub_add_sub_cancel] at hsum
          exact hrotate q hq (Or.inl hup)
        · have htth : tt = h0 := by
            rw [hst2] at htt
            simpa using htt.symm
          subst htth
          rw [crossP_swap, ← cross3_posP]
          linarith
  -- assemble the invariant record
    refine ⟨fun _ => by simp, ?_, ?_, ?_, ?_, ?_, ?_, ?_, ?_⟩
    · rw [List.reverse_cons]
      exact (((List.reverse_prefix.2 hsuf).sublist).trans inv.sublist).append_right [p]
    · rw [hst2]
      cases ht0shape : t0 with
      | nil => trivial
      | cons aa r2 =>
        rw [ht0shape] at hst2
        exact ⟨hstop' aa r2 ht0shape, hst2 ▸ hturns2⟩
    · rw [List.getLast?_concat]
      rfl
    · have hlast : (popChain st p).getLast? = st.getLast? :=
        suffix_getLast? _ _ hsuf hne2
      obtain ⟨d0, dt, hdone⟩ := List.exists_cons_of_ne_nil hdone_ne
      have hx : (p :: popChain st p).getLast? = (popChain st p).getLast? :=
        getLast?_append_ne [p] _ hne2
      rw [hx, hlast, inv.lastEq, hdone]
      rfl
    · intro pr hpr q hq
      have hprsplit : pr = (p, h0) ∨ pr ∈ (popChain st p).zip (popChain st p).tail := by
        have hx : (p :: popChain st p).tail = popChain st p := rfl
        rw [hx, hst2] at hpr
        rcases List.mem_cons.1 (by simpa [List.zip_cons_cons] using hpr) with hc | hc
        · exact Or.inl hc
        · right
          rw [hst2]
          simpa [List.zip_cons_cons] using hc
      rcases List.mem_append.1 hq with hqd | hqp
      · rcases hprsplit with rfl | hpr2
        · exact hnew q hqd
        · exact inv.edges pr (pairs_suffix _ _ hsuf pr hpr2) q hqd
      · have hqp' : q = p := by simpa using hqp
        rcases hprsplit with rfl | hpr2
        · rw [hqp']
          show 0 ≤ crossP h0.pos p.pos p.pos
          rw [crossP_eq_crossv, crossv_self]
        · rw [hqp']
          refine edges_absorb_p P hPneg hPadd hPsmul hPpar p (popChain st p)
            hmono2 hturns2 hpst2 ?_ pr hpr2
          intro b2 a2 r22 hshape
          have hb2 : h0 = b2 := by
            rw [hshape] at hst2
            injection hst2.symm with h1 _
          have ht02 : t0 = a2 :: r22 := by
            rw [hshape] at hst2
            injection hst2.symm with _ h2
          subst hb2
          have hx := hstop' a2 r22 ht02
          rw [cross3_posP] at hx
          linarith
    · rw [hst2]
      refine List.pairwise_cons.2 ⟨?_, hst2 ▸ hmono2⟩
      intro y hy
      exact hpst2 y (by rw [hst2]; exact List.mem_cons.2 (by simpa using hy))
    · intro q hq hnot
      rcases List.mem_append.1 hq with hqd | hqp
      · have hnot2 : q.pos ∉ (popChain st p).map Pt.pos := by
          intro hmem
          exact hnot (by simp [hmem])
        rcases hLW q hqd hnot2 with ⟨pr, hpr, w1, w2, w3⟩ | ⟨tt, htt, w1, w2⟩
        · refine ⟨pr, ?_, w1, w2, w3⟩
          show pr ∈ (p :: popChain st p).zip (p :: popChain st p).tail
          rw [hst2]
          rw [hst2] at hpr
          exact List.mem_cons_of_mem _ (by simpa [List.zip_cons_cons] using hpr)
        · have htth : tt = h0 := by
            rw [hst2] at htt
            simpa using htt.symm
          rw [htth] at w1 w2
          refine ⟨(p, h0), ?_, w1, hp q hqd, w2⟩
          show (p, h0) ∈ (p :: popChain st p).zip (p :: popChain st p).tail
          rw [hst2]
          simp [List.zip_cons_cons]
      · have hqp' : q = p := by simpa using hqp
        subst hqp'
        exact absurd (by simp) hnot
    · refine List.pairwise_append.2 ⟨inv.sorted, List.pairwise_singleton _ _, ?_⟩
      intro x hx y hy
      have hyp : y = p := by simpa using hy
      subst hyp
      exact hp x hx

theorem scan_master {K : Type} [LinearOrderedField K] (P : K × K → Prop)
    (hPneg : ∀ w, P w → ¬ P (-w))
    (hPadd : ∀ w w', P w → P w' → P (w + w'))
    (hPsmul : ∀ w t, P w → 0 < t → P (t * w.1, t * w.2))
    (hPpar : ∀ d e, P d → P e → crossv d e = 0 → ∃ t, 0 < t ∧ e = (t * d.1, t * d.2))
    (rest : List (Pt K)) :
    ∀ done st, ScanInv P done st →
      (∀ x ∈ done, ∀ y ∈ rest, P (y.pos - x.pos)) →
      rest.Pairwise (fun x y => P (y.pos - x.pos)) →
      ScanInv P (done ++ rest)
        (rest.foldl (fun st p => p :: popChain st p) st) := by
  induction rest with
  | nil =>
    intro done st inv _ _
    simpa using inv
  | cons p rest ih =>
    intro done st inv hcross hrest
    have hinv2 := scan_step P hPneg hPadd hPsmul hPpar done st p inv
      (fun x hx => hcross x hx p (List.mem_cons_self p rest))
    have hres := ih (done ++ [p]) (p :: popChain st p) hinv2
      (by
        intro x hx y hy
        rcases List.mem_append.1 hx with hx1 | hx1
        · exact hcross x hx1 y (List.mem_cons_of_mem p hy)
        · have hxp : x = p := by simpa using hx1
          subst hxp
          exact (List.pairwise_cons.1 hrest).1 y hy)
      ((List.pairwise_cons.1 hrest).2)
    have hgoal : done ++ p :: rest = (done ++ [p]) ++ rest := by
      simp
    rw [hgoal]
    exact hres

theorem chainScan_inv {K : Type} [LinearOrderedField K] (P : K × K → Prop)
    (hPneg : ∀ w, P w → ¬ P (-w))
    (hPadd : ∀ w w', P w → P w' → P (w + w'))
    (hPsmul : ∀ w t, P w → 0 < t → P (t * w.1, t * w.2))
    (hPpar : ∀ d e, P d → P e → crossv d e = 0 → ∃ t, 0 < t ∧ e = (t * d.1, t * d.2))
    (l : List (Pt K)) (hl : l.Pairwise (fun x y => P (y.pos - x.pos))) :
    ScanInv P l (chainScan l) := by
  have hbase : ScanInv P [] ([] : List (Pt K)) := by
    refine ⟨fun h => absurd rfl h, by simp, trivial, rfl, rfl, ?_, by simp, ?_, by simp⟩
    · intro pr hpr
      simp at hpr
    · intro q hq
      simp at hq
  have hres := scan_master P hPneg hPadd hPsmul hPpar l [] [] hbase
    (by intro x hx; simp at hx) hl
  simpa [chainScan] using hres

theorem ptLe_iff {K : Type} [LinearOrderedField K] (a b : Pt K) :
    ptLe a b = true ↔
      (a.1 < b.1 ∨ (a.1 = b.1 ∧ (a.2.1 < b.2.1 ∨ (a.2.1 = b.2.1 ∧ a.2.2 ≤ b.2.2)))) := by
  unfold ptLe
  simp

theorem ptLe_trans {K : Type} [LinearOrderedField K] (a b c : Pt K)
    (hab : ptLe a b = true) (hbc : ptLe b c = true) : ptLe a c = true := by
  rw [ptLe_iff] at hab hbc ⊢
  rcases hab with h1 | ⟨h1, h2 | ⟨h2, h3⟩⟩ <;>
    rcases hbc with g1 | ⟨g1, g2 | ⟨g2, g3⟩⟩ <;>
    first
      | exact Or.inl (by linarith)
      | exact Or.inr ⟨by linarith, Or.inl (by linarith)⟩
      | exact Or.inr ⟨by linarith, Or.inr ⟨by linarith, by omega⟩⟩

theorem ptLe_total {K : Type} [LinearOrderedField K] (a b : Pt K) :
    (ptLe a b || ptLe b a) = true := by
  rw [Bool.or_eq_true, ptLe_iff, ptLe_iff]
  rcases lt_trichotomy a.1 b.1 with h | h | h
  · exact Or.inl (Or.inl h)
  · rcases lt_trichotomy a.2.1 b.2.1 with h2 | h2 | h2
    · exact Or.inl (Or.inr ⟨h, Or.inl h2⟩)
    · rcases Nat.le_total a.2.2 b.2.2 with h3 | h3
      · exact Or.inl (Or.inr ⟨h, Or.inr ⟨h2, h3⟩⟩)
      · exact Or.inr (Or.inr ⟨h.symm, Or.inr ⟨h2.symm, h3⟩⟩)
    · exact Or.inr (Or.inr ⟨h.symm, Or.inl h2⟩)
  · exact Or.inr (Or.inl h)

theorem ptLe_ne_lexPos {K : Type} [LinearOrderedField K] (a b : Pt K)
    (hab : ptLe a b = true) (hne : a.pos ≠ b.pos) : lexPos (b.pos - a.pos) := by
  rw [ptLe_iff] at hab
  rcases hab with h1 | ⟨h1, h2 | ⟨h2, h3⟩⟩
  · left
    show (0 : K) < (b.pos - a.pos).1
    simp only [Prod.fst_sub, Pt.pos]
    linarith
  · right
    constructor
    · show (b.pos - a.pos).1 = 0
      simp only [Prod.fst_sub, Pt.pos]
      linarith
    · show (0 : K) < (b.pos - a.pos).2
      simp only [Prod.snd_sub, Pt.pos]
      linarith
  · exfalso
    apply hne
    show (a.1, a.2.1) = (b.1, b.2.1)
    rw [h1, h2]

theorem sorted_strict {K : Type} [LinearOrderedField K] (pts : List (Pt K))
    (hpos : (pts.map Pt.pos).Nodup) :
    (pts.mergeSort ptLe).Pairwise (fun x y => lexPos (y.pos - x.pos)) := by
  have hperm := List.mergeSort_perm pts ptLe
  have hnodup : ((pts.mergeSort ptLe).map Pt.pos).Nodup :=
    (List.Perm.nodup_iff (hperm.map Pt.pos)).2 hpos
  have hsorted := List.sorted_mergeSort ptLe_trans ptLe_total pts
  have hne : (pts.mergeSort ptLe).Pairwise (fun a b => a.pos ≠ b.pos) :=
    List.pairwise_map.1 hnodup
  refine (hsorted.and hne).imp ?_
  intro a b hh
  exact ptLe_ne_lexPos a b hh.1 hh.2

theorem sorted_strict_rev {K : Type} [LinearOrderedField K] (pts : List (Pt K))
    (hpos : (pts.map Pt.pos).Nodup) :
    (pts.mergeSort ptLe).reverse.Pairwise (fun x y => lexPos (-(y.pos - x.pos))) := by
  rw [List.pairwise_reverse]
  refine (sorted_strict pts hpos).imp ?_
  intro a b hh
  rw [neg_sub]
  exact hh

theorem lexPos_zero {K : Type} [LinearOrderedField K] : ¬ lexPos (0 : K × K) := by
  intro h
  rcases h with h | ⟨h1, h2⟩
  · exact absurd h (by simp)
  · exact absurd h2 (by simp)

theorem lexNeg_neg {K : Type} [LinearOrderedField K] (w : K × K)
    (h : lexPos (-w)) : ¬ lexPos (-(-w)) := by
  intro h2
  rw [neg_neg] at h2
  exact lexPos_neg w h2 h

theorem lexNeg_add {K : Type} [LinearOrderedField K] (w w' : K × K)
    (h : lexPos (-w)) (h' : lexPos (-w')) : lexPos (-(w + w')) := by
  rw [neg_add]
  exact lexPos_add _ _ h h'

theorem lexNeg_smul {K : Type} [LinearOrderedField K] (w : K × K) (t : K)
    (h : lexPos (-w)) (ht : 0 < t) : lexPos (-(t * w.1, t * w.2)) := by
  have h2 := lexPos_smul (-w) t h ht
  have he : ((t * (-w).1, t * (-w).2) : K × K) = -(t * w.1, t * w.2) := by
    simp only [Prod.fst_neg, Prod.snd_neg, Prod.neg_mk, Prod.mk.injEq]
    constructor <;> ring
  rw [← he]
  exact h2

theorem lexNeg_par {K : Type} [LinearOrderedField K] (d e : K × K)
    (hd : lexPos (-d)) (he : lexPos (-e)) (hc : crossv d e = 0) :
    ∃ t, 0 < t ∧ e = (t * d.1, t * d.2) := by
  have hc2 : crossv (-d) (-e) = 0 := by
    rw [crossv_neg_neg]
    exact hc
  obtain ⟨t, ht, hte⟩ := lexPos_par (-d) (-e) hd he hc2
  refine ⟨t, ht, ?_⟩
  have he2 : e = -(t * (-d).1, t * (-d).2) := by
    rw [← hte, neg_neg]
  rw [he2]
  simp only [Prod.fst_neg, Prod.snd_neg, Prod.neg_mk, Prod.mk.injEq]
  constructor <;> ring

theorem crossv_absorb_left {K : Type} [LinearOrderedField K] (w v : K × K) :
    crossv w (w + v) = crossv w v := by
  unfold crossv
  simp only [Prod.fst_add, Prod.snd_add]
  ring

theorem dotv_sub {K : Type} [LinearOrderedField K] (u a b : K × K) :
    dotv u (a - b) = dotv u a - dotv u b := by
  unfold dotv
  simp only [Prod.fst_sub, Prod.snd_sub]
  ring

theorem dotv_neg_right {K : Type} [LinearOrderedField K] (u a : K × K) :
    dotv u (-a) = -dotv u a := by
  unfold dotv
  simp only [Prod.fst_neg, Prod.snd_neg]
  ring

theorem no_up_support {K : Type} [LinearOrderedField K] (d1 d2 u : K × K)
    (h1 : lexPos (-d1)) (h2 : lexPos (-d2)) (hc : crossv d1 d2 ≤ 0)
    (hu1 : 0 < dotv u d1) (hu2 : dotv u d2 < 0) : u.2 < 0 := by
  have hc2 : crossv (-d1) (-d2) ≤ 0 := by
    rw [crossv_neg_neg]
    exact hc
  have hu1' : 0 < dotv (-u) (-d1) := by
    unfold dotv at hu1 ⊢
    simp only [Prod.fst_neg, Prod.snd_neg]
    nlinarith [hu1]
  have hu2' : dotv (-u) (-d2) < 0 := by
    unfold dotv at hu2 ⊢
    simp only [Prod.fst_neg, Prod.snd_neg]
    nlinarith [hu2]
  have := no_down_support (-d1) (-d2) (-u) h1 h2 hc2 hu1' hu2'
  have hneg : (-u).2 = -u.2 := rfl
  rw [hneg] at this
  linarith

theorem triples_of_getElem {α : Type} (T : α → α → α → Prop) :
    ∀ l : List α, (∀ i, ∀ h : i + 2 < l.length,
      T (l.get ⟨i, by omega⟩) (l.get ⟨i + 1, by omega⟩) (l.get ⟨i + 2, h⟩)) →
      Triples T l
  | [], _ => trivial
  | [a], _ => trivial
  | [a, b], _ => trivial
  | a :: b :: c :: t, h =>
      ⟨h 0 (by simp), triples_of_getElem T (b :: c :: t)
        (fun i hi => h (i + 1) (by simp at hi ⊢; omega))⟩

theorem triples_reverse {α : Type} (T : α → α → α → Prop) (l : List α)
    (h : Triples (fun c b a => T a b c) l) : Triples T l.reverse := by
  refine triples_of_getElem T l.reverse ?_
  intro i hi
  have hlen : l.reverse.length = l.length := List.length_reverse l
  have hi' : i + 2 < l.length := by
    rw [← hlen]
    exact hi
  have hj : l.length - 1 - (i + 2) + 2 < l.length := by omega
  have e0 : l.reverse.get ⟨i, by omega⟩ = l.get ⟨l.length - 1 - i, by omega⟩ := by
    simp only [List.get_eq_getElem]
    exact List.getElem_reverse _
  have e1 : l.reverse.get ⟨i + 1, by omega⟩ =
      l.get ⟨l.length - 1 - (i + 1), by omega⟩ := by
    simp only [List.get_eq_getElem]
    exact List.getElem_reverse _
  have e2 : l.reverse.get ⟨i + 2, hi⟩ = l.get ⟨l.length - 1 - (i + 2), by omega⟩ := by
    simp only [List.get_eq_getElem]
    exact List.getElem_reverse _
  rw [e0, e1, e2]
  have hres := triples_getElem _ l h (l.length - 1 - (i + 2)) hj
  have g1 : l.length - 1 - (i + 2) + 1 = l.length - 1 - (i + 1) := by omega
  have g2 : l.length - 1 - (i + 2) + 2 = l.length - 1 - i := by omega
  have f0 : (⟨l.length - 1 - (i + 2) + 2, hj⟩ : Fin l.length) =
      ⟨l.length - 1 - i, by omega⟩ :=
    Fin.ext (show l.length - 1 - (i + 2) + 2 = l.length - 1 - i by omega)
  have f1 : (⟨l.length - 1 - (i + 2) + 1, by omega⟩ : Fin l.length) =
      ⟨l.length - 1 - (i + 1), by omega⟩ :=
    Fin.ext (show l.length - 1 - (i + 2) + 1 = l.length - 1 - (i + 1) by omega)
  rw [f0, f1] at hres
  exact hres

theorem pairs_reverse {α : Type} (l : List α) (pr : α × α)
    (h : pr ∈ l.reverse.zip l.reverse.tail) : (pr.2, pr.1) ∈ l.zip l.tail := by
  obtain ⟨i, hi, hpr⟩ := pairs_getElem l.reverse pr h
  have hlen : l.reverse.length = l.length := List.length_reverse l
  have hi' : i + 1 < l.length := by
    rw [← hlen]
    exact hi
  have e0 : l.reverse.get ⟨i, by omega⟩ = l.get ⟨l.length - 1 - i, by omega⟩ := by
    simp only [List.get_eq_getElem]
    exact List.getElem_reverse _
  have e1 : l.reverse.get ⟨i + 1, hi⟩ = l.get ⟨l.length - 1 - (i + 1), by omega⟩ := by
    simp only [List.get_eq_getElem]
    exact List.getElem_reverse _
  have hj : l.length - 1 - (i + 1) + 1 < l.length := by omega
  have hmem := pairs_getElem_mem l (l.length - 1 - (i + 1)) hj
  have f1 : (⟨l.length - 1 - (i + 1) + 1, hj⟩ : Fin l.length) =
      ⟨l.length - 1 - i, by omega⟩ :=
    Fin.ext (show l.length - 1 - (i + 1) + 1 = l.length - 1 - i by omega)
  rw [f1] at hmem
  rw [hpr]
  rw [e0, e1]
  exact hmem

theorem crossv_add_right {K : Type} [LinearOrderedField K] (a b c : K × K) :
    crossv a (b + c) = crossv a b + crossv a c := by
  unfold crossv
  simp only [Prod.fst_add, Prod.snd_add]
  ring

theorem crossv_sub_right {K : Type} [LinearOrderedField K] (a b c : K × K) :
    crossv a (b - c) = crossv a b - crossv a c := by
  unfold crossv
  simp only [Prod.fst_sub, Prod.snd_sub]
  ring

theorem crossv_neg_left {K : Type} [LinearOrderedField K] (a b : K × K) :
    crossv (-a) b = -crossv a b := by
  unfold crossv
  simp only [Prod.fst_neg, Prod.snd_neg]
  ring

theorem crossv_smul_left {K : Type} [LinearOrderedField K] (a b : K × K) (t : K) :
    crossv (t * a.1, t * a.2) b = t * crossv a b := by
  unfold crossv
  ring

theorem crossv_anticomm {K : Type} [LinearOrderedField K] (a b : K × K) :
    crossv a b = -crossv b a := by
  unfold crossv
  ring

theorem crossv_neg_right {K : Type} [LinearOrderedField K] (a b : K × K) :
    crossv a (-b) = -crossv a b := by
  unfold crossv
  simp only [Prod.fst_neg, Prod.snd_neg]
  ring

theorem seam_strict {K : Type} [LinearOrderedField K] (P : K × K → Prop)
    (hPpar : ∀ d e, P d → P e → crossv d e = 0 → ∃ t, 0 < t ∧ e = (t * d.1, t * d.2))
    (x E z : Pt K) (S : List (Pt K))
    (hdx : P (E.pos - x.pos)) (hez : P (E.pos - z.pos)) (hzS : z ∈ S)
    (hECx : ∀ q ∈ S, 0 ≤ crossP x.pos E.pos q.pos)
    (hECz : ∀ q ∈ S, 0 ≤ crossP E.pos z.pos q.pos)
    (hcase : (∃ u2 ∈ S, 0 < cross3 E z u2) ∨ (∃ w ∈ S, 0 < cross3 w x E)) :
    0 < cross3 x E z := by
  by_contra hcon
  push_neg at hcon
  have hweak : 0 ≤ cross3 x E z := by
    rw [cross3_posP]
    exact hECx z hzS
  have h0 : cross3 x E z = 0 := le_antisymm hcon hweak
  rw [cross3_posP, crossP_eq_crossv] at h0
  have hzx : z.pos - x.pos = (E.pos - x.pos) - (E.pos - z.pos) := by ring
  rw [hzx, crossv_sub_right, crossv_self, zero_sub, neg_eq_zero] at h0
  obtain ⟨t, ht, hte⟩ := hPpar (E.pos - x.pos) (E.pos - z.pos) hdx hez h0
  rcases hcase with ⟨u2, hu2S, hu2t⟩ | ⟨w, hwS, hwt⟩
  · have hc1 : 0 ≤ crossv (E.pos - x.pos) (u2.pos - E.pos) := by
      have hx := hECx u2 hu2S
      rw [crossP_eq_crossv] at hx
      have hsplit : u2.pos - x.pos = (u2.pos - E.pos) + (E.pos - x.pos) := by ring
      rw [hsplit, crossv_add_right, crossv_anticomm (E.pos - x.pos) (E.pos - x.pos),
        crossv_self] at hx
      linarith [hx]
    rw [cross3_posP, crossP_eq_crossv] at hu2t
    have hze : z.pos - E.pos = -(E.pos - z.pos) := by ring
    rw [hze, crossv_neg_left, hte, crossv_smul_left] at hu2t
    nlinarith [hu2t, hc1, ht]
  · have hc2 : crossv (E.pos - x.pos) (w.pos - E.pos) ≤ 0 := by
      have hx := hECz w hwS
      rw [crossP_eq_crossv] at hx
      have hze : z.pos - E.pos = -(E.pos - z.pos) := by ring
      rw [hze, crossv_neg_left, hte, crossv_smul_left] at hx
      nlinarith [hx, ht]
    rw [cross3_posP, crossP_eq_crossv] at hwt
    have hsplit : E.pos - w.pos = (x.pos - w.pos) + (E.pos - x.pos) := by ring
    rw [hsplit, crossv_add_right, crossv_anticomm (x.pos - w.pos) (x.pos - w.pos),
      crossv_self] at hwt
    have hflip : crossv (E.pos - x.pos) (w.pos - E.pos) =
        crossv (x.pos - w.pos) (E.pos - x.pos) := by
      have hw : w.pos - E.pos = -((x.pos - w.pos) + (E.pos - x.pos)) := by ring
      rw [hw, crossv_neg_right]
      rw [crossv_add_right]
      rw [crossv_self]
      rw [crossv_anticomm]
      ring
    rw [hflip] at hc2
    linarith [hwt, hc2]

theorem chain_head {K : Type} [LinearOrderedField K] (P : K × K → Prop)
    (l : List (Pt K)) (inv : ScanInv P l (chainScan l)) :
    (chainScan l).reverse.head? = l.head? := by
  rw [List.head?_reverse]
  exact inv.lastEq

theorem chain_last {K : Type} [LinearOrderedField K] (P : K × K → Prop)
    (l : List (Pt K)) (inv : ScanInv P l (chainScan l)) :
    (chainScan l).reverse.getLast? = l.getLast? := by
  rw [List.getLast?_reverse]
  exact inv.headEq

theorem chain_ne_nil {K : Type} [LinearOrderedField K] (P : K × K → Prop)
    (l : List (Pt K)) (inv : ScanInv P l (chainScan l)) (hl : l ≠ []) :
    (chainScan l).reverse ≠ [] := by
  intro h
  exact inv.nonempty hl (by simpa using congrArg List.reverse h)

theorem chain_turns {K : Type} [LinearOrderedField K] (P : K × K → Prop)
    (l : List (Pt K)) (inv : ScanInv P l (chainScan l)) :
    Triples (fun a b c => 0 < cross3 a b c) (chainScan l).reverse :=
  triples_reverse _ _ inv.turns

theorem chain_mono {K : Type} [LinearOrderedField K] (P : K × K → Prop)
    (l : List (Pt K)) (inv : ScanInv P l (chainScan l)) :
    (chainScan l).reverse.Pairwise (fun x y => P (y.pos - x.pos)) := by
  rw [List.pairwise_reverse]
  exact inv.mono

theorem chain_edges {K : Type} [LinearOrderedField K] (P : K × K → Prop)
    (l : List (Pt K)) (inv : ScanInv P l (chainScan l)) :
    ∀ pr ∈ (chainScan l).reverse.zip (chainScan l).reverse.tail, ∀ q ∈ l,
      0 ≤ crossP pr.1.pos pr.2.pos q.pos := by
  intro pr hpr q hq
  exact inv.edges (pr.2, pr.1) (pairs_reverse _ _ hpr) q hq

theorem chain_complete {K : Type} [LinearOrderedField K] (P : K × K → Prop)
    (l : List (Pt K)) (inv : ScanInv P l (chainScan l)) :
    ∀ q ∈ l, q.pos ∉ (chainScan l).reverse.map Pt.pos →
      ∃ pr ∈ (chainScan l).reverse.zip (chainScan l).reverse.tail,
        P (q.pos - pr.1.pos) ∧ P (pr.2.pos - q.pos) ∧ cross3 pr.1 q pr.2 ≤ 0 := by
  intro q hq hnot
  have hnot2 : q.pos ∉ (chainScan l).map Pt.pos := by
    intro h
    apply hnot
    rw [List.map_reverse, List.mem_reverse]
    exact h
  obtain ⟨pr, hpr, w1, w2, w3⟩ := inv.witness q hq hnot2
  refine ⟨(pr.2, pr.1), ?_, w1, w2, w3⟩
  have := pairs_reverse (chainScan l).reverse pr
    (by rw [List.reverse_reverse]; exact hpr)
  exact this

theorem cyclicTriples_index {α : Type} (l : List α) (t : α × α × α)
    (ht : t ∈ cyclicTriples l) :
    ∃ i, ∃ h : i < l.length,
      t.1 = l.get ⟨i, h⟩ ∧
      t.2.1 = l.get ⟨(i + 1) % l.length, Nat.mod_lt _ (by omega)⟩ ∧
      t.2.2 = l.get ⟨(i + 2) % l.length, Nat.mod_lt _ (by omega)⟩ := by
  unfold cyclicTriples at ht
  have hlen : (l.zip ((l.rotate 1).zip (l.rotate 2))).length = l.length := by
    simp [List.length_zip, List.length_rotate]
  obtain ⟨n, hn⟩ := List.mem_iff_get.1 ht
  have hn1 : n.1 < l.length := by
    rw [← hlen]
    exact n.2
  have hr1 : n.1 < (l.rotate 1).length := by
    rw [List.length_rotate]
    exact hn1
  have hr2 : n.1 < (l.rotate 2).length := by
    rw [List.length_rotate]
    exact hn1
  have hz : (l.zip ((l.rotate 1).zip (l.rotate 2))).get n =
      (l.get ⟨n.1, hn1⟩, (l.rotate 1).get ⟨n.1, hr1⟩, (l.rotate 2).get ⟨n.1, hr2⟩) := by
    simp [List.get_eq_getElem, List.getElem_zip]
  rw [hz] at hn
  refine ⟨n.1, hn1, ?_, ?_, ?_⟩
  · rw [← hn]
  · rw [← hn]
    show (l.rotate 1).get ⟨n.1, hr1⟩ = _
    rw [List.get_rotate]
  · rw [← hn]
    show (l.rotate 2).get ⟨n.1, hr2⟩ = _
    rw [List.get_rotate]

theorem dotv_perp {K : Type} [LinearOrderedField K] (w v : K × K) :
    dotv ((w.2, -w.1) : K × K) v = -crossv w v := by
  unfold dotv crossv
  ring

theorem edge_boundary {K : Type} [LinearOrderedField K] (a b : Pt K) (l : List (Pt K))
    (hEC : ∀ q ∈ l, 0 ≤ crossP a.pos b.pos q.pos)
    (hne : a.pos ≠ b.pos) :
    OnBoundary (l.map Pt.pos) a.pos ∧ OnBoundary (l.map Pt.pos) b.pos := by
  have hu0 : (((b.pos - a.pos).2, -(b.pos - a.pos).1) : K × K) ≠ 0 := by
    intro h
    apply hne
    have h1 : (b.pos - a.pos).2 = 0 := congrArg Prod.fst h
    have h2 : -(b.pos - a.pos).1 = 0 := congrArg Prod.snd h
    have h3 : (b.pos - a.pos).1 = 0 := by linarith
    have h4 : b.pos - a.pos = 0 := by
      have : b.pos - a.pos = ((b.pos - a.pos).1, (b.pos - a.pos).2) := rfl
      rw [this, h1, h3]
      rfl
    have := sub_eq_zero.1 h4
    exact this.symm
  have hbound : ∀ q ∈ l,
      dotv ((b.pos - a.pos).2, -(b.pos - a.pos).1) q.pos ≤
        dotv ((b.pos - a.pos).2, -(b.pos - a.pos).1) a.pos := by
    intro q hq
    have hc := hEC q hq
    rw [crossP_eq_crossv] at hc
    have hd : dotv ((b.pos - a.pos).2, -(b.pos - a.pos).1) (q.pos - a.pos) =
        -crossv (b.pos - a.pos) (q.pos - a.pos) := dotv_perp _ _
    rw [dotv_sub] at hd
    linarith
  constructor
  · refine ⟨((b.pos - a.pos).2, -(b.pos - a.pos).1), hu0, ?_⟩
    intro s hs
    obtain ⟨q, hq, hqs⟩ := List.mem_map.1 hs
    rw [← hqs]
    exact hbound q hq
  · refine ⟨((b.pos - a.pos).2, -(b.pos - a.pos).1), hu0, ?_⟩
    intro s hs
    obtain ⟨q, hq, hqs⟩ := List.mem_map.1 hs
    rw [← hqs]
    have hab : dotv ((b.pos - a.pos).2, -(b.pos - a.pos).1) a.pos =
        dotv ((b.pos - a.pos).2, -(b.pos - a.pos).1) b.pos := by
      have hd : dotv ((b.pos - a.pos).2, -(b.pos - a.pos).1) (b.pos - a.pos) =
          -crossv (b.pos - a.pos) (b.pos - a.pos) := dotv_perp _ _
      rw [dotv_sub, crossv_self] at hd
      linarith
    rw [← hab]
    exact hbound q hq

theorem lower_corner_excl {K : Type} [LinearOrderedField K]
    (l : List (Pt K)) (inv : ScanInv lexPos l (chainScan l))
    (q : Pt K) (hq : q ∈ l) (hnot : q.pos ∉ (chainScan l).reverse.map Pt.pos)
    (u : K × K) (hu : ∀ s ∈ l, s.pos ≠ q.pos → dotv u s.pos < dotv u q.pos) :
    0 < u.2 := by
  obtain ⟨pr, hpr, w1, w2, w3⟩ := chain_complete lexPos l inv q hq hnot
  have hmem := List.of_mem_zip hpr
  have ha : pr.1 ∈ l := inv.sublist.subset hmem.1
  have hc : pr.2 ∈ l := inv.sublist.subset ((List.tail_sublist _).subset hmem.2)
  have hane : pr.1.pos ≠ q.pos := by
    intro h
    rw [h, sub_self] at w1
    exact lexPos_zero w1
  have hcne : pr.2.pos ≠ q.pos := by
    intro h
    rw [h, sub_self] at w2
    exact lexPos_zero w2
  have hcross : crossv (q.pos - pr.1.pos) (pr.2.pos - q.pos) ≤ 0 := by
    rw [cross3_eq_crossv] at w3
    have hsplit : pr.2.pos - pr.1.pos =
        (q.pos - pr.1.pos) + (pr.2.pos - q.pos) := by ring
    rw [hsplit, crossv_add_right, crossv_self] at w3
    linarith
  have hu1 : 0 < dotv u (q.pos - pr.1.pos) := by
    rw [dotv_sub]
    have := hu pr.1 ha hane
    linarith
  have hu2 : dotv u (pr.2.pos - q.pos) < 0 := by
    rw [dotv_sub]
    have := hu pr.2 hc hcne
    linarith
  exact no_down_support _ _ u w1 w2 hcross hu1 hu2

theorem upper_corner_excl {K : Type} [LinearOrderedField K]
    (l : List (Pt K)) (inv : ScanInv (fun w => lexPos (-w)) l (chainScan l))
    (q : Pt K) (hq : q ∈ l) (hnot : q.pos ∉ (chainScan l).reverse.map Pt.pos)
    (u : K × K) (hu : ∀ s ∈ l, s.pos ≠ q.pos → dotv u s.pos < dotv u q.pos) :
    u.2 < 0 := by
  obtain ⟨pr, hpr, w1, w2, w3⟩ := chain_complete (fun w => lexPos (-w)) l inv q hq hnot
  have hmem := List.of_mem_zip hpr
  have ha : pr.1 ∈ l := inv.sublist.subset hmem.1
  have hc : pr.2 ∈ l := inv.sublist.subset ((List.tail_sublist _).subset hmem.2)
  have hane : pr.1.pos ≠ q.pos := by
    intro h
    rw [h, sub_self, neg_zero] at w1
    exact lexPos_zero w1
  have hcne : pr.2.pos ≠ q.pos := by
    intro h
    rw [h, sub_self, neg_zero] at w2
    exact lexPos_zero w2
  have hcross : crossv (q.pos - pr.1.pos) (pr.2.pos - q.pos) ≤ 0 := by
    rw [cross3_eq_crossv] at w3
    have hsplit : pr.2.pos - pr.1.pos =
        (q.pos - pr.1.pos) + (pr.2.pos - q.pos) := by ring
    rw [hsplit, crossv_add_right, crossv_self] at w3
    linarith
  have hu1 : 0 < dotv u (q.pos - pr.1.pos) := by
    rw [dotv_sub]
    have := hu pr.1 ha hane
    linarith
  have hu2 : dotv u (pr.2.pos - q.pos) < 0 := by
    rw [dotv_sub]
    have := hu pr.2 hc hcne
    linarith
  exact no_up_support _ _ u w1 w2 hcross hu1 hu2

theorem monotoneHull_mem {K : Type} [LinearOrderedField K] (pts : List (Pt K))
    (hpos : (pts.map Pt.pos).Nodup) :
    ∀ p ∈ monotoneHull pts, p ∈ pts := by
  intro p hp
  have invL := chainScan_inv lexPos lexPos_neg lexPos_add lexPos_smul lexPos_par
    (pts.mergeSort ptLe) (sorted_strict pts hpos)
  have invU := chainScan_inv (fun w => lexPos (-w)) lexNeg_neg lexNeg_add lexNeg_smul
    lexNeg_par (pts.mergeSort ptLe).reverse (sorted_strict_rev pts hpos)
  unfold monotoneHull at hp
  rcases List.mem_append.1 hp with hp1 | hp1
  · have h2 : p ∈ (chainScan (pts.mergeSort ptLe)).reverse :=
      (List.dropLast_sublist _).subset hp1
    have h3 : p ∈ pts.mergeSort ptLe := invL.sublist.subset h2
    exact (List.mergeSort_perm pts ptLe).subset h3
  · have h2 : p ∈ (chainScan (pts.mergeSort ptLe).reverse).reverse :=
      (List.dropLast_sublist _).subset hp1
    have h3 : p ∈ (pts.mergeSort ptLe).reverse := invU.sublist.subset h2
    have h4 : p ∈ pts.mergeSort ptLe := List.mem_reverse.1 h3
    exact (List.mergeSort_perm pts ptLe).subset h4

theorem chain_two {K : Type} [LinearOrderedField K] (P : K × K → Prop)
    (l : List (Pt K)) (inv : ScanInv P l (chainScan l)) (hlen : 2 ≤ l.length)
    (hstrict : l.Pairwise (fun x y => P (y.pos - x.pos))) (hP0 : ¬ P 0) :
    2 ≤ (chainScan l).reverse.length := by
  by_contra hcon
  push_neg at hcon
  have hne : (chainScan l).reverse ≠ [] :=
    chain_ne_nil P l inv (by intro h; rw [h] at hlen; simp at hlen)
  have h1 : (chainScan l).reverse.length = 1 := by
    have := List.length_pos.2 hne
    omega
  obtain ⟨x, hx⟩ := List.length_eq_one.1 h1
  have hhead : l.head? = some x := by
    rw [← chain_head P l inv, hx]
    rfl
  have hlast : l.getLast? = some x := by
    rw [← chain_last P l inv, hx]
    rfl
  have hl0 : l.head? = some l[0] := by
    rw [List.head?_eq_getElem?]
    exact List.getElem?_eq_getElem (by omega)
  have hlN : l.getLast? = some l[l.length - 1] := by
    rw [List.getLast?_eq_getElem?]
    exact List.getElem?_eq_getElem (by omega)
  have he1 : l[0] = x := Option.some.inj (hl0.symm.trans hhead)
  have he2 : l[l.length - 1] = x := Option.some.inj (hlN.symm.trans hlast)
  have hpw := List.pairwise_iff_getElem.1 hstrict 0 (l.length - 1)
    (by omega) (by omega) (by omega)
  rw [he1, he2, sub_self] at hpw
  exact hP0 hpw

theorem onBoundary_of_superset {K : Type} [LinearOrderedField K]
    (S S' : List (K × K)) (h : ∀ x ∈ S', x ∈ S) (p : K × K)
    (hb : OnBoundary S p) : OnBoundary S' p := by
  obtain ⟨u, hu0, hu⟩ := hb
  exact ⟨u, hu0, fun q hq => hu q (h q hq)⟩

theorem chain_boundary {K : Type} [LinearOrderedField K] (P : K × K → Prop)
    (l : List (Pt K)) (inv : ScanInv P l (chainScan l))
    (hstrict : l.Pairwise (fun x y => P (y.pos - x.pos))) (hP0 : ¬ P 0)
    (h2 : 2 ≤ (chainScan l).reverse.length) :
    ∀ p ∈ (chainScan l).reverse, OnBoundary (l.map Pt.pos) p.pos := by
  intro p hp
  obtain ⟨i, hi, hip⟩ := List.mem_iff_getElem.1 hp
  have hmono := List.pairwise_iff_getElem.1 (chain_mono P l inv)
  by_cases hnext : i + 1 < (chainScan l).reverse.length
  · have hpair := pairs_getElem_mem (chainScan l).reverse i hnext
    have hEC := fun q hq => chain_edges P l inv _ hpair q hq
    have hne : ((chainScan l).reverse[i]).pos ≠ ((chainScan l).reverse[i+1]).pos := by
      intro h
      have hm := hmono i (i+1) (by omega) hnext (by omega)
      rw [← h, sub_self] at hm
      exact hP0 hm
    have hres := (edge_boundary _ _ l hEC hne).1
    rw [← hip]
    exact hres
  · have hiv : 1 ≤ i := by omega
    have hprev : (i - 1) + 1 < (chainScan l).reverse.length := by omega
    have hpair := pairs_getElem_mem (chainScan l).reverse (i - 1) hprev
    have hEC := fun q hq => chain_edges P l inv _ hpair q hq
    have hne : ((chainScan l).reverse[i-1]).pos ≠ ((chainScan l).reverse[i-1+1]).pos := by
      intro h
      have hm := hmono (i-1) (i-1+1) (by omega) hprev (by omega)
      rw [← h, sub_self] at hm
      exact hP0 hm
    have hres := (edge_boundary _ _ l hEC hne).2
    have hieq : (⟨i - 1 + 1, hprev⟩ : Fin (chainScan l).reverse.length) = ⟨i, hi⟩ :=
      Fin.ext (show i - 1 + 1 = i by omega)
    rw [hieq] at hres
    rw [← hip]
    exact hres

theorem monotoneHull_boundary {K : Type} [LinearOrderedField K] (pts : List (Pt K))
    (h3 : 3 ≤ pts.length) (hpos : (pts.map Pt.pos).Nodup) :
    ∀ p ∈ monotoneHull pts, OnBoundary (pts.map Pt.pos) p.pos := by
  have hlen : (pts.mergeSort ptLe).length = pts.length :=
    (List.mergeSort_perm pts ptLe).length_eq
  have invL := chainScan_inv lexPos lexPos_neg lexPos_add lexPos_smul lexPos_par
    (pts.mergeSort ptLe) (sorted_strict pts hpos)
  have invU := chainScan_inv (fun w => lexPos (-w)) lexNeg_neg lexNeg_add lexNeg_smul
    lexNeg_par (pts.mergeSort ptLe).reverse (sorted_strict_rev pts hpos)
  have hP0U : ¬ (fun w : K × K => lexPos (-w)) 0 := by
    intro h
    rw [neg_zero] at h
    exact lexPos_zero h
  have k2 := chain_two lexPos (pts.mergeSort ptLe) invL (by omega)
    (sorted_strict pts hpos) lexPos_zero
  have m2 := chain_two (fun w => lexPos (-w)) (pts.mergeSort ptLe).reverse invU
    (by rw [List.length_reverse]; omega) (sorted_strict_rev pts hpos) hP0U
  intro p hp
  unfold monotoneHull at hp
  rcases List.mem_append.1 hp with hp1 | hp1
  · have hpL : p ∈ (chainScan (pts.mergeSort ptLe)).reverse :=
      (List.dropLast_sublist _).subset hp1
    have hres := chain_boundary lexPos (pts.mergeSort ptLe) invL
      (sorted_strict pts hpos) lexPos_zero k2 p hpL
    refine onBoundary_of_superset _ _ ?_ _ hres
    intro x hx
    obtain ⟨q, hq, hqx⟩ := List.mem_map.1 hx
    exact List.mem_map.2 ⟨q, (List.mergeSort_perm pts ptLe).mem_iff.2 hq, hqx⟩
  · have hpU : p ∈ (chainScan (pts.mergeSort ptLe).reverse).reverse :=
      (List.dropLast_sublist _).subset hp1
    have hres := chain_boundary (fun w => lexPos (-w)) (pts.mergeSort ptLe).reverse invU
      (sorted_strict_rev pts hpos) hP0U m2 p hpU
    refine onBoundary_of_superset _ _ ?_ _ hres
    intro x hx
    obtain ⟨q, hq, hqx⟩ := List.mem_map.1 hx
    refine List.mem_map.2 ⟨q, ?_, hqx⟩
    rw [List.mem_reverse]
    exact (List.mergeSort_perm pts ptLe).mem_iff.2 hq

theorem mem_dropLast_or_last {α : Type} (l : List α) (x : α) (hx : x ∈ l) :
    x ∈ l.dropLast ∨ l.getLast? = some x := by
  obtain ⟨i, hi, hix⟩ := List.mem_iff_getElem.1 hx
  by_cases hlt : i < l.length - 1
  · left
    have hb : i < l.dropLast.length := by
      rw [List.length_dropLast]
      omega
    have he : l.dropLast[i] = l[i] := List.getElem_dropLast l i hb
    rw [← hix, ← he]
    exact List.getElem_mem hb
  · right
    have hieq : i = l.length - 1 := by omega
    subst hieq
    rw [List.getLast?_eq_getElem?, List.getElem?_eq_getElem (by omega), hix]

theorem monotoneHull_corners {K : Type} [LinearOrderedField K] (pts : List (Pt K))
    (h3 : 3 ≤ pts.length) (hpos : (pts.map Pt.pos).Nodup) :
    ∀ v : K × K, HullCorner (pts.map Pt.pos) v → v ∈ (monotoneHull pts).map Pt.pos := by
  have hlen : (pts.mergeSort ptLe).length = pts.length :=
    (List.mergeSort_perm pts ptLe).length_eq
  have invL := chainScan_inv lexPos lexPos_neg lexPos_add lexPos_smul lexPos_par
    (pts.mergeSort ptLe) (sorted_strict pts hpos)
  have invU := chainScan_inv (fun w => lexPos (-w)) lexNeg_neg lexNeg_add lexNeg_smul
    lexNeg_par (pts.mergeSort ptLe).reverse (sorted_strict_rev pts hpos)
  have hP0U : ¬ (fun w : K × K => lexPos (-w)) 0 := by
    intro h
    rw [neg_zero] at h
    exact lexPos_zero h
  have k2 := chain_two lexPos (pts.mergeSort ptLe) invL (by omega)
    (sorted_strict pts hpos) lexPos_zero
  have m2 := chain_two (fun w => lexPos (-w)) (pts.mergeSort ptLe).reverse invU
    (by rw [List.length_reverse]; omega) (sorted_strict_rev pts hpos) hP0U
  -- seam identifications: each chain is contained in the hull
  have hLU : (chainScan (pts.mergeSort ptLe)).reverse.getLast? =
      (chainScan (pts.mergeSort ptLe).reverse).reverse.head? := by
    rw [chain_last lexPos _ invL, chain_head _ _ invU, List.head?_reverse]
  have hUL : (chainScan (pts.mergeSort ptLe).reverse).reverse.getLast? =
      (chainScan (pts.mergeSort ptLe)).reverse.head? := by
    rw [chain_last _ _ invU, chain_head lexPos _ invL, List.getLast?_reverse]
  have hheadU : (chainScan (pts.mergeSort ptLe).reverse).reverse.head? =
      some ((chainScan (pts.mergeSort ptLe).reverse).reverse.get ⟨0, by omega⟩) := by
    rw [List.head?_eq_getElem?]
    exact List.getElem?_eq_getElem (by omega)
  have hheadL : (chainScan (pts.mergeSort ptLe)).reverse.head? =
      some ((chainScan (pts.mergeSort ptLe)).reverse.get ⟨0, by omega⟩) := by
    rw [List.head?_eq_getElem?]
    exact List.getElem?_eq_getElem (by omega)
  have hLhull : ∀ x ∈ (chainScan (pts.mergeSort ptLe)).reverse, x ∈ monotoneHull pts := by
    intro x hx
    rcases mem_dropLast_or_last _ x hx with hd | hd
    · exact List.mem_append.2 (Or.inl hd)
    · have hx0 : some ((chainScan (pts.mergeSort ptLe).reverse).reverse.get ⟨0, by omega⟩) =
          some x := by
        rw [← hheadU, ← hLU, hd]
      have hx0e := Option.some.inj hx0
      have hb : 0 < (chainScan (pts.mergeSort ptLe).reverse).reverse.dropLast.length := by
        rw [List.length_dropLast]
        omega
      have he : (chainScan (pts.mergeSort ptLe).reverse).reverse.dropLast[0] =
          (chainScan (pts.mergeSort ptLe).reverse).reverse.get ⟨0, by omega⟩ :=
        List.getElem_dropLast _ 0 hb
      refine List.mem_append.2 (Or.inr ?_)
      rw [← hx0e, ← he]
      exact List.getElem_mem hb
  have hUhull : ∀ x ∈ (chainScan (pts.mergeSort ptLe).reverse).reverse,
      x ∈ monotoneHull pts := by
    intro x hx
    rcases mem_dropLast_or_last _ x hx with hd | hd
    · exact List.mem_append.2 (Or.inr hd)
    · have hx0 : some ((chainScan (pts.mergeSort ptLe)).reverse.get ⟨0, by omega⟩) =
          some x := by
        rw [← hheadL, ← hUL, hd]
      have hx0e := Option.some.inj hx0
      have hb : 0 < (chainScan (pts.mergeSort ptLe)).reverse.dropLast.length := by
        rw [List.length_dropLast]
        omega
      have he : (chainScan (pts.mergeSort ptLe)).reverse.dropLast[0] =
          (chainScan (pts.mergeSort ptLe)).reverse.get ⟨0, by omega⟩ :=
        List.getElem_dropLast _ 0 hb
      refine List.mem_append.2 (Or.inl ?_)
      rw [← hx0e, ← he]
      exact List.getElem_mem hb
  intro v hv
  obtain ⟨hvS, u, hustrict⟩ := hv
  obtain ⟨q, hqpts, hqv⟩ := List.mem_map.1 hvS
  have hqs : q ∈ pts.mergeSort ptLe := (List.mergeSort_perm pts ptLe).mem_iff.2 hqpts
  by_contra hvhull
  have hnotL : q.pos ∉ (chainScan (pts.mergeSort ptLe)).reverse.map Pt.pos := by
    intro hmem
    obtain ⟨y, hy, hyq⟩ := List.mem_map.1 hmem
    apply hvhull
    rw [← hqv, ← hyq]
    exact List.mem_map.2 ⟨y, hLhull y hy, rfl⟩
  have hnotU : q.pos ∉ (chainScan (pts.mergeSort ptLe).reverse).reverse.map Pt.pos := by
    intro hmem
    obtain ⟨y, hy, hyq⟩ := List.mem_map.1 hmem
    apply hvhull
    rw [← hqv, ← hyq]
    exact List.mem_map.2 ⟨y, hUhull y hy, rfl⟩
  have hu1 : ∀ x ∈ pts.mergeSort ptLe, x.pos ≠ q.pos →
      dotv u x.pos < dotv u q.pos := by
    intro x hx hxne
    have hxpts : x ∈ pts := (List.mergeSort_perm pts ptLe).subset hx
    have := hustrict x.pos (List.mem_map.2 ⟨x, hxpts, rfl⟩) (by rw [hqv] at hxne; exact hxne)
    rw [hqv]
    exact this
  have hlow := lower_corner_excl _ invL q hqs hnotL u hu1
  have hup := upper_corner_excl _ invU q (by rw [List.mem_reverse]; exact hqs) hnotU u
    (by
      intro x hx hxne
      exact hu1 x (List.mem_reverse.1 hx) hxne)
  linarith

theorem hull_ring_clockwise {K : Type} [LinearOrderedField K] (L U : List (Pt K))
    (k2 : 2 ≤ L.length) (m2 : 2 ≤ U.length)
    (TL : ∀ i, ∀ h1 : i < L.length, ∀ h2 : i + 1 < L.length, ∀ h3 : i + 2 < L.length,
      0 < cross3 L[i] L[i+1] L[i+2])
    (TU : ∀ i, ∀ h1 : i < U.length, ∀ h2 : i + 1 < U.length, ∀ h3 : i + 2 < U.length,
      0 < cross3 U[i] U[i+1] U[i+2])
    (hLU : L[L.length - 1] = U[0])
    (hUL : U[U.length - 1] = L[0])
    (S1 : (0 : K) < cross3 L[L.length - 2] U[0] U[1])
    (S2 : (0 : K) < cross3 U[U.length - 2] L[0] L[1])
    (hN3 : 3 ≤ (L.dropLast ++ U.dropLast).length) :
    ClockwiseLoop ((L.dropLast ++ U.dropLast).map Pt.pos) := by
  intro t ht
  obtain ⟨i, hi, e1, e2, e3⟩ := cyclicTriples_index _ t ht
  rw [e1, e2, e3]
  simp only [List.length_map] at hi
  simp only [List.get_eq_getElem, List.getElem_map, List.length_map]
  rw [← cross3_posP]
  have hn : (L.dropLast ++ U.dropLast).length = L.length - 1 + (U.length - 1) := by
    simp [List.length_dropLast]
  have lowGet : ∀ j, ∀ hb : j < (L.dropLast ++ U.dropLast).length, ∀ hbl : j < L.length,
      j < L.length - 1 → (L.dropLast ++ U.dropLast)[j] = L[j] := by
    intro j hb hbl hj
    rw [List.getElem_append_left (by rw [List.length_dropLast]; omega)]
    exact List.getElem_dropLast L j (by rw [List.length_dropLast]; omega)
  have upGet : ∀ j, ∀ hb : j < (L.dropLast ++ U.dropLast).length,
      ∀ hbu : j - (L.length - 1) < U.length,
      L.length - 1 ≤ j → (L.dropLast ++ U.dropLast)[j] = U[j - (L.length - 1)] := by
    intro j hb hbu hj
    rw [List.getElem_append_right (by rw [List.length_dropLast]; omega)]
    have hb1 : j - L.dropLast.length < U.dropLast.length := by
      simp only [List.length_dropLast] at *
      omega
    have hb2 : j - L.dropLast.length < U.length := by
      simp only [List.length_dropLast] at *
      omega
    have he : (U.dropLast)[j - L.dropLast.length] = U[j - L.dropLast.length] :=
      List.getElem_dropLast U _ hb1
    rw [he]
    simp only [List.length_dropLast]
  have lowElem : ∀ j, ∀ hb : j < (L.dropLast ++ U.dropLast).length, ∀ hbl : j < L.length,
      j ≤ L.length - 1 → (L.dropLast ++ U.dropLast)[j] = L[j] := by
    intro j hb hbl hj
    by_cases hlt : j < L.length - 1
    · exact lowGet j hb hbl hlt
    · have hje : j = L.length - 1 := by omega
      subst hje
      have hres := upGet (L.length - 1) hb (by omega) (by omega)
      simp only [Nat.sub_self] at hres
      rw [hres]
      exact hLU.symm
  have hzero : ∀ hb : 0 < (L.dropLast ++ U.dropLast).length,
      (L.dropLast ++ U.dropLast)[0] = U[U.length - 1] := by
    intro hb
    have hres := lowElem 0 hb (by omega) (by omega)
    rw [hres]
    exact hUL.symm
  by_cases hE : i + 1 = (L.dropLast ++ U.dropLast).length
  · -- wrap by one: seam at the minimum
    have hm1 : (i + 1) % (L.dropLast ++ U.dropLast).length = 0 := by
      rw [hE]
      exact Nat.mod_self _
    have hm2 : (i + 2) % (L.dropLast ++ U.dropLast).length = 1 := by
      have hx : i + 2 = (L.dropLast ++ U.dropLast).length + 1 := by omega
      rw [hx, Nat.add_mod_left]
      exact Nat.mod_eq_of_lt (by omega)
    simp only [hm1, hm2]
    have hri := upGet i hi (by omega) (by omega)
    have h0 := lowElem 0 (by omega) (by omega) (by omega)
    have h1 := lowElem 1 (by omega) (by omega) (by omega)
    rw [hri, h0, h1]
    simp only [show i - (L.length - 1) = U.length - 2 by omega]
    exact S2
  · by_cases hB : i + 2 = L.length
    · -- seam at the maximum
      have hm1 : (i + 1) % (L.dropLast ++ U.dropLast).length = i + 1 :=
        Nat.mod_eq_of_lt (by omega)
      have hri := lowElem i hi (by omega) (by omega)
      have hr1 := upGet (i + 1) (by omega) (by omega) (by omega)
      by_cases hkn : i + 2 < (L.dropLast ++ U.dropLast).length
      · have hm2 : (i + 2) % (L.dropLast ++ U.dropLast).length = i + 2 :=
          Nat.mod_eq_of_lt (by omega)
        simp only [hm1, hm2]
        have hr2 := upGet (i + 2) (by omega) (by omega) (by omega)
        rw [hri, hr1, hr2]
        simp only [show i + 1 - (L.length - 1) = 0 by omega,
          show i + 2 - (L.length - 1) = 1 by omega]
        simp only [show i = L.length - 2 by omega]
        exact S1
      · have hm2 : (i + 2) % (L.dropLast ++ U.dropLast).length = 0 := by
          have hx : i + 2 = (L.dropLast ++ U.dropLast).length := by omega
          rw [hx]
          exact Nat.mod_self _
        simp only [hm1, hm2]
        rw [hri, hr1, hzero (by omega)]
        simp only [show i + 1 - (L.length - 1) = 0 by omega,
          show U.length - 1 = 1 by omega]
        simp only [show i = L.length - 2 by omega]
        exact S1
    · by_cases hA : i + 2 < L.length
      · -- inside the lower chain
        have hm1 : (i + 1) % (L.dropLast ++ U.dropLast).length = i + 1 :=
          Nat.mod_eq_of_lt (by omega)
        have hm2 : (i + 2) % (L.dropLast ++ U.dropLast).length = i + 2 :=
          Nat.mod_eq_of_lt (by omega)
        simp only [hm1, hm2]
        rw [lowElem i hi (by omega) (by omega),
          lowElem (i + 1) (by omega) (by omega) (by omega),
          lowElem (i + 2) (by omega) (by omega) (by omega)]
        exact TL i (by omega) (by omega) (by omega)
      · by_cases hD : i + 2 = (L.dropLast ++ U.dropLast).length
        · -- wrap by two: last triple of the upper chain
          have hm1 : (i + 1) % (L.dropLast ++ U.dropLast).length = i + 1 :=
            Nat.mod_eq_of_lt (by omega)
          have hm2 : (i + 2) % (L.dropLast ++ U.dropLast).length = 0 := by
            rw [hD]
            exact Nat.mod_self _
          simp only [hm1, hm2]
          rw [upGet i hi (by omega) (by omega),
            upGet (i + 1) (by omega) (by omega) (by omega), hzero (by omega)]
          simp only [show i - (L.length - 1) = U.length - 3 by omega,
            show i + 1 - (L.length - 1) = U.length - 2 by omega]
          have hres := TU (U.length - 3) (by omega) (by omega) (by omega)
          simp only [show U.length - 3 + 1 = U.length - 2 by omega,
            show U.length - 3 + 2 = U.length - 1 by omega] at hres
          exact hres
        · -- inside the upper chain
          have hm1 : (i + 1) % (L.dropLast ++ U.dropLast).length = i + 1 :=
            Nat.mod_eq_of_lt (by omega)
          have hm2 : (i + 2) % (L.dropLast ++ U.dropLast).length = i + 2 :=
            Nat.mod_eq_of_lt (by omega)
          simp only [hm1, hm2]
          rw [upGet i hi (by omega) (by omega),
            upGet (i + 1) (by omega) (by omega) (by omega),
            upGet (i + 2) (by omega) (by omega) (by omega)]
          simp only [show i + 1 - (L.length - 1) = i - (L.length - 1) + 1 by omega,
            show i + 2 - (L.length - 1) = i - (L.length - 1) + 2 by omega]
          exact TU (i - (L.length - 1)) (by omega) (by omega) (by omega)

theorem seam1_strict {K : Type} [LinearOrderedField K] (pts : List (Pt K))
    (hpos : (pts.map Pt.pos).Nodup)
    (k2 : 2 ≤ (chainScan (pts.mergeSort ptLe)).reverse.length)
    (m2 : 2 ≤ (chainScan (pts.mergeSort ptLe).reverse).reverse.length)
    (h3 : 3 ≤ (chainScan (pts.mergeSort ptLe)).reverse.length ∨
          3 ≤ (chainScan (pts.mergeSort ptLe).reverse).reverse.length) :
    (0 : K) < cross3
      ((chainScan (pts.mergeSort ptLe)).reverse[(chainScan (pts.mergeSort ptLe)).reverse.length - 2])
      ((chainScan (pts.mergeSort ptLe).reverse).reverse[0])
      ((chainScan (pts.mergeSort ptLe).reverse).reverse[1]) := by
  have invL := chainScan_inv lexPos lexPos_neg lexPos_add lexPos_smul lexPos_par
    (pts.mergeSort ptLe) (sorted_strict pts hpos)
  have invU := chainScan_inv (fun w => lexPos (-w)) lexNeg_neg lexNeg_add lexNeg_smul
    lexNeg_par (pts.mergeSort ptLe).reverse (sorted_strict_rev pts hpos)
  have hLUlast : (chainScan (pts.mergeSort ptLe)).reverse.getLast? =
      (chainScan (pts.mergeSort ptLe).reverse).reverse.head? := by
    rw [chain_last lexPos _ invL, chain_head _ _ invU, List.head?_reverse]
  have hLgl : (chainScan (pts.mergeSort ptLe)).reverse.getLast? =
      some ((chainScan (pts.mergeSort ptLe)).reverse[(chainScan (pts.mergeSort ptLe)).reverse.length - 1]) := by
    rw [List.getLast?_eq_getElem?]
    exact List.getElem?_eq_getElem (by omega)
  have hUh : (chainScan (pts.mergeSort ptLe).reverse).reverse.head? =
      some ((chainScan (pts.mergeSort ptLe).reverse).reverse[0]) := by
    rw [List.head?_eq_getElem?]
    exact List.getElem?_eq_getElem (by omega)
  have hLU : (chainScan (pts.mergeSort ptLe)).reverse[(chainScan (pts.mergeSort ptLe)).reverse.length - 1] =
      (chainScan (pts.mergeSort ptLe).reverse).reverse[0] :=
    Option.some.inj ((hLgl.symm.trans hLUlast).trans hUh)
  have hmonoL := List.pairwise_iff_getElem.1 (chain_mono lexPos _ invL)
  have hmonoU := List.pairwise_iff_getElem.1 (chain_mono _ _ invU)
  refine seam_strict lexPos lexPos_par _ _ _ (pts.mergeSort ptLe) ?_ ?_ ?_ ?_ ?_ ?_
  · rw [← hLU]
    exact hmonoL ((chainScan (pts.mergeSort ptLe)).reverse.length - 2)
      ((chainScan (pts.mergeSort ptLe)).reverse.length - 1) (by omega) (by omega) (by omega)
  · have hx := hmonoU 0 1 (by omega) (by omega) (by omega)
    rw [← neg_sub]
    exact hx
  · have hx : (chainScan (pts.mergeSort ptLe).reverse).reverse[1] ∈
        (chainScan (pts.mergeSort ptLe).reverse).reverse := List.getElem_mem (by omega)
    have hy := invU.sublist.subset hx
    exact List.mem_reverse.1 hy
  · intro q hq
    have hpair := pairs_getElem_mem (chainScan (pts.mergeSort ptLe)).reverse
      ((chainScan (pts.mergeSort ptLe)).reverse.length - 2) (by omega)
    have hx := chain_edges lexPos _ invL _ hpair q hq
    simp only [List.get_eq_getElem] at hx
    simp only [show (chainScan (pts.mergeSort ptLe)).reverse.length - 2 + 1 =
      (chainScan (pts.mergeSort ptLe)).reverse.length - 1 by omega] at hx
    rw [hLU] at hx
    exact hx
  · intro q hq
    have hq2 : q ∈ (pts.mergeSort ptLe).reverse := List.mem_reverse.2 hq
    have hpair := pairs_getElem_mem (chainScan (pts.mergeSort ptLe).reverse).reverse 0 (by omega)
    have hx := chain_edges _ _ invU _ hpair q hq2
    simp only [List.get_eq_getElem] at hx
    exact hx
  · by_cases hm3 : 3 ≤ (chainScan (pts.mergeSort ptLe).reverse).reverse.length
    · left
      refine ⟨(chainScan (pts.mergeSort ptLe).reverse).reverse[2], ?_, ?_⟩
      · have hx : (chainScan (pts.mergeSort ptLe).reverse).reverse[2] ∈
            (chainScan (pts.mergeSort ptLe).reverse).reverse := List.getElem_mem (by omega)
        exact List.mem_reverse.1 (invU.sublist.subset hx)
      · have hx := triples_getElem _ _ (chain_turns _ _ invU) 0 (by omega)
        simp only [List.get_eq_getElem] at hx
        exact hx
    · right
      have hk3 : 3 ≤ (chainScan (pts.mergeSort ptLe)).reverse.length := by
        rcases h3 with hx | hx
        · exact hx
        · exact absurd hx hm3
      refine ⟨(chainScan (pts.mergeSort ptLe)).reverse[(chainScan (pts.mergeSort ptLe)).reverse.length - 3], ?_, ?_⟩
      · have hx : (chainScan (pts.mergeSort ptLe)).reverse[(chainScan (pts.mergeSort ptLe)).reverse.length - 3] ∈
            (chainScan (pts.mergeSort ptLe)).reverse := List.getElem_mem (by omega)
        exact invL.sublist.subset hx
      · have hx := triples_getElem _ _ (chain_turns lexPos _ invL)
          ((chainScan (pts.mergeSort ptLe)).reverse.length - 3) (by omega)
        simp only [List.get_eq_getElem] at hx
        simp only [show (chainScan (pts.mergeSort ptLe)).reverse.length - 3 + 1 =
            (chainScan (pts.mergeSort ptLe)).reverse.length - 2 by omega,
          show (chainScan (pts.mergeSort ptLe)).reverse.length - 3 + 2 =
            (chainScan (pts.mergeSort ptLe)).reverse.length - 1 by omega] at hx
        rw [hLU] at hx
        exact hx

theorem seam2_strict {K : Type} [LinearOrderedField K] (pts : List (Pt K))
    (hpos : (pts.map Pt.pos).Nodup)
    (k2 : 2 ≤ (chainScan (pts.mergeSort ptLe)).reverse.length)
    (m2 : 2 ≤ (chainScan (pts.mergeSort ptLe).reverse).reverse.length)
    (h3 : 3 ≤ (chainScan (pts.mergeSort ptLe)).reverse.length ∨
          3 ≤ (chainScan (pts.mergeSort ptLe).reverse).reverse.length) :
    (0 : K) < cross3
      ((chainScan (pts.mergeSort ptLe).reverse).reverse[(chainScan (pts.mergeSort ptLe).reverse).reverse.length - 2])
      ((chainScan (pts.mergeSort ptLe)).reverse[0])
      ((chainScan (pts.mergeSort ptLe)).reverse[1]) := by
  have invL := chainScan_inv lexPos lexPos_neg lexPos_add lexPos_smul lexPos_par
    (pts.mergeSort ptLe) (sorted_strict pts hpos)
  have invU := chainScan_inv (fun w => lexPos (-w)) lexNeg_neg lexNeg_add lexNeg_smul
    lexNeg_par (pts.mergeSort ptLe).reverse (sorted_strict_rev pts hpos)
  have hULlast : (chainScan (pts.mergeSort ptLe).reverse).reverse.getLast? =
      (chainScan (pts.mergeSort ptLe)).reverse.head? := by
    rw [chain_last _ _ invU, chain_head lexPos _ invL, List.getLast?_reverse]
  have hUgl : (chainScan (pts.mergeSort ptLe).reverse).reverse.getLast? =
      some ((chainScan (pts.mergeSort ptLe).reverse).reverse[(chainScan (pts.mergeSort ptLe).reverse).reverse.length - 1]) := by
    rw [List.getLast?_eq_getElem?]
    exact List.getElem?_eq_getElem (by omega)
  have hLh : (chainScan (pts.mergeSort ptLe)).reverse.head? =
      some ((chainScan (pts.mergeSort ptLe)).reverse[0]) := by
    rw [List.head?_eq_getElem?]
    exact List.getElem?_eq_getElem (by omega)
  have hUL : (chainScan (pts.mergeSort ptLe).reverse).reverse[(chainScan (pts.mergeSort ptLe).reverse).reverse.length - 1] =
      (chainScan (pts.mergeSort ptLe)).reverse[0] :=
    Option.some.inj ((hUgl.symm.trans hULlast).trans hLh)
  have hmonoL := List.pairwise_iff_getElem.1 (chain_mono lexPos _ invL)
  have hmonoU := List.pairwise_iff_getElem.1 (chain_mono _ _ invU)
  refine seam_strict (fun w => lexPos (-w)) lexNeg_par _ _ _ (pts.mergeSort ptLe)
    ?_ ?_ ?_ ?_ ?_ ?_
  · rw [← hUL]
    exact hmonoU ((chainScan (pts.mergeSort ptLe).reverse).reverse.length - 2)
      ((chainScan (pts.mergeSort ptLe).reverse).reverse.length - 1) (by omega) (by omega)
      (by omega)
  · show lexPos (-((chainScan (pts.mergeSort ptLe)).reverse[0].pos -
      (chainScan (pts.mergeSort ptLe)).reverse[1].pos))
    rw [neg_sub]
    exact hmonoL 0 1 (by omega) (by omega) (by omega)
  · have hx : (chainScan (pts.mergeSort ptLe)).reverse[1] ∈
        (chainScan (pts.mergeSort ptLe)).reverse := List.getElem_mem (by omega)
    exact invL.sublist.subset hx
  · intro q hq
    have hq2 : q ∈ (pts.mergeSort ptLe).reverse := List.mem_reverse.2 hq
    have hpair := pairs_getElem_mem (chainScan (pts.mergeSort ptLe).reverse).reverse
      ((chainScan (pts.mergeSort ptLe).reverse).reverse.length - 2) (by omega)
    have hx := chain_edges _ _ invU _ hpair q hq2
    simp only [List.get_eq_getElem] at hx
    simp only [show (chainScan (pts.mergeSort ptLe).reverse).reverse.length - 2 + 1 =
      (chainScan (pts.mergeSort ptLe).reverse).reverse.length - 1 by omega] at hx
    rw [hUL] at hx
    exact hx
  · intro q hq
    have hpair := pairs_getElem_mem (chainScan (pts.mergeSort ptLe)).reverse 0 (by omega)
    have hx := chain_edges lexPos _ invL _ hpair q hq
    simp only [List.get_eq_getElem] at hx
    exact hx
  · by_cases hk3 : 3 ≤ (chainScan (pts.mergeSort ptLe)).reverse.length
    · left
      refine ⟨(chainScan (pts.mergeSort ptLe)).reverse[2], ?_, ?_⟩
      · have hx : (chainScan (pts.mergeSort ptLe)).reverse[2] ∈
            (chainScan (pts.mergeSort ptLe)).reverse := List.getElem_mem (by omega)
        exact invL.sublist.subset hx
      · have hx := triples_getElem _ _ (chain_turns lexPos _ invL) 0 (by omega)
        simp only [List.get_eq_getElem] at hx
        exact hx
    · right
      have hm3 : 3 ≤ (chainScan (pts.mergeSort ptLe).reverse).reverse.length := by
        rcases h3 with hx | hx
        · exact absurd hx hk3
        · exact hx
      refine ⟨(chainScan (pts.mergeSort ptLe).reverse).reverse[(chainScan (pts.mergeSort ptLe).reverse).reverse.length - 3], ?_, ?_⟩
      · have hx : (chainScan (pts.mergeSort ptLe).reverse).reverse[(chainScan (pts.mergeSort ptLe).reverse).reverse.length - 3] ∈
            (chainScan (pts.mergeSort ptLe).reverse).reverse := List.getElem_mem (by omega)
        exact List.mem_reverse.1 (invU.sublist.subset hx)
      · have hx := triples_getElem _ _ (chain_turns _ _ invU)
          ((chainScan (pts.mergeSort ptLe).reverse).reverse.length - 3) (by omega)
        simp only [List.get_eq_getElem] at hx
        simp only [show (chainScan (pts.mergeSort ptLe).reverse).reverse.length - 3 + 1 =
            (chainScan (pts.mergeSort ptLe).reverse).reverse.length - 2 by omega,
          show (chainScan (pts.mergeSort ptLe).reverse).reverse.length - 3 + 2 =
            (chainScan (pts.mergeSort ptLe).reverse).reverse.length - 1 by omega] at hx
        rw [hUL] at hx
        exact hx

theorem monotoneHull_clockwise {K : Type} [LinearOrderedField K] (pts : List (Pt K))
    (h3 : 3 ≤ pts.length) (hpos : (pts.map Pt.pos).Nodup) :
    3 ≤ (monotoneHull pts).length → ClockwiseLoop ((monotoneHull pts).map Pt.pos) := by
  intro hN3
  have hlen : (pts.mergeSort ptLe).length = pts.length :=
    (List.mergeSort_perm pts ptLe).length_eq
  have invL := chainScan_inv lexPos lexPos_neg lexPos_add lexPos_smul lexPos_par
    (pts.mergeSort ptLe) (sorted_strict pts hpos)
  have invU := chainScan_inv (fun w => lexPos (-w)) lexNeg_neg lexNeg_add lexNeg_smul
    lexNeg_par (pts.mergeSort ptLe).reverse (sorted_strict_rev pts hpos)
  have hP0U : ¬ (fun w : K × K => lexPos (-w)) 0 := by
    intro h
    rw [neg_zero] at h
    exact lexPos_zero h
  have k2 := chain_two lexPos (pts.mergeSort ptLe) invL (by omega)
    (sorted_strict pts hpos) lexPos_zero
  have m2 := chain_two (fun w => lexPos (-w)) (pts.mergeSort ptLe).reverse invU
    (by rw [List.length_reverse]; omega) (sorted_strict_rev pts hpos) hP0U
  have hhull : monotoneHull pts = (chainScan (pts.mergeSort ptLe)).reverse.dropLast ++
      (chainScan (pts.mergeSort ptLe).reverse).reverse.dropLast := rfl
  rw [hhull] at hN3 ⊢
  have hN3l : 3 ≤ ((chainScan (pts.mergeSort ptLe)).reverse.dropLast ++
      (chainScan (pts.mergeSort ptLe).reverse).reverse.dropLast).length := hN3
  simp only [List.length_append, List.length_dropLast] at hN3l
  have h3or : 3 ≤ (chainScan (pts.mergeSort ptLe)).reverse.length ∨
      3 ≤ (chainScan (pts.mergeSort ptLe).reverse).reverse.length := by omega
  have hLUlast : (chainScan (pts.mergeSort ptLe)).reverse.getLast? =
      (chainScan (pts.mergeSort ptLe).reverse).reverse.head? := by
    rw [chain_last lexPos _ invL, chain_head _ _ invU, List.head?_reverse]
  have hLgl : (chainScan (pts.mergeSort ptLe)).reverse.getLast? =
      some ((chainScan (pts.mergeSort ptLe)).reverse[(chainScan (pts.mergeSort ptLe)).reverse.length - 1]) := by
    rw [List.getLast?_eq_getElem?]
    exact List.getElem?_eq_getElem (by omega)
  have hUh : (chainScan (pts.mergeSort ptLe).reverse).reverse.head? =
      some ((chainScan (pts.mergeSort ptLe).reverse).reverse[0]) := by
    rw [List.head?_eq_getElem?]
    exact List.getElem?_eq_getElem (by omega)
  have hLU : (chainScan (pts.mergeSort ptLe)).reverse[(chainScan (pts.mergeSort ptLe)).reverse.length - 1] =
      (chainScan (pts.mergeSort ptLe).reverse).reverse[0] :=
    Option.some.inj ((hLgl.symm.trans hLUlast).trans hUh)
  have hULlast : (chainScan (pts.mergeSort ptLe).reverse).reverse.getLast? =
      (chainScan (pts.mergeSort ptLe)).reverse.head? := by
    rw [chain_last _ _ invU, chain_head lexPos _ invL, List.getLast?_reverse]
  have hUgl : (chainScan (pts.mergeSort ptLe).reverse).reverse.getLast? =
      some ((chainScan (pts.mergeSort ptLe).reverse).reverse[(chainScan (pts.mergeSort ptLe).reverse).reverse.length - 1]) := by
    rw [List.getLast?_eq_getElem?]
    exact List.getElem?_eq_getElem (by omega)
  have hLh : (chainScan (pts.mergeSort ptLe)).reverse.head? =
      some ((chainScan (pts.mergeSort ptLe)).reverse[0]) := by
    rw [List.head?_eq_getElem?]
    exact List.getElem?_eq_getElem (by omega)
  have hUL : (chainScan (pts.mergeSort ptLe).reverse).reverse[(chainScan (pts.mergeSort ptLe).reverse).reverse.length - 1] =
      (chainScan (pts.mergeSort ptLe)).reverse[0] :=
    Option.some.inj ((hUgl.symm.trans hULlast).trans hLh)
  refine hull_ring_clockwise _ _ k2 m2 ?_ ?_ hLU hUL ?_ ?_ hN3
  · intro i h1 h2 hx3
    have hres := triples_getElem _ _ (chain_turns lexPos _ invL) i hx3
    simp only [List.get_eq_getElem] at hres
    exact hres
  · intro i h1 h2 hx3
    have hres := triples_getElem _ _ (chain_turns _ _ invU) i hx3
    simp only [List.get_eq_getElem] at hres
    exact hres
  · exact seam1_strict pts hpos k2 m2 h3or
  · exact seam2_strict pts hpos k2 m2 h3or

/-- C1: for a graph with at least 3 vertices (with pairwise-distinct
positions), immediately after `update_periphery` the periphery is exactly
the id list of the monotone-chain hull of the vertex triples, whose
members are graph vertices lying on the hull boundary (none strictly
inside), which omits no hull corner, and which forms a strictly clockwise
closed loop (so exactly-collinear boundary points are discarded). -/
theorem C1_periphery_convex_hull {K : Type} [LinearOrderedField K] (g : PlanarGraph K)
    (h3 : 3 ≤ g.vertices.length)
    (hpos : (g.toPts.map Pt.pos).Nodup) :
    g.update_periphery.periphery = (monotoneHull g.toPts).map Pt.vid ∧
    (∀ p ∈ monotoneHull g.toPts, p ∈ g.toPts) ∧
    (∀ p ∈ monotoneHull g.toPts, OnBoundary (positionsOf g) p.pos ∧
      ¬ StrictlyInside (positionsOf g) p.pos) ∧
    (∀ v : K × K, HullCorner (positionsOf g) v →
      v ∈ (monotoneHull g.toPts).map Pt.pos) ∧
    (3 ≤ (monotoneHull g.toPts).length →
      ClockwiseLoop ((monotoneHull g.toPts).map Pt.pos)) := by
  have hlen : g.toPts.length = g.vertices.length := List.length_map _ _
  have hS : positionsOf g = g.toPts.map Pt.pos := by
    unfold positionsOf PlanarGraph.toPts
    rw [List.map_map]
    rfl
  have h1 : ¬ (g.vertices.length < 3) := by omega
  have h2 : ¬ (g.toPts.length < 3) := by omega
  refine ⟨?_, monotoneHull_mem g.toPts hpos, ?_, ?_, ?_⟩
  · simp only [PlanarGraph.update_periphery, if_neg h1, if_neg h2]
  · intro p hp
    have hb := monotoneHull_boundary g.toPts (by omega) hpos p hp
    rw [hS]
    exact ⟨hb, fun hcon => hcon hb⟩
  · intro v hv
    rw [hS] at hv
    exact monotoneHull_corners g.toPts (by omega) hpos v hv
  · exact monotoneHull_clockwise g.toPts (by omega) hpos

/-- Witness for C1 at a concrete five-vertex graph (a square with an
interior point): the hypotheses hold and the recomputed periphery is the
square's corners in clockwise order. -/
theorem C1_periphery_convex_hull_witness :
    3 ≤ exQHull.vertices.length ∧ (exQHull.toPts.map Pt.pos).Nodup ∧
      exQHull.update_periphery.periphery = [1, 2, 4, 3] := by
  refine ⟨by decide, by decide, ?_⟩
  have h := C1_periphery_convex_hull exQHull (by decide) (by decide)
  rw [h.1]
  have hsort : exQHull.toPts.mergeSort ptLe =
      ([(0, 0, 1), (0, 4, 3), (2, 1, 5), (4, 0, 2), (4, 4, 4)] : List (Pt ℚ)) := by
    norm_num [List.mergeSort, List.merge, ptLe, exQHull, PlanarGraph.toPts, Vertex.make]
  have hhull : monotoneHull exQHull.toPts =
      (chainScan ([(0, 0, 1), (0, 4, 3), (2, 1, 5), (4, 0, 2),
        (4, 4, 4)] : List (Pt ℚ))).reverse.dropLast ++
      (chainScan (([(0, 0, 1), (0, 4, 3), (2, 1, 5), (4, 0, 2),
        (4, 4, 4)] : List (Pt ℚ)).reverse)).reverse.dropLast := by
    show (chainScan (exQHull.toPts.mergeSort ptLe)).reverse.dropLast ++
      (chainScan (exQHull.toPts.mergeSort ptLe).reverse).reverse.dropLast = _
    rw [hsort]
  rw [hhull]
  norm_num [chainScan, popChain, cross3, Pt.vid]
